import Mathlib

/-! # MidiRoll: piano rolls in MIDI file format

A verification development for `src/MidiRoll.cpp`.

The class `MidiRoll` extends the MIDI container `MidiFile`.  The container
stores its events on the heap and each track is a list of event addresses
(`MidiEvent*`); the embedding keeps that shape: a store from addresses to
events, and tracks that are lists of addresses.  An event is identified by
its address, so "the same event" before and after an operation is the same
address.

A finite `double` is a rational number, and `int` values are taken as
mathematical integers.  The tempo mapper is embedded twice: with the
arithmetic carried out exactly (`rollTpq`, `setRollTempo`, `getRollTempo`),
and with every operation rounded the way IEEE 754 binary64 rounds it
(`Binary64.rollTpq`, `Binary64.setRollTempo`, `Binary64.getRollTempo`), where
a result that is not a finite number and a conversion out of the range of
`int`, which C++ leaves undefined, have no value.  The dpi fields of the
parameter store hold rationals.
-/

namespace MidiRoll

/-! ## Data model -/

/-- The kind of a MIDI message together with the data the roll code reads:
channel and key of a note message, type byte and content of a meta message. -/
inductive MidiMessage where
  | noteOn (channel key : Nat)
  | noteOff (channel key : Nat)
  | metaMessage (mtype : Nat) (content : List Char)
  | other
deriving DecidableEq, Repr

/-- An event of the container: a time stamp, a message, and the address of
the event it is paired with (`m_eventlink`), if any. -/
structure MidiEvent where
  tick : Int
  msg : MidiMessage
  link : Option Nat
deriving DecidableEq, Repr

instance : Inhabited MidiEvent := ⟨⟨0, MidiMessage.other, none⟩⟩

/-- The roll object: event store, tracks (addresses in stored order), the
ticks-per-quarter-note header field, and the three fields that `MidiRoll`
adds to the container. -/
structure Roll where
  heap : Nat → MidiEvent
  tracks : List (List Nat)
  ticksPerQuarterNote : Int
  lengthdpi : ℚ
  widthdpi : ℚ
  metadatamarker : List Char

/-! ## Tempo mapper (`setRollTempo`, `getRollTempo`) -/

/-- Conversion `int(x)` of a real value: truncation toward zero (the fractional
part is discarded). -/
def toInt (x : ℚ) : Int :=
  if 0 ≤ x then ⌊x⌋ else ⌈x⌉

/-- The value `tpq` computed on the first line of `setRollTempo`:
`int(tempo/10.0 * dpi*12.0/60.0 + 0.5)`, with the arithmetic carried out
exactly, no intermediate result being rounded; `Binary64.rollTpq` below
evaluates the same expression in binary64. -/
def rollTpq (tempo dpi : ℚ) : Int :=
  toInt (tempo / 10 * dpi * 12 / 60 + 1 / 2)

/-- `MidiFile::setTicksPerQuarterNote`: store the header field. -/
def setTicksPerQuarterNote (mr : Roll) (ticks : Int) : Roll :=
  { mr with ticksPerQuarterNote := ticks }

/-- `MidiFile::getTicksPerQuarterNote`: read the header field. -/
def getTicksPerQuarterNote (mr : Roll) : Int :=
  mr.ticksPerQuarterNote

/-- `MidiRoll::setRollTempo` on the exactly computed `tpq`: both range
checks return without altering the object (the diagnostic written to `cerr`
is not modelled). -/
def setRollTempo (mr : Roll) (tempo dpi : ℚ) : Roll :=
  let tpq := rollTpq tempo dpi
  if tpq < 1 then mr
  else if tpq > 0x7FFF then mr
  else setTicksPerQuarterNote mr tpq

/-- `MidiRoll::getRollTempo`: `tpq * 10.0 / dpi / 12.0 * 60.0`, with the
arithmetic carried out exactly; `Binary64.getRollTempo` below evaluates the
same expression in binary64. -/
def getRollTempo (mr : Roll) (dpi : ℚ) : ℚ :=
  let tpq := getTicksPerQuarterNote mr
  (tpq : ℚ) * 10 / dpi / 12 * 60

/-- The rounding the specification names for the forward step:
round to nearest, halves away from zero. -/
def roundHalfAwayFromZero (x : ℚ) : Int :=
  if 0 ≤ x then ⌊x + 1 / 2⌋ else ⌈x - 1 / 2⌉

/-- A roll with one empty track and the given header value, used in examples. -/
def emptyRoll (tpq : Int) : Roll :=
  { heap := fun _ => default, tracks := [[]], ticksPerQuarterNote := tpq,
    lengthdpi := 300, widthdpi := 300, metadatamarker := ['@'] }

/-! ## Container capabilities used by the roll code

`MidiRoll.cpp` is built on the MIDI container (`MidiFile`, `MidiEventList`,
`MidiEvent`) and on `std::regex`; neither is part of the source.  Their
operations are given here as the specification describes them. -/

/-- Modelled from the spec: the "is note-on" predicate of the container (§6). -/
def MidiEvent.isNoteOn (e : MidiEvent) : Bool :=
  match e.msg with
  | MidiMessage.noteOn _ _ => true
  | _ => false

/-- Modelled from the spec: the note-off kind of an event (§3). -/
def MidiEvent.isNoteOff (e : MidiEvent) : Bool :=
  match e.msg with
  | MidiMessage.noteOff _ _ => true
  | _ => false

/-- Modelled from the spec: the "is meta-message" predicate of the container (§6). -/
def MidiEvent.isMetaMessage (e : MidiEvent) : Bool :=
  match e.msg with
  | MidiMessage.metaMessage _ _ => true
  | _ => false

/-- Modelled from the spec: the meta-message type code (§6); `-1` when the
event is not a meta message. -/
def MidiEvent.getMetaType (e : MidiEvent) : Int :=
  match e.msg with
  | MidiMessage.metaMessage mtype _ => mtype
  | _ => -1

/-- Modelled from the spec: the "is text" predicate (§6): a meta message of
type `0x01`. -/
def MidiEvent.isText (e : MidiEvent) : Bool :=
  match e.msg with
  | MidiMessage.metaMessage mtype _ => mtype == 1
  | _ => false

/-- Modelled from the spec: meta-content get (§6); empty when the event is
not a meta message. -/
def MidiEvent.getMetaContent (e : MidiEvent) : List Char :=
  match e.msg with
  | MidiMessage.metaMessage _ content => content
  | _ => []

/-- Modelled from the spec: meta-content set (§6): replaces the payload of a
meta message and keeps its type, time stamp and link. -/
def MidiEvent.setMetaContent (e : MidiEvent) (content : List Char) : MidiEvent :=
  match e.msg with
  | MidiMessage.metaMessage mtype _ => { e with msg := MidiMessage.metaMessage mtype content }
  | _ => e

/-- Indexed track access `mr[i]`: the addresses of the events of track `i`. -/
def getTrack (mr : Roll) (i : Nat) : List Nat :=
  mr.tracks.getD i []

/-- `MidiRoll::getMetadataMarker`. -/
def getMetadataMarker (mr : Roll) : List Char :=
  mr.metadatamarker

/-- Insert address `p` into a list ordered by time stamp, before the first
entry whose tick is greater. -/
def insertByTick (heap : Nat → MidiEvent) (p : Nat) : List Nat → List Nat
  | [] => [p]
  | q :: qs =>
    if (heap p).tick < (heap q).tick then p :: q :: qs
    else q :: insertByTick heap p qs

/-- Modelled from the spec: sort-one-track-by-timestamp (§6), a sort of the
track's addresses on the tick of the events they name.  The track is taken up
from its end, so of two entries with the same tick the one that stood later
comes first: an entry appended at tick 0 ends up before the entries already
at tick 0, which is what §4.2 says of a newly inserted entry. -/
def sortByTick (heap : Nat → MidiEvent) : List Nat → List Nat
  | [] => []
  | p :: ps => insertByTick heap p (sortByTick heap ps)

/-- Apply `f` to track `i` of a track list. -/
def modifyTrack (f : List Nat → List Nat) : Nat → List (List Nat) → List (List Nat)
  | _, [] => []
  | 0, tr :: trs => f tr :: trs
  | i + 1, tr :: trs => tr :: modifyTrack f i trs

/-- Modelled from the spec: `sortTrack(i)`, sort-one-track-by-timestamp (§6). -/
def sortTrack (mr : Roll) (i : Nat) : Roll :=
  { mr with tracks := modifyTrack (sortByTick mr.heap) i mr.tracks }

/-- Modelled from the spec: `sortTracks()`, sort-all-tracks-by-timestamp (§6). -/
def sortTracks (mr : Roll) : Roll :=
  { mr with tracks := mr.tracks.map (sortByTick mr.heap) }

/-- An address used by no event of the container: one past the largest
address held by any track. -/
def freshAddr (mr : Roll) : Nat :=
  mr.tracks.flatten.foldr max 0 + 1

/-- Modelled from the spec: append-a-new-text-event(track, tick, payload)
(§6): a new meta-text event is allocated and its address is appended to the
track. -/
def addText (mr : Roll) (track : Nat) (tick : Int) (text : List Char) : Roll :=
  { mr with
    heap := Function.update mr.heap (freshAddr mr)
      { tick := tick, msg := MidiMessage.metaMessage 1 text, link := none }
    tracks := modifyTrack (fun tr => tr ++ [freshAddr mr]) track mr.tracks }

/-! ### Pattern search

The result of `regex_search(content, match, re) && (match.size() > 1)`
followed by `match.str(1)`. -/

/-- Outcome of one search: no match, a match with the text of capture
group 1, or a `regex_error` thrown by the search. -/
inductive SearchResult where
  | noMatch
  | captured (text : List Char)
  | threw
deriving DecidableEq, Repr

/-- A compiled pattern, as the function from a subject string to the
outcome of searching it. -/
abbrev Regex := List Char → SearchResult

/-- The fixed tail of the query built by `getMetadata` and `setMetadata`. -/
def querySuffix : List Char := ":\\s*(.*)\\s*$".toList

/-- Characters matched by `\s`. -/
def isSpace (c : Char) : Bool :=
  c == ' ' || c == '\t' || c == '\n' || c == '\x0b' || c == '\x0c' || c == '\r'

/-- Characters not matched by `.`: the line terminators. -/
def isLineTerminator (c : Char) : Bool :=
  c == '\n' || c == '\r'

/-- Characters with a special meaning in a pattern. -/
def isMetaChar (c : Char) : Bool :=
  "^$\\.*+?()[]|".toList.contains c || c == '\x7b' || c == '\x7d'

/-- Modelled from the spec: the match of `\s*(.*)\s*$` anchored at the start
of `rest` (§4.2).  Each starred item takes as much as it can: the leading
white space, then the capture up to the first line terminator, then white
space, which must reach the end of the subject.  When this choice fails no
shorter one succeeds: whatever is left after the capture still has to be
white space up to the end. -/
def matchTail (rest : List Char) : Option (List Char) :=
  let r1 := rest.dropWhile isSpace
  let r2 := r1.dropWhile (fun c => !isLineTerminator c)
  if r2.all isSpace then some (r1.takeWhile (fun c => !isLineTerminator c)) else none

/-- Modelled from the spec: the match of `<lit>:\s*(.*)\s*$` anchored at the
start of `s`, for a pattern text `lit` that is taken literally (§4.2). -/
def matchAt (lit : List Char) (s : List Char) : Option (List Char) :=
  if (lit ++ [':']).isPrefixOf s then matchTail (s.drop (lit.length + 1)) else none

/-- Modelled from the spec: search of the pattern `<lit>:\s*(.*)\s*$` in a
subject (§4.2): the leftmost start position at which the pattern matches
decides the capture. -/
def literalSearch (lit : List Char) : List Char → SearchResult
  | [] => SearchResult.noMatch
  | c :: cs =>
    match matchAt lit (c :: cs) with
    | some text => SearchResult.captured text
    | none => literalSearch lit cs

/-- A pattern constructor (`regex re(query)`): `none` stands for a
`regex_error` thrown by the constructor.  A constructor reads queries whose
marker and key are free of pattern metacharacters literally when it satisfies
this predicate. -/
def ReadsLiterals (regex : List Char → Option Regex) : Prop :=
  ∀ lit : List Char, (∀ c ∈ lit, isMetaChar c = false) →
    regex (lit ++ querySuffix) = some (literalSearch lit)

/-- A pattern constructor defined on the literal queries only: it accepts a
query made of metacharacter-free text followed by the fixed tail, and
nothing else. -/
def literalRegex (query : List Char) : Option Regex :=
  let lit := query.take (query.length - querySuffix.length)
  if query.drop (query.length - querySuffix.length) = querySuffix ∧
      lit.all (fun c => !isMetaChar c) then
    some (literalSearch lit)
  else none

/-! ## Metadata codec (`getTextEvents` … `setMetadata`) -/

/-- `MidiRoll::getTextEvents`: the addresses of all meta-message events of
type `0x01`, track by track in stored order. -/
def getTextEvents (mr : Roll) : List Nat :=
  mr.tracks.flatten.filter (fun p =>
    (mr.heap p).isMetaMessage && (mr.heap p).getMetaType == 0x01)

/-- `MidiRoll::getMetadataEvents`: the text events whose content starts with
the marker (`content.compare(0, marker.size(), marker) == 0`) and holds a
`:` at or after position `marker.size()`. -/
def getMetadataEvents (mr : Roll) : List Nat :=
  let marker := getMetadataMarker mr
  mr.tracks.flatten.filter (fun p =>
    (mr.heap p).isMetaMessage && (mr.heap p).getMetaType == 0x01 &&
    decide ((mr.heap p).getMetaContent.take marker.length = marker) &&
    ((mr.heap p).getMetaContent.drop marker.length).contains ':')

/-- Loop of `getMetadata` over track 0: the capture of the first text event
whose content the pattern matches; the empty string (the initial `output`)
if the loop ends without a match.  A search that throws is caught and the
loop goes on. -/
def getMetadataLoop (heap : Nat → MidiEvent) (re : Regex) : List Nat → List Char
  | [] => []
  | p :: ps =>
    if !(heap p).isText then getMetadataLoop heap re ps
    else
      match re (heap p).getMetaContent with
      | SearchResult.captured text => text
      | _ => getMetadataLoop heap re ps

/-- `MidiRoll::getMetadata`.  The pattern is constructed outside the `try`
block, so a constructor failure leaves the function by an exception: `none`. -/
def getMetadata (regex : List Char → Option Regex) (mr : Roll) (key : List Char) :
    Option (List Char) :=
  let query := getMetadataMarker mr ++ key ++ querySuffix
  match regex query with
  | none => none
  | some re => some (getMetadataLoop mr.heap re (getTrack mr 0))

/-- Loop of `setMetadata` over track 0: at the first text event whose content
the pattern matches, the content is replaced by `newline` and the loop
breaks with `found = true` and `output` the tick of that event (`some`);
`none` when the loop ends with `found = false`. -/
def setMetadataLoop (heap : Nat → MidiEvent) (re : Regex) (newline : List Char) :
    List Nat → Option (Int × (Nat → MidiEvent))
  | [] => none
  | p :: ps =>
    if !(heap p).isText then setMetadataLoop heap re newline ps
    else
      match re (heap p).getMetaContent with
      | SearchResult.captured _ =>
        some ((heap p).tick, Function.update heap p ((heap p).setMetaContent newline))
      | _ => setMetadataLoop heap re newline ps

/-- `MidiRoll::setMetadata`: the returned integer and the roll afterwards;
`none` when the pattern constructor throws. -/
def setMetadata (regex : List Char → Option Regex) (mr : Roll) (key value : List Char) :
    Option (Int × Roll) :=
  if key.isEmpty then some (-1, mr)
  else
    let query := getMetadataMarker mr ++ key ++ querySuffix
    match regex query with
    | none => none
    | some re =>
      let newline := getMetadataMarker mr ++ key ++ [':', ' '] ++ value
      match setMetadataLoop mr.heap re newline (getTrack mr 0) with
      | some (output, heap) => some (output, { mr with heap := heap })
      | none => some (0, sortTrack (addText mr 0 0 newline) 0)

/-- An event of track 0 counts as matching the pattern when it is a text
event and the search of its content yields a capture. -/
def matchesKey (heap : Nat → MidiEvent) (re : Regex) (p : Nat) : Bool :=
  (heap p).isText &&
    match re (heap p).getMetaContent with
    | SearchResult.captured _ => true
    | _ => false

/-! ## Roll parameter store -/

/-- `MidiRoll::getLengthDpi`. -/
def getLengthDpi (mr : Roll) : ℚ :=
  mr.lengthdpi

/-- `MidiRoll::setLengthDpi`: a value that is not positive is ignored. -/
def setLengthDpi (mr : Roll) (value : ℚ) : Roll :=
  if value > 0 then { mr with lengthdpi := value } else mr

/-- `MidiRoll::getWidthDpi`. -/
def getWidthDpi (mr : Roll) : ℚ :=
  mr.widthdpi

/-- `MidiRoll::setWidthDpi`: a value that is not positive is ignored. -/
def setWidthDpi (mr : Roll) (value : ℚ) : Roll :=
  if value > 0 then { mr with widthdpi := value } else mr

/-- `MidiRoll::setMetadataMarker`. -/
def setMetadataMarker (mr : Roll) (value : List Char) : Roll :=
  { mr with metadatamarker := value }

/-! ## Roll transform (`trackerize`) -/

/-- Modelled from the spec: merge-all-tracks-into-one (§4.3 step 1): the
single ordered working list of all events.  The merged list is handed on
explicitly; the track list keeps recording which track each event belongs
to. -/
def joinTracks (mr : Roll) : List Nat :=
  sortByTick mr.heap mr.tracks.flatten

/-- Remove the pairing link of every listed event. -/
def unlinkAll (heap : Nat → MidiEvent) : List Nat → (Nat → MidiEvent)
  | [] => heap
  | p :: ps => unlinkAll (Function.update heap p { heap p with link := none }) ps

/-- The first listed note-off on the given channel and key that is not
already claimed by a note-on. -/
def findNoteOff (heap : Nat → MidiEvent) (channel key : Nat) : List Nat → Option Nat
  | [] => none
  | q :: qs =>
    if (heap q).msg = MidiMessage.noteOff channel key ∧ (heap q).link = none then some q
    else findNoteOff heap channel key qs

/-- Link a note-on and a note-off to each other. -/
def linkEvent (heap : Nat → MidiEvent) (p q : Nat) : Nat → MidiEvent :=
  Function.update (Function.update heap p { heap p with link := some q })
    q { heap q with link := some p }

/-- Pairing pass over the merged list, in time order: each note-on claims
the nearest later unclaimed note-off of its channel and key. -/
def linkPairs : (Nat → MidiEvent) → List Nat → (Nat → MidiEvent)
  | heap, [] => heap
  | heap, p :: rest =>
    match (heap p).msg with
    | MidiMessage.noteOn channel key =>
      match findNoteOff heap channel key rest with
      | some q => linkPairs (linkEvent heap p q) rest
      | none => linkPairs heap rest
    | _ => linkPairs heap rest

/-- Modelled from the spec: establish-note-pairing-across-merged-list (§4.3
step 2): earlier links are dropped, then each note-on is linked to the
nearest subsequent unclaimed note-off on the same channel and pitch. -/
def linkNotePairs (mr : Roll) (merged : List Nat) : Roll :=
  { mr with heap := linkPairs (unlinkAll mr.heap merged) merged }

/-- Loop of `trackerize` over the merged list: for each note-on with a
linked event `me`, `me->tick += trackerheight`. -/
def shiftLinked (trackerheight : Int) : (Nat → MidiEvent) → List Nat → (Nat → MidiEvent)
  | heap, [] => heap
  | heap, p :: ps =>
    if !(heap p).isNoteOn then shiftLinked trackerheight heap ps
    else
      match (heap p).link with
      | none => shiftLinked trackerheight heap ps
      | some me =>
        shiftLinked trackerheight
          (Function.update heap me { heap me with tick := (heap me).tick + trackerheight }) ps

/-- Modelled from the spec: split-merged-list-back-into-original-tracks
(§4.3 step 4): each track receives, in merged order, the events that belong
to it. -/
def splitTracks (mr : Roll) (merged : List Nat) : Roll :=
  { mr with tracks := mr.tracks.map (fun tr => merged.filter (fun p => decide (p ∈ tr))) }

/-- `MidiRoll::trackerize`. -/
def trackerize (mr : Roll) (trackerheight : Int) : Roll :=
  let merged := joinTracks mr
  let mr1 := linkNotePairs mr merged
  let mr2 := { mr1 with heap := shiftLinked trackerheight mr1.heap merged }
  let mr3 := splitTracks mr2 merged
  sortTracks mr3

/-- The note-offs that the pairing step of `trackerize` links to a note-on
of the merged list. -/
def linkedNoteOffs (mr : Roll) : List Nat :=
  let merged := joinTracks mr
  let heap := (linkNotePairs mr merged).heap
  merged.filterMap (fun p => if (heap p).isNoteOn then (heap p).link else none)

/-- Every event belongs to exactly one track: no address occurs twice in
the track list. -/
def WellFormed (mr : Roll) : Prop :=
  mr.tracks.flatten.Nodup

instance (mr : Roll) : Decidable (WellFormed mr) := by
  unfold WellFormed
  infer_instance

/-- A roll whose track 0 holds a title entry, a speed entry and a note-on,
used in examples. -/
def metadataRoll : Roll :=
  { heap := fun p =>
      if p = 0 then { tick := 0, msg := MidiMessage.metaMessage 1 "@title: x".toList, link := none }
      else if p = 1 then
        { tick := 5, msg := MidiMessage.metaMessage 1 "@speed: 50".toList, link := none }
      else if p = 2 then { tick := 7, msg := MidiMessage.noteOn 0 60, link := none }
      else default
    tracks := [[0, 1, 2]], ticksPerQuarterNote := 480,
    lengthdpi := 300, widthdpi := 300, metadatamarker := ['@'] }

/-- The number of listed note-ons whose link names the event `q`: how often
the loop of `trackerize` adds the offset to the tick of `q`. -/
def linkCount (heap : Nat → MidiEvent) (l : List Nat) (q : Nat) : Nat :=
  l.countP (fun p => (heap p).isNoteOn && decide ((heap p).link = some q))

/-- The targets of the links held by the listed note-ons. -/
def linkTargets (heap : Nat → MidiEvent) (l : List Nat) : List Nat :=
  l.filterMap (fun p => if (heap p).isNoteOn then (heap p).link else none)

/-- Every listed note-on that holds a link is linked to a note-off that
links back to it. -/
def BackLinked (heap : Nat → MidiEvent) (l : List Nat) : Prop :=
  ∀ p ∈ l, ∀ q, (heap p).isNoteOn = true → (heap p).link = some q →
    (heap q).isNoteOff = true ∧ (heap q).link = some p

/-- Two stores hold the same messages and links at every address (they may
differ in ticks). -/
def SameShape (heap heap2 : Nat → MidiEvent) : Prop :=
  ∀ x, (heap2 x).msg = (heap x).msg ∧ (heap2 x).link = (heap x).link

/-- A roll with one track holding two notes, used in examples: key 60 from
tick 0 to 100 and key 62 from tick 120 to 200. -/
def twoNoteRoll : Roll :=
  { heap := fun p =>
      if p = 0 then { tick := 0, msg := MidiMessage.noteOn 0 60, link := none }
      else if p = 1 then { tick := 100, msg := MidiMessage.noteOff 0 60, link := none }
      else if p = 2 then { tick := 120, msg := MidiMessage.noteOn 0 62, link := none }
      else if p = 3 then { tick := 200, msg := MidiMessage.noteOff 0 62, link := none }
      else default
    tracks := [[0, 1, 2, 3]], ticksPerQuarterNote := 480,
    lengthdpi := 300, widthdpi := 300, metadatamarker := ['@'] }

/-- A roll with one track holding a note-on at tick 0 followed by two
note-offs of the same key at ticks 10 and 20, used in examples. -/
def extraNoteOffRoll : Roll :=
  { heap := fun p =>
      if p = 0 then { tick := 0, msg := MidiMessage.noteOn 0 60, link := none }
      else if p = 1 then { tick := 10, msg := MidiMessage.noteOff 0 60, link := none }
      else if p = 2 then { tick := 20, msg := MidiMessage.noteOff 0 60, link := none }
      else default
    tracks := [[0, 1, 2]], ticksPerQuarterNote := 480,
    lengthdpi := 300, widthdpi := 300, metadatamarker := ['@'] }

/-- The note-ons of the merged list that the pairing step of `trackerize`
leaves without a linked note-off (the `MISSING NOTE OFF` branch of the loop). -/
def unlinkedNoteOns (mr : Roll) : List Nat :=
  let merged := joinTracks mr
  let heap := (linkNotePairs mr merged).heap
  merged.filter (fun p => (heap p).isNoteOn && (heap p).link.isNone)

/-- A roll with one track, used in examples: key 60 sounds from tick 0 to
100, a note-on of key 64 at tick 50 has no note-off, and a note-off of key
70 at tick 60 has no note-on. -/
def unpairedRoll : Roll :=
  { heap := fun p =>
      if p = 0 then { tick := 0, msg := MidiMessage.noteOn 0 60, link := none }
      else if p = 1 then { tick := 50, msg := MidiMessage.noteOn 0 64, link := none }
      else if p = 2 then { tick := 60, msg := MidiMessage.noteOff 0 70, link := none }
      else if p = 3 then { tick := 100, msg := MidiMessage.noteOff 0 60, link := none }
      else default
    tracks := [[0, 1, 2, 3]], ticksPerQuarterNote := 480,
    lengthdpi := 300, widthdpi := 300, metadatamarker := ['@'] }

/-- A roll whose track 0 holds one text event with a blank after the value,
used in examples. -/
def trailingSpaceRoll : Roll :=
  { heap := fun p =>
      if p = 0 then
        { tick := 0, msg := MidiMessage.metaMessage 1 "@speed: 60 ".toList, link := none }
      else default
    tracks := [[0]], ticksPerQuarterNote := 480,
    lengthdpi := 300, widthdpi := 300, metadatamarker := ['@'] }

/-- A roll whose track 0 holds one text event that does not start with the
marker but has `@speed:` further in, used in examples. -/
def embeddedRoll : Roll :=
  { heap := fun p =>
      if p = 0 then
        { tick := 3, msg := MidiMessage.metaMessage 1 "note @speed: 60".toList, link := none }
      else default
    tracks := [[0]], ticksPerQuarterNote := 480,
    lengthdpi := 300, widthdpi := 300, metadatamarker := ['@'] }

/-- The shape of a metadata payload in the words of the specification: it
begins with the marker and holds a `:` at an index that is at least the
length of the marker. -/
def metadataShape (marker content : List Char) : Bool :=
  marker.isPrefixOf content &&
    (List.range content.length).any
      (fun i => decide (marker.length ≤ i) && (content[i]? == some ':'))

/-- A roll with two tracks, used in examples: track 0 holds two speed
entries (50, then 70) and track 1 holds a third one (90). -/
def duplicateKeyRoll : Roll :=
  { heap := fun p =>
      if p = 0 then
        { tick := 0, msg := MidiMessage.metaMessage 1 "@speed: 50".toList, link := none }
      else if p = 1 then
        { tick := 0, msg := MidiMessage.metaMessage 1 "@speed: 70".toList, link := none }
      else if p = 2 then
        { tick := 0, msg := MidiMessage.metaMessage 1 "@speed: 90".toList, link := none }
      else default
    tracks := [[0, 1], [2]], ticksPerQuarterNote := 480,
    lengthdpi := 300, widthdpi := 300, metadatamarker := ['@'] }

/-! ## Tempo mapper in binary64

The source computes the tempo mapping in `double`.  A finite `double` is a
rational number, and each arithmetic operation of IEEE 754 binary64 returns
the exact result rounded to the nearest representable value, ties to the
even significand.  The definitions of this section evaluate the two
functions that way, one rounding per operation in the order in which the
source expression associates (no extended precision, no fused operations).
A result that is not a finite number (overflow, division by zero) is `none`,
and so is a conversion to `int` of a value outside the range of `int`, which
C++ leaves undefined. -/

namespace Binary64

/-- Round to the nearest integer, ties to the even one. -/
def roundEven (y : ℚ) : Int :=
  if 2 * Int.fract y < 1 then ⌊y⌋
  else if 1 < 2 * Int.fract y then ⌊y⌋ + 1
  else if ⌊y⌋ % 2 = 0 then ⌊y⌋ else ⌊y⌋ + 1

/-- The exponent `e` of the binade of `q`, `2^e ≤ |q| < 2^(e+1)`, not below
the exponent `-1022` of the smallest normal numbers (below it the numbers
are subnormal and share the spacing `2^(-1074)`). -/
def binade (q : ℚ) : Int :=
  max (Int.log 2 |q|) (-1022)

/-- Rounding of an exact result to binary64: the nearest multiple of
`2^(e - 52)`, `e` the binade exponent, ties to even; `none` when that value
is not below `2^1024` in magnitude (the result is an infinity). -/
def fl64 (q : ℚ) : Option ℚ :=
  if q = 0 then some 0
  else
    let r : ℚ := (roundEven (q * (2 : ℚ) ^ (52 - binade q)) : ℚ) * (2 : ℚ) ^ (binade q - 52)
    if |r| < 2 ^ 1024 then some r else none

/-- The rational `q` is a finite binary64 value. -/
def IsDouble (q : ℚ) : Prop :=
  fl64 q = some q

instance (q : ℚ) : Decidable (IsDouble q) := by
  unfold IsDouble
  infer_instance

/-- Division `a / b` in binary64; a division by zero is not finite. -/
def fdiv (a b : ℚ) : Option ℚ :=
  if b = 0 then none else fl64 (a / b)

/-- Multiplication `a * b` in binary64. -/
def fmul (a b : ℚ) : Option ℚ :=
  fl64 (a * b)

/-- Addition `a + b` in binary64. -/
def fadd (a b : ℚ) : Option ℚ :=
  fl64 (a + b)

/-- Conversion `int(x)` of a finite `double`: truncation toward zero, defined
when the truncated value is in the range of a 32-bit `int`. -/
def toInt32 (x : ℚ) : Option Int :=
  if -2 ^ 31 ≤ toInt x ∧ toInt x < 2 ^ 31 then some (toInt x) else none

/-- The value `tpq` of `setRollTempo`, `int(tempo/10.0 * dpi*12.0/60.0 + 0.5)`,
evaluated from left to right with every operation rounded to binary64. -/
def rollTpq (tempo dpi : ℚ) : Option Int :=
  (fdiv tempo 10).bind fun a1 =>
  (fmul a1 dpi).bind fun a2 =>
  (fmul a2 12).bind fun a3 =>
  (fdiv a3 60).bind fun a4 =>
  (fadd a4 (1 / 2)).bind fun s =>
  toInt32 s

/-- `MidiRoll::setRollTempo` with the arithmetic of the source: both range
checks return without altering the object. -/
def setRollTempo (mr : Roll) (tempo dpi : ℚ) : Option Roll :=
  (rollTpq tempo dpi).map fun tpq =>
    if tpq < 1 then mr
    else if tpq > 0x7FFF then mr
    else setTicksPerQuarterNote mr tpq

/-- `MidiRoll::getRollTempo` with the arithmetic of the source:
`tpq * 10.0 / dpi / 12.0 * 60.0`, the `int` first converted to `double`. -/
def getRollTempo (mr : Roll) (dpi : ℚ) : Option ℚ :=
  (fl64 (getTicksPerQuarterNote mr : ℚ)).bind fun b0 =>
  (fmul b0 10).bind fun b1 =>
  (fdiv b1 dpi).bind fun b2 =>
  (fdiv b2 12).bind fun b3 =>
  fmul b3 60

end Binary64

/-! ## Tempo mapper: lemmas -/

/-- C2: when the computed `tpq` is below 1 or above 32767, `setRollTempo`
leaves the roll (and so the header field) as it was; in every case the header
field afterwards is either the prior value or a value in `1..32767`. -/
theorem setRollTempo_rejects_out_of_range (mr : Roll) (tempo dpi : ℚ) :
    ((rollTpq tempo dpi < 1 ∨ 32767 < rollTpq tempo dpi) →
        setRollTempo mr tempo dpi = mr) ∧
    (getTicksPerQuarterNote (setRollTempo mr tempo dpi) = getTicksPerQuarterNote mr ∨
      (1 ≤ getTicksPerQuarterNote (setRollTempo mr tempo dpi) ∧
        getTicksPerQuarterNote (setRollTempo mr tempo dpi) ≤ 32767)) := by
  unfold setRollTempo
  constructor
  · intro h
    rcases h with h | h
    · simp [h]
    · simp [h]
  · by_cases h1 : rollTpq tempo dpi < 1
    · simp [h1]
    · by_cases h2 : rollTpq tempo dpi > 0x7FFF
      · simp [h2]
      · right
        simp only [h1, h2, if_false]
        simp only [getTicksPerQuarterNote, setTicksPerQuarterNote]
        constructor <;> omega

/-! ## Pattern search: lemmas -/

theorem dropWhile_notLT_eq_nil {v : List Char} (h : ∀ c ∈ v, isLineTerminator c = false) :
    v.dropWhile (fun c => !isLineTerminator c) = [] := by
  rw [List.dropWhile_eq_nil_iff]
  intro c hc
  simp [h c hc]

theorem takeWhile_notLT_eq_self {v : List Char} (h : ∀ c ∈ v, isLineTerminator c = false) :
    v.takeWhile (fun c => !isLineTerminator c) = v := by
  rw [List.takeWhile_eq_self_iff]
  intro c hc
  simp [h c hc]

theorem dropWhile_isSpace_eq_self {v : List Char}
    (h : ∀ c, v.head? = some c → isSpace c = false) : v.dropWhile isSpace = v := by
  cases v with
  | nil => rfl
  | cons a t =>
    have := h a rfl
    simp [List.dropWhile, this]

theorem mem_dropWhile {α : Type} (f : α → Bool) {l : List α} {a : α}
    (h : a ∈ l.dropWhile f) : a ∈ l :=
  (List.dropWhile_suffix f).subset h

/-- A value without leading white space and without line terminator is
captured whole. -/
theorem matchTail_space_value {v : List Char}
    (hws : ∀ c, v.head? = some c → isSpace c = false)
    (hlt : ∀ c ∈ v, isLineTerminator c = false) :
    matchTail (' ' :: v) = some v := by
  have h0 : (' ' :: v).dropWhile isSpace = v := by
    have : isSpace ' ' = true := by decide
    simp [List.dropWhile, this, dropWhile_isSpace_eq_self hws]
  unfold matchTail
  simp only [h0, dropWhile_notLT_eq_nil hlt, takeWhile_notLT_eq_self hlt]
  simp

/-- A value without line terminator always yields some capture. -/
theorem matchTail_space_isSome {v : List Char}
    (hlt : ∀ c ∈ v, isLineTerminator c = false) :
    ∃ text, matchTail (' ' :: v) = some text := by
  have hlt2 : ∀ c ∈ (' ' :: v).dropWhile isSpace, isLineTerminator c = false := by
    intro c hc
    have hc2 := mem_dropWhile isSpace hc
    rcases List.mem_cons.mp hc2 with h | h
    · subst h; decide
    · exact hlt c h
  unfold matchTail
  simp only [dropWhile_notLT_eq_nil hlt2]
  simp

theorem matchAt_payload (lit v : List Char) :
    matchAt lit (lit ++ [':', ' '] ++ v) = matchTail (' ' :: v) := by
  unfold matchAt
  have hp : (lit ++ [':']).isPrefixOf (lit ++ [':', ' '] ++ v) = true := by
    rw [List.isPrefixOf_iff_prefix]
    exact ⟨' ' :: v, by simp⟩
  have hd : (lit ++ [':', ' '] ++ v).drop (lit.length + 1) = ' ' :: v := by
    have e : lit ++ [':', ' '] ++ v = (lit ++ [':']) ++ (' ' :: v) := by simp
    rw [e]
    have hl : (lit ++ [':']).length = lit.length + 1 := by simp
    rw [← hl, List.drop_left]
  rw [if_pos hp, hd]

theorem literalSearch_of_matchAt {lit s text : List Char} (hs : s ≠ [])
    (h : matchAt lit s = some text) : literalSearch lit s = SearchResult.captured text := by
  cases s with
  | nil => exact absurd rfl hs
  | cons c cs => simp [literalSearch, h]

theorem payload_ne_nil (lit v : List Char) : lit ++ [':', ' '] ++ v ≠ [] := by
  simp

/-- Searching the payload written by `setMetadata` captures the value. -/
theorem literalSearch_payload {lit v : List Char}
    (hws : ∀ c, v.head? = some c → isSpace c = false)
    (hlt : ∀ c ∈ v, isLineTerminator c = false) :
    literalSearch lit (lit ++ [':', ' '] ++ v) = SearchResult.captured v :=
  literalSearch_of_matchAt (payload_ne_nil lit v)
    (by rw [matchAt_payload, matchTail_space_value hws hlt])

theorem literalSearch_payload_isSome (lit : List Char) {v : List Char}
    (hlt : ∀ c ∈ v, isLineTerminator c = false) :
    ∃ text, literalSearch lit (lit ++ [':', ' '] ++ v) = SearchResult.captured text := by
  obtain ⟨text, ht⟩ := matchTail_space_isSome hlt
  exact ⟨text, literalSearch_of_matchAt (payload_ne_nil lit v) (by rw [matchAt_payload, ht])⟩

theorem literalRegex_readsLiterals : ReadsLiterals literalRegex := by
  intro lit hlit
  unfold literalRegex
  have hlen : (lit ++ querySuffix).length - querySuffix.length = lit.length := by simp
  simp only [hlen, List.take_left, List.drop_left]
  rw [if_pos]
  refine ⟨trivial, ?_⟩
  rw [List.all_eq_true]
  intro c hc
  simp [hlit c hc]

/-! ## Metadata codec: lemmas -/

theorem setMetadataLoop_cons_match {heap : Nat → MidiEvent} {re : Regex} {nl : List Char}
    {p : Nat} {ps : List Nat} (h : matchesKey heap re p = true) :
    setMetadataLoop heap re nl (p :: ps)
      = some ((heap p).tick, Function.update heap p ((heap p).setMetaContent nl)) := by
  unfold matchesKey at h
  unfold setMetadataLoop
  cases ht : (heap p).isText <;> rw [ht] at h
  · simp at h
  · cases hr : re (heap p).getMetaContent <;> rw [hr] at h <;> simp at h
    simp

theorem setMetadataLoop_cons_skip {heap : Nat → MidiEvent} {re : Regex} {nl : List Char}
    {p : Nat} {ps : List Nat} (h : matchesKey heap re p = false) :
    setMetadataLoop heap re nl (p :: ps) = setMetadataLoop heap re nl ps := by
  unfold matchesKey at h
  rw [setMetadataLoop]
  cases ht : (heap p).isText <;> rw [ht] at h
  · simp
  · cases hr : re (heap p).getMetaContent <;> rw [hr] at h <;> simp at h <;> simp

theorem getMetadataLoop_cons_match {heap : Nat → MidiEvent} {re : Regex} {text : List Char}
    {p : Nat} {ps : List Nat} (ht : (heap p).isText = true)
    (hr : re (heap p).getMetaContent = SearchResult.captured text) :
    getMetadataLoop heap re (p :: ps) = text := by
  rw [getMetadataLoop]
  simp [ht, hr]

theorem getMetadataLoop_cons_skip {heap : Nat → MidiEvent} {re : Regex}
    {p : Nat} {ps : List Nat} (h : matchesKey heap re p = false) :
    getMetadataLoop heap re (p :: ps) = getMetadataLoop heap re ps := by
  unfold matchesKey at h
  rw [getMetadataLoop]
  cases ht : (heap p).isText <;> rw [ht] at h
  · simp
  · cases hr : re (heap p).getMetaContent <;> rw [hr] at h <;> simp at h <;> simp

theorem isText_setMetaContent {e : MidiEvent} (nl : List Char) (h : e.isText = true) :
    (e.setMetaContent nl).isText = true ∧ (e.setMetaContent nl).getMetaContent = nl ∧
      (e.setMetaContent nl).tick = e.tick ∧ (e.setMetaContent nl).link = e.link := by
  obtain ⟨t, m, l⟩ := e
  cases m <;> simp_all [MidiEvent.isText, MidiEvent.setMetaContent, MidiEvent.getMetaContent]

theorem matchesKey_isText {heap : Nat → MidiEvent} {re : Regex} {p : Nat}
    (h : matchesKey heap re p = true) : (heap p).isText = true := by
  unfold matchesKey at h
  simp at h
  exact h.1

theorem matchesKey_of_captured {heap : Nat → MidiEvent} {re : Regex} {p : Nat} {text : List Char}
    (ht : (heap p).isText = true)
    (hr : re (heap p).getMetaContent = SearchResult.captured text) :
    matchesKey heap re p = true := by
  unfold matchesKey
  simp [ht, hr]

theorem matchesKey_congr {heap heap2 : Nat → MidiEvent} {re : Regex} {p : Nat}
    (h : heap2 p = heap p) : matchesKey heap2 re p = matchesKey heap re p := by
  unfold matchesKey
  rw [h]

/-- The loop ends without a match exactly when no listed event matches. -/
theorem setMetadataLoop_eq_none {heap : Nat → MidiEvent} {re : Regex} {nl : List Char}
    {l : List Nat} (h : ∀ q ∈ l, matchesKey heap re q = false) :
    setMetadataLoop heap re nl l = none := by
  induction l with
  | nil => rfl
  | cons p ps ih =>
    rw [setMetadataLoop_cons_skip (h p (List.mem_cons_self _ _))]
    exact ih (fun q hq => h q (List.mem_cons_of_mem _ hq))

/-- The loop stops at the first matching event and rewrites only it. -/
theorem setMetadataLoop_first {heap : Nat → MidiEvent} {re : Regex} (nl : List Char) :
    ∀ (l : List Nat) (i p : Nat), l[i]? = some p → matchesKey heap re p = true →
      (∀ j q, j < i → l[j]? = some q → matchesKey heap re q = false) →
      setMetadataLoop heap re nl l
        = some ((heap p).tick, Function.update heap p ((heap p).setMetaContent nl)) := by
  intro l
  induction l with
  | nil => intro i p hp; simp at hp
  | cons x xs ih =>
    intro i p hp hm hfirst
    cases i with
    | zero =>
      simp at hp
      subst hp
      exact setMetadataLoop_cons_match hm
    | succ i =>
      have hx : matchesKey heap re x = false := hfirst 0 x (Nat.succ_pos i) (by simp)
      rw [setMetadataLoop_cons_skip hx]
      apply ih i p
      · simpa using hp
      · exact hm
      · intro j q hj hq
        exact hfirst (j + 1) q (Nat.succ_lt_succ hj) (by simpa using hq)

/-- Some listed event matches, so the loop finds its first match. -/
theorem setMetadataLoop_of_mem {heap : Nat → MidiEvent} {re : Regex} (nl : List Char) :
    ∀ (l : List Nat) (p : Nat), p ∈ l → matchesKey heap re p = true →
      ∃ q, q ∈ l ∧ matchesKey heap re q = true ∧
        setMetadataLoop heap re nl l
          = some ((heap q).tick, Function.update heap q ((heap q).setMetaContent nl)) := by
  intro l
  induction l with
  | nil => intro p hp; simp at hp
  | cons x xs ih =>
    intro p hp hm
    cases hx : matchesKey heap re x with
    | true => exact ⟨x, List.mem_cons_self _ _, hx, setMetadataLoop_cons_match hx⟩
    | false =>
      have hp2 : p ∈ xs := by
        rcases List.mem_cons.mp hp with h | h
        · subst h; rw [hm] at hx; cases hx
        · exact h
      obtain ⟨q, hq, hqm, hres⟩ := ih p hp2 hm
      exact ⟨q, List.mem_cons_of_mem _ hq, hqm, by rw [setMetadataLoop_cons_skip hx]; exact hres⟩

/-- After a successful rewrite the lookup loop returns the capture of the
new payload. -/
theorem getMetadataLoop_after_set {heap : Nat → MidiEvent} {re : Regex} {nl text : List Char}
    (hnl : re nl = SearchResult.captured text) :
    ∀ (l : List Nat) (t : Int) (heap2 : Nat → MidiEvent),
      setMetadataLoop heap re nl l = some (t, heap2) → getMetadataLoop heap2 re l = text := by
  intro l
  induction l with
  | nil => intro t heap2 h; simp [setMetadataLoop] at h
  | cons x xs ih =>
    intro t heap2 h
    cases hx : matchesKey heap re x with
    | true =>
      rw [setMetadataLoop_cons_match hx] at h
      simp only [Option.some.injEq, Prod.mk.injEq] at h
      obtain ⟨_, h2⟩ := h
      subst h2
      have hs := isText_setMetaContent nl (matchesKey_isText hx)
      apply getMetadataLoop_cons_match
      · rw [Function.update_same]; exact hs.1
      · rw [Function.update_same, hs.2.1]; exact hnl
    | false =>
      rw [setMetadataLoop_cons_skip hx] at h
      have hex : ∃ q, q ∈ xs ∧ matchesKey heap re q = true ∧
          heap2 = Function.update heap q ((heap q).setMetaContent nl) := by
        by_cases hall : ∀ q ∈ xs, matchesKey heap re q = false
        · rw [setMetadataLoop_eq_none hall] at h; cases h
        · push_neg at hall
          obtain ⟨q0, hq0, hq0m⟩ := hall
          have hq0m2 : matchesKey heap re q0 = true := by
            cases hh : matchesKey heap re q0 with
            | true => rfl
            | false => exact absurd hh hq0m
          obtain ⟨q, hq, hqm, hres⟩ := setMetadataLoop_of_mem nl xs q0 hq0 hq0m2
          rw [hres] at h
          simp only [Option.some.injEq, Prod.mk.injEq] at h
          exact ⟨q, hq, hqm, h.2.symm⟩
      obtain ⟨q, _, hqm, hheap⟩ := hex
      have hne : x ≠ q := by
        intro e; subst e; rw [hqm] at hx; cases hx
      have hx2 : matchesKey heap2 re x = false := by
        have hsame : heap2 x = heap x := by rw [hheap, Function.update_noteq hne]
        rw [matchesKey_congr hsame]
        exact hx
      rw [getMetadataLoop_cons_skip hx2]
      exact ih t heap2 h

/-- When exactly the event `p` of the list matches, the lookup returns its
capture wherever it sits. -/
theorem getMetadataLoop_unique {heap : Nat → MidiEvent} {re : Regex} {text : List Char} {p : Nat}
    (ht : (heap p).isText = true)
    (hr : re (heap p).getMetaContent = SearchResult.captured text) :
    ∀ (l : List Nat), p ∈ l → (∀ q ∈ l, q ≠ p → matchesKey heap re q = false) →
      getMetadataLoop heap re l = text := by
  intro l
  induction l with
  | nil => intro hp; simp at hp
  | cons x xs ih =>
    intro hp hothers
    by_cases hxp : x = p
    · subst hxp
      exact getMetadataLoop_cons_match ht hr
    · rw [getMetadataLoop_cons_skip (hothers x (List.mem_cons_self _ _) hxp)]
      apply ih
      · rcases List.mem_cons.mp hp with h | h
        · exact absurd h.symm hxp
        · exact h
      · intro q hq hqp
        exact hothers q (List.mem_cons_of_mem _ hq) hqp

/-! ## Sorting and allocation: lemmas -/

theorem insertByTick_perm (heap : Nat → MidiEvent) (p : Nat) :
    ∀ l : List Nat, (insertByTick heap p l).Perm (p :: l) := by
  intro l
  induction l with
  | nil => exact List.Perm.refl _
  | cons q qs ih =>
    unfold insertByTick
    split
    · exact List.Perm.refl _
    · exact ((List.Perm.cons q ih).trans (List.Perm.swap p q qs))

theorem sortByTick_perm (heap : Nat → MidiEvent) :
    ∀ l : List Nat, (sortByTick heap l).Perm l := by
  intro l
  induction l with
  | nil => exact List.Perm.refl _
  | cons p ps ih =>
    exact (insertByTick_perm heap p _).trans (List.Perm.cons p ih)

theorem mem_sortByTick {heap : Nat → MidiEvent} {l : List Nat} {p : Nat} :
    p ∈ sortByTick heap l ↔ p ∈ l :=
  (sortByTick_perm heap l).mem_iff

theorem length_sortByTick (heap : Nat → MidiEvent) (l : List Nat) :
    (sortByTick heap l).length = l.length :=
  (sortByTick_perm heap l).length_eq

theorem le_foldr_max : ∀ (l : List Nat) (p : Nat), p ∈ l → p ≤ l.foldr max 0 := by
  intro l
  induction l with
  | nil => intro p hp; simp at hp
  | cons x xs ih =>
    intro p hp
    simp only [List.foldr_cons]
    rcases List.mem_cons.mp hp with h | h
    · subst h; exact le_max_left _ _
    · exact le_trans (ih p h) (le_max_right _ _)

theorem getTrack_subset_flatten {mr : Roll} {i p : Nat} (h : p ∈ getTrack mr i) :
    p ∈ mr.tracks.flatten := by
  unfold getTrack at h
  rw [List.getD_eq_getElem?_getD] at h
  cases hi : mr.tracks[i]? with
  | none => rw [hi] at h; simp at h
  | some tr =>
    rw [hi] at h
    simp only [Option.getD_some] at h
    obtain ⟨hlt, hget⟩ := List.getElem?_eq_some_iff.mp hi
    exact List.mem_flatten.mpr ⟨tr, hget ▸ List.getElem_mem hlt, h⟩

theorem freshAddr_not_mem {mr : Roll} {i p : Nat} (h : p ∈ getTrack mr i) :
    p ≠ freshAddr mr := by
  have := le_foldr_max _ p (getTrack_subset_flatten h)
  unfold freshAddr
  omega

theorem getTrack_zero_modifyTrack (mr : Roll) (f : List Nat → List Nat) (h : mr.tracks ≠ []) :
    (modifyTrack f 0 mr.tracks).getD 0 [] = f (getTrack mr 0) := by
  unfold getTrack
  cases hts : mr.tracks with
  | nil => exact absurd hts h
  | cons tr trs => simp [modifyTrack]

theorem modifyTrack_ne_nil (f : List Nat → List Nat) (i : Nat) {ts : List (List Nat)}
    (h : ts ≠ []) : modifyTrack f i ts ≠ [] := by
  cases ts with
  | nil => exact absurd rfl h
  | cons tr trs => cases i <;> simp [modifyTrack]

/-- Track 0 after `addText` and `sortTrack`: the old addresses and the new
one, sorted. -/
theorem getTrack_zero_insert {mr : Roll} (nl : List Char) (h : mr.tracks ≠ []) :
    getTrack (sortTrack (addText mr 0 0 nl) 0) 0
      = sortByTick (addText mr 0 0 nl).heap (getTrack mr 0 ++ [freshAddr mr]) := by
  have h1 : (addText mr 0 0 nl).tracks ≠ [] := modifyTrack_ne_nil _ 0 h
  have h2 : getTrack (addText mr 0 0 nl) 0 = getTrack mr 0 ++ [freshAddr mr] :=
    getTrack_zero_modifyTrack mr (fun tr => tr ++ [freshAddr mr]) h
  have h3 := getTrack_zero_modifyTrack (addText mr 0 0 nl)
    (sortByTick (addText mr 0 0 nl).heap) h1
  rw [← h2]
  exact h3

/-- Among the events of a list, one of which satisfies `f`, there is a first
one that does. -/
theorem exists_first_match (f : Nat → Bool) :
    ∀ l : List Nat, (∃ q ∈ l, f q = true) →
      ∃ i p : Nat, l[i]? = some p ∧ f p = true ∧
        ∀ j q : Nat, j < i → l[j]? = some q → f q = false := by
  intro l
  induction l with
  | nil => rintro ⟨q, hq, _⟩; simp at hq
  | cons x xs ih =>
    rintro ⟨q, hq, hfq⟩
    cases hx : f x with
    | true =>
      exact ⟨0, x, by simp, hx, fun j _ hj => absurd hj (Nat.not_lt_zero j)⟩
    | false =>
      have hq2 : q ∈ xs := by
        rcases List.mem_cons.mp hq with h | h
        · subst h; rw [hfq] at hx; cases hx
        · exact h
      obtain ⟨i, p, hp, hfp, hfirst⟩ := ih ⟨q, hq2, hfq⟩
      refine ⟨i + 1, p, by simpa using hp, hfp, ?_⟩
      intro j y hj hy
      cases j with
      | zero =>
        simp at hy
        subst hy
        exact hx
      | succ j =>
        exact hfirst j y (Nat.lt_of_succ_lt_succ hj) (by simpa using hy)

/-! ## Metadata codec: claims -/

theorem setMetadata_query {regex : List Char → Option Regex} (hre : ReadsLiterals regex)
    {mr : Roll} {key : List Char}
    (hm : ∀ c ∈ getMetadataMarker mr, isMetaChar c = false)
    (hk : ∀ c ∈ key, isMetaChar c = false) :
    regex (getMetadataMarker mr ++ key ++ querySuffix)
      = some (literalSearch (getMetadataMarker mr ++ key)) := by
  apply hre
  intro c hc
  rcases List.mem_append.mp hc with h | h
  · exact hm c h
  · exact hk c h

theorem setMetadata_of_found {regex : List Char → Option Regex} {mr : Roll}
    {key value : List Char} {re : Regex} {t : Int} {heap2 : Nat → MidiEvent}
    (hkey : key ≠ [])
    (hre : regex (getMetadataMarker mr ++ key ++ querySuffix) = some re)
    (hloop : setMetadataLoop mr.heap re (getMetadataMarker mr ++ key ++ [':', ' '] ++ value)
      (getTrack mr 0) = some (t, heap2)) :
    setMetadata regex mr key value = some (t, { mr with heap := heap2 }) := by
  unfold setMetadata
  have : key.isEmpty = false := by cases key <;> simp_all
  simp only [this, hre, hloop]
  simp

theorem setMetadata_of_not_found {regex : List Char → Option Regex} {mr : Roll}
    {key value : List Char} {re : Regex}
    (hkey : key ≠ [])
    (hre : regex (getMetadataMarker mr ++ key ++ querySuffix) = some re)
    (hloop : setMetadataLoop mr.heap re (getMetadataMarker mr ++ key ++ [':', ' '] ++ value)
      (getTrack mr 0) = none) :
    setMetadata regex mr key value
      = some (0, sortTrack (addText mr 0 0
          (getMetadataMarker mr ++ key ++ [':', ' '] ++ value)) 0) := by
  unfold setMetadata
  have : key.isEmpty = false := by cases key <;> simp_all
  simp only [this, hre, hloop]
  simp

/-- The state of track 0 after an insertion by `setMetadata`: the new event
is a text event with the formatted payload, and the old events are as they
were. -/
theorem addText_heap (mr : Roll) (nl : List Char) :
    ((sortTrack (addText mr 0 0 nl) 0).heap (freshAddr mr)).isText = true ∧
    ((sortTrack (addText mr 0 0 nl) 0).heap (freshAddr mr)).getMetaContent = nl ∧
    ((sortTrack (addText mr 0 0 nl) 0).heap (freshAddr mr)).tick = 0 ∧
    ∀ q, q ≠ freshAddr mr → (sortTrack (addText mr 0 0 nl) 0).heap q = mr.heap q := by
  refine ⟨?_, ?_, ?_, ?_⟩
  · simp [sortTrack, addText, MidiEvent.isText]
  · simp [sortTrack, addText, MidiEvent.getMetaContent]
  · simp [sortTrack, addText]
  · intro q hq
    simp [sortTrack, addText, Function.update_noteq hq]

/-- C4: on a roll with at least one track, for a marker and a non-empty key
free of pattern metacharacters and a value without leading white space and
without line terminator, `getMetadata(key)` right after
`setMetadata(key, value)` returns exactly `value`. -/
theorem getMetadata_setMetadata (regex : List Char → Option Regex) (hre : ReadsLiterals regex)
    (mr : Roll) (key value : List Char)
    (htr : mr.tracks ≠ [])
    (hm : ∀ c ∈ getMetadataMarker mr, isMetaChar c = false)
    (hk : ∀ c ∈ key, isMetaChar c = false)
    (hkey : key ≠ [])
    (hws : ∀ c, value.head? = some c → isSpace c = false)
    (hlt : ∀ c ∈ value, isLineTerminator c = false) :
    ∃ t mr2, setMetadata regex mr key value = some (t, mr2) ∧
      getMetadata regex mr2 key = some value := by
  have hq := setMetadata_query hre hm hk
  have hcap : literalSearch (getMetadataMarker mr ++ key)
      (getMetadataMarker mr ++ key ++ [':', ' '] ++ value) = SearchResult.captured value :=
    literalSearch_payload hws hlt
  cases hloop : setMetadataLoop mr.heap (literalSearch (getMetadataMarker mr ++ key))
      (getMetadataMarker mr ++ key ++ [':', ' '] ++ value) (getTrack mr 0) with
  | some r =>
    obtain ⟨t, heap2⟩ := r
    refine ⟨t, { mr with heap := heap2 }, setMetadata_of_found hkey hq hloop, ?_⟩
    have hq2 : regex (getMetadataMarker { mr with heap := heap2 } ++ key ++ querySuffix)
        = some (literalSearch (getMetadataMarker mr ++ key)) := hq
    unfold getMetadata
    simp only [hq2]
    congr 1
    exact getMetadataLoop_after_set hcap (getTrack mr 0) t heap2 hloop
  | none =>
    refine ⟨0, _, setMetadata_of_not_found hkey hq hloop, ?_⟩
    set nl := getMetadataMarker mr ++ key ++ [':', ' '] ++ value with hnl
    have hq2 : regex (getMetadataMarker (sortTrack (addText mr 0 0 nl) 0) ++ key ++ querySuffix)
        = some (literalSearch (getMetadataMarker mr ++ key)) := hq
    obtain ⟨h1, h2, _, h4⟩ := addText_heap mr nl
    unfold getMetadata
    simp only [hq2]
    congr 1
    rw [getTrack_zero_insert nl htr]
    apply getMetadataLoop_unique (p := freshAddr mr) h1 (by rw [h2]; exact hcap)
    · rw [mem_sortByTick]; simp
    · intro q hq hqp
      rw [mem_sortByTick] at hq
      have hq3 : q ∈ getTrack mr 0 := by
        rcases List.mem_append.mp hq with h | h
        · exact h
        · simp at h; exact absurd h hqp
      rw [matchesKey_congr (h4 q hqp)]
      by_contra hcon
      have hmq : matchesKey mr.heap (literalSearch (getMetadataMarker mr ++ key)) q = true := by
        cases hh : matchesKey mr.heap (literalSearch (getMetadataMarker mr ++ key)) q with
        | true => rfl
        | false => exact absurd hh hcon
      obtain ⟨q2, _, _, hres⟩ := setMetadataLoop_of_mem nl (getTrack mr 0) q hq3 hmq
      rw [hres] at hloop
      cases hloop

/-- Key `speed`, value `60` on a roll whose only track is empty. -/
theorem getMetadata_setMetadata_witness :
    ReadsLiterals literalRegex ∧ (emptyRoll 480).tracks ≠ [] ∧
    (∀ c ∈ getMetadataMarker (emptyRoll 480), isMetaChar c = false) ∧
    (∀ c ∈ ['s', 'p', 'e', 'e', 'd'], isMetaChar c = false) ∧
    ['s', 'p', 'e', 'e', 'd'] ≠ [] ∧
    (∀ c, ['6', '0'].head? = some c → isSpace c = false) ∧
    (∀ c ∈ ['6', '0'], isLineTerminator c = false) ∧
    ∃ t mr2, setMetadata literalRegex (emptyRoll 480) ['s', 'p', 'e', 'e', 'd'] ['6', '0']
        = some (t, mr2) ∧
      getMetadata literalRegex mr2 ['s', 'p', 'e', 'e', 'd'] = some ['6', '0'] :=
  ⟨literalRegex_readsLiterals, by decide, by decide, by decide, by decide, by decide, by decide,
    getMetadata_setMetadata literalRegex literalRegex_readsLiterals (emptyRoll 480)
      ['s', 'p', 'e', 'e', 'd'] ['6', '0'] (by decide) (by decide) (by decide) (by decide)
      (by decide) (by decide)⟩

/-- C6: with an empty key `setMetadata` returns `-1` and the roll is the one
it was given: no track, payload or tick changes. -/
theorem setMetadata_empty_key (regex : List Char → Option Regex) (mr : Roll)
    (value : List Char) :
    setMetadata regex mr [] value = some (-1, mr) := by
  simp [setMetadata]

/-- C7: for a non-empty key, when some text event of track 0 matches, there
is a first matching event `p` (index `i`, no match at a lower index), and
`setMetadata` returns the tick of `p`, gives `p` the payload
`marker + key + ": " + value` while keeping its kind, tick and link, and
changes no other event, no track and no other field of the roll. -/
theorem setMetadata_replaces_first_match (regex : List Char → Option Regex) (mr : Roll)
    (key value : List Char) (re : Regex)
    (hkey : key ≠ [])
    (hre : regex (getMetadataMarker mr ++ key ++ querySuffix) = some re)
    (hsome : ∃ q ∈ getTrack mr 0, matchesKey mr.heap re q = true) :
    ∃ (i p : Nat) (mr2 : Roll), (getTrack mr 0)[i]? = some p ∧
      matchesKey mr.heap re p = true ∧
      (∀ j q : Nat, j < i → (getTrack mr 0)[j]? = some q → matchesKey mr.heap re q = false) ∧
      setMetadata regex mr key value = some ((mr.heap p).tick, mr2) ∧
      mr2.tracks = mr.tracks ∧
      (mr2.heap p).getMetaContent = getMetadataMarker mr ++ key ++ [':', ' '] ++ value ∧
      (mr2.heap p).isText = true ∧
      (mr2.heap p).tick = (mr.heap p).tick ∧
      (mr2.heap p).link = (mr.heap p).link ∧
      (∀ q, q ≠ p → mr2.heap q = mr.heap q) ∧
      mr2.ticksPerQuarterNote = mr.ticksPerQuarterNote ∧
      mr2.lengthdpi = mr.lengthdpi ∧ mr2.widthdpi = mr.widthdpi ∧
      mr2.metadatamarker = mr.metadatamarker := by
  obtain ⟨i, p, hp, hmatch, hfirst⟩ := exists_first_match (matchesKey mr.heap re) _ hsome
  have hloop := setMetadataLoop_first
    (getMetadataMarker mr ++ key ++ [':', ' '] ++ value) (getTrack mr 0) i p hp hmatch hfirst
  have hs := isText_setMetaContent
    (getMetadataMarker mr ++ key ++ [':', ' '] ++ value) (matchesKey_isText hmatch)
  refine ⟨i, p, _, hp, hmatch, hfirst, setMetadata_of_found hkey hre hloop, rfl,
    ?_, ?_, ?_, ?_, ?_, rfl, rfl, rfl, rfl⟩
  · simp only [Function.update_same]; exact hs.2.1
  · simp only [Function.update_same]; exact hs.1
  · simp only [Function.update_same]; exact hs.2.2.1
  · simp only [Function.update_same]; exact hs.2.2.2
  · intro q hq
    simp only [Function.update_noteq hq]

/-- The speed entry of `metadataRoll` is rewritten in place by
`setMetadata("speed", "60")`: the call returns its tick 5 and the track list
stays `[[0, 1, 2]]`. -/
theorem setMetadata_replaces_first_match_witness :
    ['s', 'p', 'e', 'e', 'd'] ≠ [] ∧
    literalRegex (getMetadataMarker metadataRoll ++ ['s', 'p', 'e', 'e', 'd'] ++ querySuffix)
      = some (literalSearch ['@', 's', 'p', 'e', 'e', 'd']) ∧
    (∃ q ∈ getTrack metadataRoll 0,
      matchesKey metadataRoll.heap (literalSearch ['@', 's', 'p', 'e', 'e', 'd']) q = true) ∧
    (∃ (i p : Nat) (mr2 : Roll), (getTrack metadataRoll 0)[i]? = some p ∧
      matchesKey metadataRoll.heap (literalSearch ['@', 's', 'p', 'e', 'e', 'd']) p = true ∧
      (∀ j q : Nat, j < i → (getTrack metadataRoll 0)[j]? = some q →
        matchesKey metadataRoll.heap (literalSearch ['@', 's', 'p', 'e', 'e', 'd']) q = false) ∧
      setMetadata literalRegex metadataRoll ['s', 'p', 'e', 'e', 'd'] ['6', '0']
        = some ((metadataRoll.heap p).tick, mr2) ∧
      mr2.tracks = metadataRoll.tracks ∧
      (mr2.heap p).getMetaContent
        = getMetadataMarker metadataRoll ++ ['s', 'p', 'e', 'e', 'd'] ++ [':', ' '] ++ ['6', '0'] ∧
      (mr2.heap p).isText = true ∧
      (mr2.heap p).tick = (metadataRoll.heap p).tick ∧
      (mr2.heap p).link = (metadataRoll.heap p).link ∧
      (∀ q, q ≠ p → mr2.heap q = metadataRoll.heap q) ∧
      mr2.ticksPerQuarterNote = metadataRoll.ticksPerQuarterNote ∧
      mr2.lengthdpi = metadataRoll.lengthdpi ∧ mr2.widthdpi = metadataRoll.widthdpi ∧
      mr2.metadatamarker = metadataRoll.metadatamarker) ∧
    (setMetadata literalRegex metadataRoll ['s', 'p', 'e', 'e', 'd'] ['6', '0']).map
      (fun r => (r.1, r.2.tracks, (r.2.heap 1).getMetaContent, (r.2.heap 0).getMetaContent))
      = some (5, [[0, 1, 2]], "@speed: 60".toList, "@title: x".toList) :=
  ⟨by decide,
    literalRegex_readsLiterals ['@', 's', 'p', 'e', 'e', 'd'] (by decide),
    ⟨1, by decide, by decide⟩,
    setMetadata_replaces_first_match literalRegex metadataRoll ['s', 'p', 'e', 'e', 'd']
      ['6', '0'] (literalSearch ['@', 's', 'p', 'e', 'e', 'd'])
      (by decide) (literalRegex_readsLiterals ['@', 's', 'p', 'e', 'e', 'd'] (by decide))
      ⟨1, by decide, by decide⟩,
    by decide⟩

theorem setMetadataLoop_unique {heap : Nat → MidiEvent} {re : Regex} {nl : List Char}
    {l : List Nat} {p : Nat} (hp : p ∈ l) (hm : matchesKey heap re p = true)
    (hothers : ∀ q ∈ l, q ≠ p → matchesKey heap re q = false) :
    setMetadataLoop heap re nl l
      = some ((heap p).tick, Function.update heap p ((heap p).setMetaContent nl)) := by
  obtain ⟨q, hq, hqm, hres⟩ := setMetadataLoop_of_mem nl l p hp hm
  have hqp : q = p := by
    by_contra hne
    rw [hothers q hq hne] at hqm
    cases hqm
  subst hqp
  exact hres

/-- C5 (as amended): for a marker and a non-empty key free of pattern
metacharacters and two values without line terminator, starting from a
track 0 in which no text event matches the key, `setMetadata(key, v1)`
followed by `setMetadata(key, v2)` leaves exactly one event of track 0
matching the key, with payload `marker + key + ": " + v2`, and track 0 one
event longer than at the start. -/
theorem setMetadata_twice_upsert (regex : List Char → Option Regex) (hre : ReadsLiterals regex)
    (mr : Roll) (key v1 v2 : List Char)
    (htr : mr.tracks ≠ [])
    (hm : ∀ c ∈ getMetadataMarker mr, isMetaChar c = false)
    (hk : ∀ c ∈ key, isMetaChar c = false)
    (hkey : key ≠ [])
    (hlt1 : ∀ c ∈ v1, isLineTerminator c = false)
    (hlt2 : ∀ c ∈ v2, isLineTerminator c = false)
    (hnone : ∀ q ∈ getTrack mr 0,
      matchesKey mr.heap (literalSearch (getMetadataMarker mr ++ key)) q = false) :
    ∃ t1 mr1 t2 mr2, setMetadata regex mr key v1 = some (t1, mr1) ∧
      setMetadata regex mr1 key v2 = some (t2, mr2) ∧
      (∃ p, (getTrack mr2 0).filter
            (matchesKey mr2.heap (literalSearch (getMetadataMarker mr ++ key))) = [p] ∧
          (mr2.heap p).getMetaContent = getMetadataMarker mr ++ key ++ [':', ' '] ++ v2) ∧
      (getTrack mr2 0).length = (getTrack mr 0).length + 1 := by
  have hq := setMetadata_query hre hm hk
  set re := literalSearch (getMetadataMarker mr ++ key) with hredef
  set nl1 := getMetadataMarker mr ++ key ++ [':', ' '] ++ v1 with hnl1
  set nl2 := getMetadataMarker mr ++ key ++ [':', ' '] ++ v2 with hnl2
  set f := freshAddr mr with hf
  -- first call: nothing matches, a new event is inserted
  have hloop1 : setMetadataLoop mr.heap re nl1 (getTrack mr 0) = none :=
    setMetadataLoop_eq_none hnone
  have hset1 : setMetadata regex mr key v1 = some (0, sortTrack (addText mr 0 0 nl1) 0) :=
    setMetadata_of_not_found hkey hq hloop1
  set mr1 := sortTrack (addText mr 0 0 nl1) 0 with hmr1
  obtain ⟨a1, a2, _, a4⟩ := addText_heap mr nl1
  have htrack1 : getTrack mr1 0 = sortByTick mr1.heap (getTrack mr 0 ++ [f]) :=
    getTrack_zero_insert nl1 htr
  have hfresh : ∀ q ∈ getTrack mr 0, q ≠ f := fun q hq0 => freshAddr_not_mem hq0
  -- second call: the inserted event is the only match
  have hq1 : regex (getMetadataMarker mr1 ++ key ++ querySuffix) = some re := hq
  have hfmem : f ∈ getTrack mr1 0 := by
    rw [htrack1, mem_sortByTick]; simp
  have hfmatch : matchesKey mr1.heap re f = true := by
    obtain ⟨text, ht⟩ := literalSearch_payload_isSome (getMetadataMarker mr ++ key) hlt1
    exact matchesKey_of_captured a1 (by rw [a2]; exact ht)
  have hold : ∀ q ∈ getTrack mr1 0, q ≠ f → q ∈ getTrack mr 0 := by
    intro q hq0 hqf
    rw [htrack1, mem_sortByTick] at hq0
    rcases List.mem_append.mp hq0 with h | h
    · exact h
    · simp at h; exact absurd h hqf
  have hothers : ∀ q ∈ getTrack mr1 0, q ≠ f → matchesKey mr1.heap re q = false := by
    intro q hq0 hqf
    rw [matchesKey_congr (a4 q hqf)]
    exact hnone q (hold q hq0 hqf)
  have hloop2 : setMetadataLoop mr1.heap re nl2 (getTrack mr1 0)
      = some ((mr1.heap f).tick, Function.update mr1.heap f ((mr1.heap f).setMetaContent nl2)) :=
    setMetadataLoop_unique hfmem hfmatch hothers
  have hset2 : setMetadata regex mr1 key v2 = some ((mr1.heap f).tick,
      { mr1 with heap := Function.update mr1.heap f ((mr1.heap f).setMetaContent nl2) }) :=
    setMetadata_of_found hkey hq1 hloop2
  refine ⟨0, mr1, (mr1.heap f).tick, _, hset1, hset2, ⟨f, ?_, ?_⟩, ?_⟩
  · -- exactly one matching event
    have hs := isText_setMetaContent nl2 a1
    have htr2 : getTrack { mr1 with
        heap := Function.update mr1.heap f ((mr1.heap f).setMetaContent nl2) } 0
        = sortByTick mr1.heap (getTrack mr 0 ++ [f]) := htrack1
    rw [htr2]
    apply List.perm_singleton.mp
    refine ((sortByTick_perm _ _).filter _).trans ?_
    rw [List.filter_append]
    have e1 : (getTrack mr 0).filter
        (matchesKey (Function.update mr1.heap f ((mr1.heap f).setMetaContent nl2)) re) = [] := by
      rw [List.filter_eq_nil_iff]
      intro q hq0
      have hqf := hfresh q hq0
      have hsame : Function.update mr1.heap f ((mr1.heap f).setMetaContent nl2) q = mr1.heap q :=
        Function.update_noteq hqf _ _
      rw [matchesKey_congr hsame, matchesKey_congr (a4 q hqf), hnone q hq0]
      simp
    have e2 : matchesKey (Function.update mr1.heap f ((mr1.heap f).setMetaContent nl2)) re f
        = true := by
      obtain ⟨text, ht⟩ := literalSearch_payload_isSome (getMetadataMarker mr ++ key) hlt2
      have hcap2 : (literalSearch (getMetadataMarker mr ++ key))
          (Function.update mr1.heap f ((mr1.heap f).setMetaContent nl2) f).getMetaContent
          = SearchResult.captured text := by
        rw [Function.update_same, hs.2.1]; exact ht
      exact matchesKey_of_captured (by rw [Function.update_same]; exact hs.1) hcap2
    rw [e1]
    simp [e2]
  · have hs := isText_setMetaContent nl2 a1
    simp only [Function.update_same]
    exact hs.2.1
  · have htr2 : getTrack { mr1 with
        heap := Function.update mr1.heap f ((mr1.heap f).setMetaContent nl2) } 0
        = sortByTick mr1.heap (getTrack mr 0 ++ [f]) := htrack1
    rw [htr2, length_sortByTick]
    simp

/-- Key `k` with the values `ab` and then `c` on a roll whose only track is
empty. -/
theorem setMetadata_twice_upsert_witness :
    ReadsLiterals literalRegex ∧ (emptyRoll 480).tracks ≠ [] ∧
    (∀ c ∈ getMetadataMarker (emptyRoll 480), isMetaChar c = false) ∧
    (∀ c ∈ ['k'], isMetaChar c = false) ∧ ['k'] ≠ [] ∧
    (∀ c ∈ ['a', 'b'], isLineTerminator c = false) ∧
    (∀ c ∈ ['c'], isLineTerminator c = false) ∧
    (∀ q ∈ getTrack (emptyRoll 480) 0,
      matchesKey (emptyRoll 480).heap
        (literalSearch (getMetadataMarker (emptyRoll 480) ++ ['k'])) q = false) ∧
    ∃ t1 mr1 t2 mr2, setMetadata literalRegex (emptyRoll 480) ['k'] ['a', 'b'] = some (t1, mr1) ∧
      setMetadata literalRegex mr1 ['k'] ['c'] = some (t2, mr2) ∧
      (∃ p, (getTrack mr2 0).filter
            (matchesKey mr2.heap (literalSearch (getMetadataMarker (emptyRoll 480) ++ ['k'])))
              = [p] ∧
          (mr2.heap p).getMetaContent
            = getMetadataMarker (emptyRoll 480) ++ ['k'] ++ [':', ' '] ++ ['c']) ∧
      (getTrack mr2 0).length = (getTrack (emptyRoll 480) 0).length + 1 :=
  ⟨literalRegex_readsLiterals, by decide, by decide, by decide, by decide, by decide, by decide,
    by decide,
    setMetadata_twice_upsert literalRegex literalRegex_readsLiterals (emptyRoll 480)
      ['k'] ['a', 'b'] ['c'] (by decide) (by decide) (by decide) (by decide) (by decide)
      (by decide) (by decide)⟩

/-- C5 (as stated, refuted): with key `k`, first value `a⏎b` (a line
terminator inside) and second value `c` on an empty track 0, the first
payload is not found again and both calls insert: track 0 ends with two
events, which is not one more than the none it started with. -/
theorem setMetadata_twice_counterexample :
    (∀ c ∈ getMetadataMarker (emptyRoll 480), isMetaChar c = false) ∧
    (∀ c ∈ ['k'], isMetaChar c = false) ∧
    (∀ q ∈ getTrack (emptyRoll 480) 0,
      matchesKey (emptyRoll 480).heap
        (literalSearch (getMetadataMarker (emptyRoll 480) ++ ['k'])) q = false) ∧
    ((setMetadata literalRegex (emptyRoll 480) ['k'] ['a', '\n', 'b']).bind
        (fun r => setMetadata literalRegex r.2 ['k'] ['c'])).map
      (fun r => ((getTrack r.2 0).length, (getTrack r.2 0).map
        (fun p => (r.2.heap p).getMetaContent)))
      = some (2, [['@', 'k', ':', ' ', 'c'], ['@', 'k', ':', ' ', 'a', '\n', 'b']]) ∧
    2 ≠ (getTrack (emptyRoll 480) 0).length + 1 := by
  refine ⟨by decide, by decide, by decide, by decide, by decide⟩

/-! ## Roll transform: lemmas -/

theorem mem_insertByTick {heap : Nat → MidiEvent} {p a : Nat} {l : List Nat} :
    a ∈ insertByTick heap p l ↔ a = p ∨ a ∈ l := by
  rw [(insertByTick_perm heap p l).mem_iff, List.mem_cons]

theorem insertByTick_sorted (heap : Nat → MidiEvent) (p : Nat) :
    ∀ l : List Nat, l.Pairwise (fun a b => (heap a).tick ≤ (heap b).tick) →
      (insertByTick heap p l).Pairwise (fun a b => (heap a).tick ≤ (heap b).tick) := by
  intro l
  induction l with
  | nil => intro _; simp [insertByTick]
  | cons q qs ih =>
    intro h
    rw [List.pairwise_cons] at h
    unfold insertByTick
    split
    · rename_i hlt
      rw [List.pairwise_cons]
      refine ⟨?_, List.pairwise_cons.mpr h⟩
      intro b hb
      rcases List.mem_cons.mp hb with hbq | hbq
      · rw [hbq]; exact le_of_lt hlt
      · exact le_trans (le_of_lt hlt) (h.1 b hbq)
    · rename_i hnle
      rw [List.pairwise_cons]
      refine ⟨?_, ih h.2⟩
      intro b hb
      rcases mem_insertByTick.mp hb with hbp | hbq
      · rw [hbp]; omega
      · exact h.1 b hbq

theorem sortByTick_sorted (heap : Nat → MidiEvent) :
    ∀ l : List Nat, (sortByTick heap l).Pairwise (fun a b => (heap a).tick ≤ (heap b).tick) := by
  intro l
  induction l with
  | nil => simp [sortByTick]
  | cons p ps ih => exact insertByTick_sorted heap p _ ih

theorem unlinkAll_msg_tick : ∀ (l : List Nat) (heap : Nat → MidiEvent) (x : Nat),
    (unlinkAll heap l x).msg = (heap x).msg ∧ (unlinkAll heap l x).tick = (heap x).tick := by
  intro l
  induction l with
  | nil => intro heap x; exact ⟨rfl, rfl⟩
  | cons p ps ih =>
    intro heap x
    have h := ih (Function.update heap p { heap p with link := none }) x
    unfold unlinkAll
    rw [h.1, h.2]
    by_cases hx : x = p
    · subst hx; simp
    · simp [Function.update_noteq hx]

theorem unlinkAll_link : ∀ (l : List Nat) (heap : Nat → MidiEvent) (x : Nat),
    (unlinkAll heap l x).link = if x ∈ l then none else (heap x).link := by
  intro l
  induction l with
  | nil => intro heap x; simp [unlinkAll]
  | cons p ps ih =>
    intro heap x
    unfold unlinkAll
    rw [ih]
    by_cases hx : x = p
    · subst hx; simp
    · simp [Function.update_noteq hx, hx]

theorem findNoteOff_some {heap : Nat → MidiEvent} {channel key : Nat} :
    ∀ (l : List Nat) (q : Nat), findNoteOff heap channel key l = some q →
      (heap q).msg = MidiMessage.noteOff channel key ∧ (heap q).link = none ∧ q ∈ l := by
  intro l
  induction l with
  | nil => intro q h; simp [findNoteOff] at h
  | cons x xs ih =>
    intro q h
    unfold findNoteOff at h
    split at h
    · rename_i hx
      simp only [Option.some.injEq] at h
      subst h
      exact ⟨hx.1, hx.2, List.mem_cons_self _ _⟩
    · obtain ⟨h1, h2, h3⟩ := ih q h
      exact ⟨h1, h2, List.mem_cons_of_mem _ h3⟩

theorem linkEvent_msg_tick (heap : Nat → MidiEvent) (p q x : Nat) :
    (linkEvent heap p q x).msg = (heap x).msg ∧ (linkEvent heap p q x).tick = (heap x).tick := by
  unfold linkEvent
  by_cases hq : x = q
  · subst hq
    simp only [Function.update_same]
    by_cases hp : x = p
    · subst hp; simp
    · simp [Function.update_noteq hp]
  · rw [Function.update_noteq hq]
    by_cases hp : x = p
    · subst hp; simp
    · simp [Function.update_noteq hp]

theorem linkPairs_msg_tick : ∀ (l : List Nat) (heap : Nat → MidiEvent) (x : Nat),
    (linkPairs heap l x).msg = (heap x).msg ∧ (linkPairs heap l x).tick = (heap x).tick := by
  intro l
  induction l with
  | nil => intro heap x; exact ⟨rfl, rfl⟩
  | cons p ps ih =>
    intro heap x
    rw [linkPairs]
    cases hm : (heap p).msg with
    | noteOn channel key =>
      simp only []
      cases hf : findNoteOff heap channel key ps with
      | some q =>
        simp only []
        have h := ih (linkEvent heap p q) x
        have h2 := linkEvent_msg_tick heap p q x
        exact ⟨h.1.trans h2.1, h.2.trans h2.2⟩
      | none => exact ih heap x
    | noteOff channel key => exact ih heap x
    | metaMessage mtype content => exact ih heap x
    | other => exact ih heap x

theorem isNoteOn_of_msg {e e2 : MidiEvent} (h : e2.msg = e.msg) : e2.isNoteOn = e.isNoteOn := by
  unfold MidiEvent.isNoteOn
  rw [h]

theorem isNoteOff_of_msg {e e2 : MidiEvent} (h : e2.msg = e.msg) :
    e2.isNoteOff = e.isNoteOff := by
  unfold MidiEvent.isNoteOff
  rw [h]

theorem not_isNoteOn_of_isNoteOff {e : MidiEvent} (h : e.isNoteOff = true) :
    e.isNoteOn = false := by
  obtain ⟨t, m, l⟩ := e
  cases m <;> simp_all [MidiEvent.isNoteOn, MidiEvent.isNoteOff]

/-- One pairing step keeps the links of note-ons backed by their note-offs. -/
theorem linkEvent_backLinked {heap : Nat → MidiEvent} {l : List Nat} {p0 q0 channel key : Nat}
    (hp0 : (heap p0).msg = MidiMessage.noteOn channel key)
    (hq0 : (heap q0).msg = MidiMessage.noteOff channel key)
    (hq0l : (heap q0).link = none)
    (hinv : BackLinked heap l) : BackLinked (linkEvent heap p0 q0) l := by
  have hne : p0 ≠ q0 := by
    intro e; rw [e, hq0] at hp0; cases hp0
  have hp0on : (heap p0).isNoteOn = true := by simp [MidiEvent.isNoteOn, hp0]
  have hq0off : (heap q0).isNoteOff = true := by simp [MidiEvent.isNoteOff, hq0]
  have hatq : linkEvent heap p0 q0 q0 = { heap q0 with link := some p0 } := by
    unfold linkEvent; rw [Function.update_same]
  have hatp : linkEvent heap p0 q0 p0 = { heap p0 with link := some q0 } := by
    unfold linkEvent; rw [Function.update_noteq hne, Function.update_same]
  have hother : ∀ x, x ≠ p0 → x ≠ q0 → linkEvent heap p0 q0 x = heap x := by
    intro x h1 h2
    unfold linkEvent; rw [Function.update_noteq h2, Function.update_noteq h1]
  intro p hp q hon hlink
  by_cases hpq0 : p = q0
  · exfalso
    subst hpq0
    rw [isNoteOn_of_msg (linkEvent_msg_tick heap p0 p p).1,
      not_isNoteOn_of_isNoteOff hq0off] at hon
    cases hon
  · by_cases hpp0 : p = p0
    · subst hpp0
      rw [hatp] at hlink
      simp only [Option.some.injEq] at hlink
      subst hlink
      rw [hatq]
      exact ⟨by rw [← hq0off]; rfl, rfl⟩
    · rw [hother p hpp0 hpq0] at hon hlink
      obtain ⟨h1, h2⟩ := hinv p hp q hon hlink
      have hqq0 : q ≠ q0 := by
        intro e; rw [e, hq0l] at h2; cases h2
      have hqp0 : q ≠ p0 := by
        intro e
        rw [e] at h1
        rw [not_isNoteOn_of_isNoteOff h1] at hp0on
        cases hp0on
      rw [hother q hqp0 hqq0]
      exact ⟨h1, h2⟩

theorem linkPairs_backLinked {l : List Nat} : ∀ (rest : List Nat) (heap : Nat → MidiEvent),
    BackLinked heap l → BackLinked (linkPairs heap rest) l := by
  intro rest
  induction rest with
  | nil => intro heap h; exact h
  | cons p ps ih =>
    intro heap h
    rw [linkPairs]
    cases hm : (heap p).msg with
    | noteOn channel key =>
      simp only []
      cases hf : findNoteOff heap channel key ps with
      | some q =>
        simp only []
        obtain ⟨h1, h2, _⟩ := findNoteOff_some ps q hf
        exact ih _ (linkEvent_backLinked hm h1 h2 h)
      | none => exact ih heap h
    | noteOff channel key => exact ih heap h
    | metaMessage mtype content => exact ih heap h
    | other => exact ih heap h

theorem backLinked_unlinkAll (heap : Nat → MidiEvent) (l : List Nat) :
    BackLinked (unlinkAll heap l) l := by
  intro p hp q _ hlink
  rw [unlinkAll_link, if_pos hp] at hlink
  cases hlink

theorem linkCount_congr {heap heap2 : Nat → MidiEvent} (h : SameShape heap heap2)
    (l : List Nat) (q : Nat) : linkCount heap2 l q = linkCount heap l q := by
  unfold linkCount
  congr 1
  funext p
  rw [isNoteOn_of_msg (h p).1, (h p).2]

theorem linkCount_cons (heap : Nat → MidiEvent) (p : Nat) (ps : List Nat) (q : Nat) :
    linkCount heap (p :: ps) q
      = linkCount heap ps q
        + (if (heap p).isNoteOn = true ∧ (heap p).link = some q then 1 else 0) := by
  unfold linkCount
  rw [List.countP_cons]
  simp

/-- The loop of `trackerize` changes ticks only, and adds the offset to the
tick of `q` once for every listed note-on linked to `q`. -/
theorem shiftLinked_spec (h : Int) : ∀ (l : List Nat) (heap : Nat → MidiEvent) (q : Nat),
    (shiftLinked h heap l q).msg = (heap q).msg ∧
    (shiftLinked h heap l q).link = (heap q).link ∧
    (shiftLinked h heap l q).tick = (heap q).tick + h * (linkCount heap l q : Int) := by
  intro l
  induction l with
  | nil => intro heap q; simp [shiftLinked, linkCount]
  | cons p ps ih =>
    intro heap q
    rw [linkCount_cons]
    unfold shiftLinked
    cases hon : (heap p).isNoteOn with
    | false =>
      simp only [Bool.not_false, if_true]
      obtain ⟨h1, h2, h3⟩ := ih heap q
      refine ⟨h1, h2, ?_⟩
      rw [h3]; simp
    | true =>
      simp only [Bool.not_true, Bool.false_eq_true, if_false]
      cases hl : (heap p).link with
      | none =>
        simp only []
        obtain ⟨h1, h2, h3⟩ := ih heap q
        refine ⟨h1, h2, ?_⟩
        rw [h3]; simp
      | some me =>
        simp only []
        have hshape : SameShape heap
            (Function.update heap me { heap me with tick := (heap me).tick + h }) := by
          intro x
          by_cases hx : x = me
          · subst hx; simp
          · simp [Function.update_noteq hx]
        obtain ⟨h1, h2, h3⟩ :=
          ih (Function.update heap me { heap me with tick := (heap me).tick + h }) q
        rw [linkCount_congr hshape] at h3
        refine ⟨h1.trans (hshape q).1, h2.trans (hshape q).2, ?_⟩
        rw [h3]
        by_cases hq : q = me
        · subst hq
          simp only [Function.update_same, true_and, if_true]
          push_cast
          ring
        · have hq2 : ¬ (some me = some q) := by
            intro e; exact hq (Option.some.inj e).symm
          rw [Function.update_noteq hq]
          simp [hq2]

theorem mem_linkTargets {heap : Nat → MidiEvent} {l : List Nat} {q : Nat} :
    q ∈ linkTargets heap l ↔
      ∃ p ∈ l, (heap p).isNoteOn = true ∧ (heap p).link = some q := by
  unfold linkTargets
  rw [List.mem_filterMap]
  constructor
  · rintro ⟨p, hp, h⟩
    cases hon : (heap p).isNoteOn with
    | false => simp [hon] at h
    | true => exact ⟨p, hp, hon, by simpa [hon] using h⟩
  · rintro ⟨p, hp, hon, hl⟩
    exact ⟨p, hp, by rw [hon]; simpa using hl⟩

/-- In a duplicate-free list of back-linked events an event is the target
of at most one note-on. -/
theorem linkCount_eq {heap : Nat → MidiEvent} {l : List Nat} (hnd : l.Nodup)
    (hinv : BackLinked heap l) (q : Nat) :
    linkCount heap l q = if q ∈ linkTargets heap l then 1 else 0 := by
  by_cases hq : q ∈ linkTargets heap l
  · rw [if_pos hq]
    obtain ⟨p, hp, hon, hl⟩ := mem_linkTargets.mp hq
    unfold linkCount
    rw [List.countP_eq_length_filter]
    have hfil : (l.filter (fun p => (heap p).isNoteOn && decide ((heap p).link = some q))).Perm
        [p] := by
      rw [List.perm_ext_iff_of_nodup (hnd.filter _) (List.nodup_singleton p)]
      intro a
      rw [List.mem_filter, List.mem_singleton]
      constructor
      · rintro ⟨ha, hfa⟩
        simp only [Bool.and_eq_true, decide_eq_true_eq] at hfa
        have e1 := (hinv a ha q hfa.1 hfa.2).2
        have e2 := (hinv p hp q hon hl).2
        rw [e1] at e2
        exact Option.some.inj e2
      · intro e
        subst e
        exact ⟨hp, by simp [hon, hl]⟩
    rw [hfil.length_eq]
    rfl
  · rw [if_neg hq]
    unfold linkCount
    rw [List.countP_eq_zero]
    intro p hp hf
    simp only [Bool.and_eq_true, decide_eq_true_eq] at hf
    exact hq (mem_linkTargets.mpr ⟨p, hp, hf.1, hf.2⟩)

theorem joinTracks_nodup {mr : Roll} (h : WellFormed mr) : (joinTracks mr).Nodup :=
  (sortByTick_perm _ _).nodup_iff.mpr h

/-- The store after the pairing step: same messages and ticks as before, and
the note-ons of the merged list are back-linked. -/
theorem linkNotePairs_spec (mr : Roll) (merged : List Nat) :
    BackLinked (linkNotePairs mr merged).heap merged ∧
    ∀ x, ((linkNotePairs mr merged).heap x).msg = (mr.heap x).msg ∧
      ((linkNotePairs mr merged).heap x).tick = (mr.heap x).tick := by
  constructor
  · exact linkPairs_backLinked merged _ (backLinked_unlinkAll mr.heap merged)
  · intro x
    have h1 := linkPairs_msg_tick merged (unlinkAll mr.heap merged) x
    have h2 := unlinkAll_msg_tick merged mr.heap x
    exact ⟨h1.1.trans h2.1, h1.2.trans h2.2⟩

/-- The effect of `trackerize` on the event at address `q`. -/
theorem trackerize_heap (mr : Roll) (offset : Int) (hwf : WellFormed mr) (q : Nat) :
    ((trackerize mr offset).heap q).msg = (mr.heap q).msg ∧
    ((trackerize mr offset).heap q).tick
      = (mr.heap q).tick + (if q ∈ linkedNoteOffs mr then offset else 0) ∧
    (q ∈ linkedNoteOffs mr → (mr.heap q).isNoteOff = true) := by
  have hspec := linkNotePairs_spec mr (joinTracks mr)
  have hshift := shiftLinked_spec offset (joinTracks mr)
    (linkNotePairs mr (joinTracks mr)).heap q
  have hcount := linkCount_eq (joinTracks_nodup hwf) hspec.1 q
  have hheap : (trackerize mr offset).heap
      = shiftLinked offset (linkNotePairs mr (joinTracks mr)).heap (joinTracks mr) := rfl
  have hlinked : linkedNoteOffs mr
      = linkTargets (linkNotePairs mr (joinTracks mr)).heap (joinTracks mr) := rfl
  rw [hheap, hlinked]
  refine ⟨hshift.1.trans (hspec.2 q).1, ?_, ?_⟩
  · rw [hshift.2.2, hcount, (hspec.2 q).2]
    split <;> simp
  · intro hq
    obtain ⟨p, hp, hon, hl⟩ := mem_linkTargets.mp hq
    have := (hspec.1 p hp q hon hl).1
    rw [isNoteOff_of_msg (hspec.2 q).1] at this
    exact this

theorem split_perm {mr : Roll} (hwf : WellFormed mr) {tr : List Nat} (htr : tr ∈ mr.tracks) :
    ((joinTracks mr).filter (fun p => decide (p ∈ tr))).Perm tr := by
  have hnd : tr.Nodup := (List.nodup_flatten.mp hwf).1 tr htr
  rw [List.perm_ext_iff_of_nodup ((joinTracks_nodup hwf).filter _) hnd]
  intro a
  rw [List.mem_filter]
  constructor
  · intro h
    simpa using h.2
  · intro h
    refine ⟨?_, by simpa using h⟩
    unfold joinTracks
    rw [mem_sortByTick]
    exact List.mem_flatten.mpr ⟨tr, htr, h⟩

theorem flatten_map_perm (g : List Nat → List Nat) :
    ∀ L : List (List Nat), (∀ tr ∈ L, (g tr).Perm tr) → (L.map g).flatten.Perm L.flatten := by
  intro L
  induction L with
  | nil => intro _; exact List.Perm.refl _
  | cons tr trs ih =>
    intro h
    simp only [List.map_cons, List.flatten_cons]
    exact List.Perm.append (h tr (List.mem_cons_self _ _))
      (ih (fun t ht => h t (List.mem_cons_of_mem _ ht)))

theorem trackerize_tracks_eq (mr : Roll) (offset : Int) :
    (trackerize mr offset).tracks
      = mr.tracks.map (fun tr => sortByTick (trackerize mr offset).heap
          ((joinTracks mr).filter (fun p => decide (p ∈ tr)))) := by
  unfold trackerize sortTracks splitTracks
  simp only [List.map_map]
  rfl

theorem trackerize_track_perm {mr : Roll} (offset : Int) (hwf : WellFormed mr)
    {tr : List Nat} (htr : tr ∈ mr.tracks) :
    (sortByTick (trackerize mr offset).heap
      ((joinTracks mr).filter (fun p => decide (p ∈ tr)))).Perm tr :=
  (sortByTick_perm _ _).trans (split_perm hwf htr)

theorem trackerize_wellFormed {mr : Roll} (offset : Int) (hwf : WellFormed mr) :
    WellFormed (trackerize mr offset) := by
  unfold WellFormed
  rw [trackerize_tracks_eq]
  exact (flatten_map_perm _ mr.tracks
    (fun tr htr => trackerize_track_perm offset hwf htr)).nodup_iff.mpr hwf

theorem getTrack_trackerize (mr : Roll) (offset : Int) (t : Nat) :
    (t < mr.tracks.length ∧ getTrack mr t ∈ mr.tracks ∧
      getTrack (trackerize mr offset) t = sortByTick (trackerize mr offset).heap
        ((joinTracks mr).filter (fun p => decide (p ∈ getTrack mr t)))) ∨
    (mr.tracks.length ≤ t ∧ getTrack mr t = [] ∧ getTrack (trackerize mr offset) t = []) := by
  unfold getTrack
  rw [trackerize_tracks_eq, List.getD_eq_getElem?_getD, List.getD_eq_getElem?_getD,
    List.getElem?_map]
  cases h : mr.tracks[t]? with
  | none =>
    right
    exact ⟨List.getElem?_eq_none_iff.mp h, rfl, rfl⟩
  | some tr =>
    left
    obtain ⟨hlt, hget⟩ := List.getElem?_eq_some_iff.mp h
    exact ⟨hlt, by simp only [Option.getD_some]; exact hget ▸ List.getElem_mem hlt, rfl⟩

/-! ## Roll transform: claims -/

/-- C8: after `trackerize(offset)` every note-on has the tick it had before;
every note-off that the pairing step linked to a note-on has its tick
increased by exactly `offset` (added once); every event that is not such a
note-off keeps its tick; and no event changes its message. -/
theorem trackerize_shifts_linked_note_offs (mr : Roll) (offset : Int) (hwf : WellFormed mr)
    (q : Nat) :
    ((mr.heap q).isNoteOn = true →
      ((trackerize mr offset).heap q).tick = (mr.heap q).tick) ∧
    (q ∈ linkedNoteOffs mr →
      (mr.heap q).isNoteOff = true ∧
        ((trackerize mr offset).heap q).tick = (mr.heap q).tick + offset) ∧
    (q ∉ linkedNoteOffs mr →
      ((trackerize mr offset).heap q).tick = (mr.heap q).tick) ∧
    ((trackerize mr offset).heap q).msg = (mr.heap q).msg := by
  obtain ⟨hmsg, htick, hoff⟩ := trackerize_heap mr offset hwf q
  refine ⟨?_, ?_, ?_, hmsg⟩
  · intro hon
    have hnot : q ∉ linkedNoteOffs mr := by
      intro hq
      rw [not_isNoteOn_of_isNoteOff (hoff hq)] at hon
      cases hon
    rw [htick, if_neg hnot, add_zero]
  · intro hq
    exact ⟨hoff hq, by rw [htick, if_pos hq]⟩
  · intro hq
    rw [htick, if_neg hq, add_zero]

/-- Offset 50 on the two-note roll: the note-offs at addresses 1 and 3 move
from ticks 100 and 200 to 150 and 250, the note-ons stay at 0 and 120. -/
theorem trackerize_shifts_linked_note_offs_witness :
    WellFormed twoNoteRoll ∧
    (((twoNoteRoll.heap 1).isNoteOn = true →
      ((trackerize twoNoteRoll 50).heap 1).tick = (twoNoteRoll.heap 1).tick) ∧
    (1 ∈ linkedNoteOffs twoNoteRoll →
      (twoNoteRoll.heap 1).isNoteOff = true ∧
        ((trackerize twoNoteRoll 50).heap 1).tick = (twoNoteRoll.heap 1).tick + 50) ∧
    (1 ∉ linkedNoteOffs twoNoteRoll →
      ((trackerize twoNoteRoll 50).heap 1).tick = (twoNoteRoll.heap 1).tick) ∧
    ((trackerize twoNoteRoll 50).heap 1).msg = (twoNoteRoll.heap 1).msg) ∧
    linkedNoteOffs twoNoteRoll = [1, 3] ∧
    [0, 1, 2, 3].map (fun p => ((trackerize twoNoteRoll 50).heap p).tick) = [0, 150, 120, 250] :=
  ⟨by decide, trackerize_shifts_linked_note_offs twoNoteRoll 50 (by decide) 1, by decide,
    by decide⟩

/-- C9: after `trackerize(offset)` the roll has as many tracks as before,
and every track `t` holds exactly the events it held before (the same
addresses, so the same count) and is ordered by non-decreasing tick. -/
theorem trackerize_keeps_and_sorts_tracks (mr : Roll) (offset : Int) (hwf : WellFormed mr)
    (t : Nat) :
    (trackerize mr offset).tracks.length = mr.tracks.length ∧
    (getTrack (trackerize mr offset) t).Perm (getTrack mr t) ∧
    (getTrack (trackerize mr offset) t).length = (getTrack mr t).length ∧
    (getTrack (trackerize mr offset) t).Pairwise
      (fun a b => ((trackerize mr offset).heap a).tick ≤ ((trackerize mr offset).heap b).tick) := by
  constructor
  · rw [trackerize_tracks_eq, List.length_map]
  · rcases getTrack_trackerize mr offset t with ⟨_, hmem, heq⟩ | ⟨_, h1, h2⟩
    · have hperm := trackerize_track_perm offset hwf hmem
      rw [heq]
      exact ⟨hperm, hperm.length_eq, sortByTick_sorted _ _⟩
    · rw [h1, h2]
      exact ⟨List.Perm.refl _, rfl, List.Pairwise.nil⟩

/-- On `extraNoteOffRoll` with offset 25 the single track keeps its three
events and is re-sorted to `[0, 2, 1]` (ticks 0, 20, 35). -/
theorem trackerize_keeps_and_sorts_tracks_witness :
    WellFormed extraNoteOffRoll ∧
    ((trackerize extraNoteOffRoll 25).tracks.length = extraNoteOffRoll.tracks.length ∧
    (getTrack (trackerize extraNoteOffRoll 25) 0).Perm (getTrack extraNoteOffRoll 0) ∧
    (getTrack (trackerize extraNoteOffRoll 25) 0).length
      = (getTrack extraNoteOffRoll 0).length ∧
    (getTrack (trackerize extraNoteOffRoll 25) 0).Pairwise
      (fun a b => ((trackerize extraNoteOffRoll 25).heap a).tick
        ≤ ((trackerize extraNoteOffRoll 25).heap b).tick)) ∧
    (trackerize extraNoteOffRoll 25).tracks = [[0, 2, 1]] ∧
    [0, 2, 1].map (fun p => ((trackerize extraNoteOffRoll 25).heap p).tick) = [0, 20, 35] :=
  ⟨by decide, trackerize_keeps_and_sorts_tracks extraNoteOffRoll 25 (by decide) 0, by decide,
    by decide⟩

/-- C10 (as amended): a note-off shifted by the first `trackerize(offset)`
ends at its original tick plus `2*offset` after a second call when the
pairing step of the second call links it again, and stays at its original
tick plus `offset` when it does not; in the first case the second call
changes the event whenever `offset` is not zero. -/
theorem trackerize_twice (mr : Roll) (offset : Int) (hwf : WellFormed mr) (q : Nat)
    (hq : q ∈ linkedNoteOffs mr) :
    (q ∈ linkedNoteOffs (trackerize mr offset) →
      ((trackerize (trackerize mr offset) offset).heap q).tick
        = (mr.heap q).tick + 2 * offset) ∧
    (q ∉ linkedNoteOffs (trackerize mr offset) →
      ((trackerize (trackerize mr offset) offset).heap q).tick = (mr.heap q).tick + offset) ∧
    (q ∈ linkedNoteOffs (trackerize mr offset) → offset ≠ 0 →
      ((trackerize (trackerize mr offset) offset).heap q).tick
        ≠ ((trackerize mr offset).heap q).tick) := by
  obtain ⟨_, htick1, _⟩ := trackerize_heap mr offset hwf q
  obtain ⟨_, htick2, _⟩ :=
    trackerize_heap (trackerize mr offset) offset (trackerize_wellFormed offset hwf) q
  rw [if_pos hq] at htick1
  refine ⟨?_, ?_, ?_⟩
  · intro h2
    rw [htick2, if_pos h2, htick1]
    ring
  · intro h2
    rw [htick2, if_neg h2, htick1]
    ring
  · intro h2 hne
    rw [htick2, if_pos h2]
    omega

/-- Offset 50 twice on the two-note roll: the note-off at address 1 is linked
in both calls and ends at tick 200. -/
theorem trackerize_twice_witness :
    WellFormed twoNoteRoll ∧ 1 ∈ linkedNoteOffs twoNoteRoll ∧
    ((1 ∈ linkedNoteOffs (trackerize twoNoteRoll 50) →
      ((trackerize (trackerize twoNoteRoll 50) 50).heap 1).tick
        = (twoNoteRoll.heap 1).tick + 2 * 50) ∧
    (1 ∉ linkedNoteOffs (trackerize twoNoteRoll 50) →
      ((trackerize (trackerize twoNoteRoll 50) 50).heap 1).tick
        = (twoNoteRoll.heap 1).tick + 50) ∧
    (1 ∈ linkedNoteOffs (trackerize twoNoteRoll 50) → (50 : Int) ≠ 0 →
      ((trackerize (trackerize twoNoteRoll 50) 50).heap 1).tick
        ≠ ((trackerize twoNoteRoll 50).heap 1).tick)) ∧
    1 ∈ linkedNoteOffs (trackerize twoNoteRoll 50) ∧
    ((trackerize (trackerize twoNoteRoll 50) 50).heap 1).tick = 200 :=
  ⟨by decide, by decide, trackerize_twice twoNoteRoll 50 (by decide) 1 (by decide), by decide,
    by decide⟩

/-- C10 (as stated, refuted): on a track with a note-on at tick 0 and two
note-offs of its key at ticks 10 and 20, `trackerize(25)` shifts the first
note-off to 35; the second call pairs the note-on with the other note-off,
so the first one stays at 35 and does not reach `10 + 2*25`. -/
theorem trackerize_twice_counterexample :
    WellFormed extraNoteOffRoll ∧
    (extraNoteOffRoll.heap 1).tick = 10 ∧
    1 ∈ linkedNoteOffs extraNoteOffRoll ∧
    ((trackerize extraNoteOffRoll 25).heap 1).tick = 10 + 25 ∧
    ((trackerize (trackerize extraNoteOffRoll 25) 25).heap 1).tick = 35 ∧
    ((trackerize (trackerize extraNoteOffRoll 25) 25).heap 1).tick ≠ 10 + 2 * 25 := by
  refine ⟨by decide, by decide, by decide, by decide, by decide, by decide⟩

/-! ## Roll parameter store: claims -/

/-- C12: `setLengthDpi(v)` with `v <= 0` leaves the stored length DPI as it
was and with `v > 0` stores `v`; `setWidthDpi` does the same for the width
DPI; and neither setter changes the other parameter. -/
theorem dpi_setters (mr : Roll) (v : ℚ) :
    (v ≤ 0 → getLengthDpi (setLengthDpi mr v) = getLengthDpi mr) ∧
    (0 < v → getLengthDpi (setLengthDpi mr v) = v) ∧
    (v ≤ 0 → getWidthDpi (setWidthDpi mr v) = getWidthDpi mr) ∧
    (0 < v → getWidthDpi (setWidthDpi mr v) = v) ∧
    getWidthDpi (setLengthDpi mr v) = getWidthDpi mr ∧
    getLengthDpi (setWidthDpi mr v) = getLengthDpi mr := by
  unfold setLengthDpi setWidthDpi getLengthDpi getWidthDpi
  refine ⟨?_, ?_, ?_, ?_, ?_, ?_⟩
  · intro h
    rw [if_neg (not_lt.mpr h)]
  · intro h
    rw [if_pos h]
  · intro h
    rw [if_neg (not_lt.mpr h)]
  · intro h
    rw [if_pos h]
  · split <;> rfl
  · split <;> rfl

/-- Setting 150 on the default roll (length DPI 300) stores 150 and leaves
the width DPI at 300. -/
theorem dpi_setters_witness :
    (0 : ℚ) < 150 ∧ getLengthDpi (setLengthDpi (emptyRoll 480) 150) = 150 ∧
    getWidthDpi (setLengthDpi (emptyRoll 480) 150) = 300 ∧
    (-1 : ℚ) ≤ 0 ∧ getLengthDpi (setLengthDpi (emptyRoll 480) (-1)) = 300 :=
  ⟨by norm_num, (dpi_setters (emptyRoll 480) 150).2.1 (by norm_num),
    (dpi_setters (emptyRoll 480) 150).2.2.2.2.1, by norm_num,
    (dpi_setters (emptyRoll 480) (-1)).1 (by norm_num)⟩

/-! ## Tempo mapper: the reverse round trip -/

theorem unlinkedNoteOns_isNoteOn {mr : Roll} {p : Nat} (hp : p ∈ unlinkedNoteOns mr) :
    (mr.heap p).isNoteOn = true ∧ p ∈ mr.tracks.flatten := by
  have hmem : p ∈ (joinTracks mr).filter (fun p =>
      ((linkNotePairs mr (joinTracks mr)).heap p).isNoteOn &&
        ((linkNotePairs mr (joinTracks mr)).heap p).link.isNone) := hp
  rw [List.mem_filter] at hmem
  obtain ⟨h1, h2⟩ := hmem
  simp only [Bool.and_eq_true] at h2
  constructor
  · rw [← isNoteOn_of_msg ((linkNotePairs_spec mr (joinTracks mr)).2 p).1]
    exact h2.1
  · unfold joinTracks at h1
    exact mem_sortByTick.mp h1

/-- C11: when the pairing step leaves the note-on `p` without a linked
note-off, `trackerize(offset)` still returns a roll in which `p` has the
tick it had, every note-off that is not linked to a note-on has the tick it
had, every note-off linked to a note-on is shifted by `offset`, and no
message has changed. -/
theorem trackerize_missing_note_off (mr : Roll) (offset : Int) (hwf : WellFormed mr) (p : Nat)
    (hp : p ∈ unlinkedNoteOns mr) :
    ((trackerize mr offset).heap p).tick = (mr.heap p).tick ∧
    (∀ q, (mr.heap q).isNoteOff = true → q ∉ linkedNoteOffs mr →
      ((trackerize mr offset).heap q).tick = (mr.heap q).tick) ∧
    (∀ q, q ∈ linkedNoteOffs mr →
      ((trackerize mr offset).heap q).tick = (mr.heap q).tick + offset) ∧
    (∀ q, ((trackerize mr offset).heap q).msg = (mr.heap q).msg) := by
  refine ⟨?_, ?_, ?_, ?_⟩
  · obtain ⟨_, htick, hoff⟩ := trackerize_heap mr offset hwf p
    have hon := (unlinkedNoteOns_isNoteOn hp).1
    have hnot : p ∉ linkedNoteOffs mr := by
      intro hq
      rw [not_isNoteOn_of_isNoteOff (hoff hq)] at hon
      cases hon
    rw [htick, if_neg hnot, add_zero]
  · intro q _ hq
    obtain ⟨_, htick, _⟩ := trackerize_heap mr offset hwf q
    rw [htick, if_neg hq, add_zero]
  · intro q hq
    obtain ⟨_, htick, _⟩ := trackerize_heap mr offset hwf q
    rw [htick, if_pos hq]
  · intro q
    exact (trackerize_heap mr offset hwf q).1

/-- Offset 50 on `unpairedRoll`: the note-on at address 1 has no note-off and
stays at tick 50, the stray note-off at address 2 stays at 60, and the paired
note-off at address 3 moves from 100 to 150. -/
theorem trackerize_missing_note_off_witness :
    WellFormed unpairedRoll ∧ 1 ∈ unlinkedNoteOns unpairedRoll ∧
    (((trackerize unpairedRoll 50).heap 1).tick = (unpairedRoll.heap 1).tick ∧
    (∀ q, (unpairedRoll.heap q).isNoteOff = true → q ∉ linkedNoteOffs unpairedRoll →
      ((trackerize unpairedRoll 50).heap q).tick = (unpairedRoll.heap q).tick) ∧
    (∀ q, q ∈ linkedNoteOffs unpairedRoll →
      ((trackerize unpairedRoll 50).heap q).tick = (unpairedRoll.heap q).tick + 50) ∧
    (∀ q, ((trackerize unpairedRoll 50).heap q).msg = (unpairedRoll.heap q).msg)) ∧
    unlinkedNoteOns unpairedRoll = [1] ∧ linkedNoteOffs unpairedRoll = [3] ∧
    [0, 1, 2, 3].map (fun q => ((trackerize unpairedRoll 50).heap q).tick) = [0, 50, 60, 150] :=
  ⟨by decide, by decide,
    trackerize_missing_note_off unpairedRoll 50 (by decide) 1 (by decide),
    by decide, by decide, by decide⟩

/-! ## Metadata codec: lookup -/

/-- C13 (what the code does): when the pattern constructor throws for the
query built from marker and key, `getMetadata` does not return the empty
string; the exception leaves the function. -/
theorem getMetadata_constructor_throws (regex : List Char → Option Regex) (mr : Roll)
    (key : List Char)
    (hthrow : regex (getMetadataMarker mr ++ key ++ querySuffix) = none) :
    getMetadata regex mr key = none ∧ getMetadata regex mr key ≠ some [] := by
  have h : getMetadata regex mr key = none := by
    unfold getMetadata
    simp only [hthrow]
  exact ⟨h, by rw [h]; exact fun e => Option.noConfusion e⟩

/-- Key `(` on `metadataRoll`: the query `@(:\s*(.*)\s*$` has an unclosed
parenthesis and is not accepted by the constructor. -/
theorem getMetadata_constructor_throws_witness :
    literalRegex (getMetadataMarker metadataRoll ++ ['('] ++ querySuffix) = none ∧
    (getMetadata literalRegex metadataRoll ['('] = none ∧
      getMetadata literalRegex metadataRoll ['('] ≠ some []) :=
  ⟨rfl, getMetadata_constructor_throws literalRegex metadataRoll ['('] rfl⟩

theorem getMetadataLoop_eq_nil {heap : Nat → MidiEvent} {re : Regex} {l : List Nat}
    (h : ∀ q ∈ l, matchesKey heap re q = false) : getMetadataLoop heap re l = [] := by
  induction l with
  | nil => rfl
  | cons p ps ih =>
    rw [getMetadataLoop_cons_skip (h p (List.mem_cons_self _ _))]
    exact ih (fun q hq => h q (List.mem_cons_of_mem _ hq))

theorem getMetadataLoop_first {heap : Nat → MidiEvent} {re : Regex} {text : List Char} :
    ∀ (l : List Nat) (i p : Nat), l[i]? = some p → (heap p).isText = true →
      re (heap p).getMetaContent = SearchResult.captured text →
      (∀ j q : Nat, j < i → l[j]? = some q → matchesKey heap re q = false) →
      getMetadataLoop heap re l = text := by
  intro l
  induction l with
  | nil => intro i p hp; simp at hp
  | cons x xs ih =>
    intro i p hp ht hr hfirst
    cases i with
    | zero =>
      simp at hp
      subst hp
      exact getMetadataLoop_cons_match ht hr
    | succ i =>
      have hx : matchesKey heap re x = false := hfirst 0 x (Nat.succ_pos i) (by simp)
      rw [getMetadataLoop_cons_skip hx]
      apply ih i p
      · simpa using hp
      · exact ht
      · exact hr
      · intro j q hj hq
        exact hfirst (j + 1) q (Nat.succ_lt_succ hj) (by simpa using hq)

theorem getMetadataLoop_congr {heap heap2 : Nat → MidiEvent} {re : Regex} :
    ∀ l : List Nat, (∀ p ∈ l, heap2 p = heap p) →
      getMetadataLoop heap2 re l = getMetadataLoop heap re l := by
  intro l
  induction l with
  | nil => intro _; rfl
  | cons x xs ih =>
    intro h
    have hx := h x (List.mem_cons_self _ _)
    have hxs := ih (fun p hp => h p (List.mem_cons_of_mem _ hp))
    rw [getMetadataLoop, getMetadataLoop, hx, hxs]

/-- C14: with the pattern built from marker and key, `getMetadata` returns
the capture of the lowest-index text event of track 0 that matches, whatever
follows it in track 0; it returns the empty string when no text event of
track 0 matches; and a roll with the same marker, the same track 0 and the
same events in track 0 gives the same result, whatever its other tracks
and events are. -/
theorem getMetadata_first_match (regex : List Char → Option Regex) (mr : Roll)
    (key : List Char) (re : Regex)
    (hre : regex (getMetadataMarker mr ++ key ++ querySuffix) = some re) :
    (∀ (i p : Nat) (text : List Char), (getTrack mr 0)[i]? = some p →
      (mr.heap p).isText = true →
      re (mr.heap p).getMetaContent = SearchResult.captured text →
      (∀ j q : Nat, j < i → (getTrack mr 0)[j]? = some q → matchesKey mr.heap re q = false) →
      getMetadata regex mr key = some text) ∧
    ((∀ q ∈ getTrack mr 0, matchesKey mr.heap re q = false) →
      getMetadata regex mr key = some []) ∧
    (∀ other : Roll, getMetadataMarker other = getMetadataMarker mr →
      getTrack other 0 = getTrack mr 0 →
      (∀ p ∈ getTrack mr 0, other.heap p = mr.heap p) →
      getMetadata regex other key = getMetadata regex mr key) := by
  have hget : getMetadata regex mr key = some (getMetadataLoop mr.heap re (getTrack mr 0)) := by
    unfold getMetadata
    simp only [hre]
  refine ⟨?_, ?_, ?_⟩
  · intro i p text hp ht hr hfirst
    rw [hget, getMetadataLoop_first (getTrack mr 0) i p hp ht hr hfirst]
  · intro hnone
    rw [hget, getMetadataLoop_eq_nil hnone]
  · intro other hmarker htrack hheap
    rw [hget]
    unfold getMetadata
    simp only [hmarker, hre, htrack]
    rw [getMetadataLoop_congr (getTrack mr 0) hheap]

/-- On `duplicateKeyRoll` the lookup of `speed` returns 50, the capture of
the first entry of track 0; the entry 70 behind it and the entry 90 in
track 1 play no part. -/
theorem getMetadata_first_match_witness :
    literalRegex (getMetadataMarker duplicateKeyRoll ++ ['s', 'p', 'e', 'e', 'd'] ++ querySuffix)
      = some (literalSearch ['@', 's', 'p', 'e', 'e', 'd']) ∧
    ((∀ (i p : Nat) (text : List Char), (getTrack duplicateKeyRoll 0)[i]? = some p →
      (duplicateKeyRoll.heap p).isText = true →
      literalSearch ['@', 's', 'p', 'e', 'e', 'd'] (duplicateKeyRoll.heap p).getMetaContent
        = SearchResult.captured text →
      (∀ j q : Nat, j < i → (getTrack duplicateKeyRoll 0)[j]? = some q →
        matchesKey duplicateKeyRoll.heap (literalSearch ['@', 's', 'p', 'e', 'e', 'd']) q
          = false) →
      getMetadata literalRegex duplicateKeyRoll ['s', 'p', 'e', 'e', 'd'] = some text) ∧
    ((∀ q ∈ getTrack duplicateKeyRoll 0,
        matchesKey duplicateKeyRoll.heap (literalSearch ['@', 's', 'p', 'e', 'e', 'd']) q
          = false) →
      getMetadata literalRegex duplicateKeyRoll ['s', 'p', 'e', 'e', 'd'] = some []) ∧
    (∀ other : Roll, getMetadataMarker other = getMetadataMarker duplicateKeyRoll →
      getTrack other 0 = getTrack duplicateKeyRoll 0 →
      (∀ p ∈ getTrack duplicateKeyRoll 0, other.heap p = duplicateKeyRoll.heap p) →
      getMetadata literalRegex other ['s', 'p', 'e', 'e', 'd']
        = getMetadata literalRegex duplicateKeyRoll ['s', 'p', 'e', 'e', 'd'])) ∧
    getMetadata literalRegex duplicateKeyRoll ['s', 'p', 'e', 'e', 'd'] = some ['5', '0'] ∧
    getMetadata literalRegex duplicateKeyRoll ['t', 'i', 't', 'l', 'e'] = some [] :=
  ⟨literalRegex_readsLiterals ['@', 's', 'p', 'e', 'e', 'd'] (by decide),
    getMetadata_first_match literalRegex duplicateKeyRoll ['s', 'p', 'e', 'e', 'd']
      (literalSearch ['@', 's', 'p', 'e', 'e', 'd'])
      (literalRegex_readsLiterals ['@', 's', 'p', 'e', 'e', 'd'] (by decide)),
    by decide, by decide⟩

/-- C15 (what the code does): on a track 0 whose only text event is
`@speed: 60 ` (a blank after the value) `getMetadata("speed")` returns `60 `,
blank included: white space after the value is not trimmed. -/
theorem getMetadata_keeps_trailing_space :
    (trailingSpaceRoll.heap 0).getMetaContent = "@speed: 60 ".toList ∧
    getMetadata literalRegex trailingSpaceRoll ['s', 'p', 'e', 'e', 'd'] = some ['6', '0', ' '] ∧
    (['6', '0', ' '].getLast?.map isSpace) = some true := by
  refine ⟨by decide, by decide, by decide⟩

/-- C17 (what the code does): on a track 0 whose only text event is
`note @speed: 60`, which does not begin with the marker `@`,
`getMetadata("speed")` returns `60` taken from that event and
`setMetadata("speed", "70")` overwrites its payload and returns its tick 3,
while `getMetadataEvents` does not list the event. -/
theorem metadata_search_not_anchored :
    getMetadataMarker embeddedRoll = ['@'] ∧
    (embeddedRoll.heap 0).getMetaContent = "note @speed: 60".toList ∧
    (getMetadataMarker embeddedRoll).isPrefixOf (embeddedRoll.heap 0).getMetaContent = false ∧
    getMetadata literalRegex embeddedRoll ['s', 'p', 'e', 'e', 'd'] = some ['6', '0'] ∧
    (setMetadata literalRegex embeddedRoll ['s', 'p', 'e', 'e', 'd'] ['7', '0']).map
      (fun r => (r.1, r.2.tracks, (r.2.heap 0).getMetaContent))
      = some (3, [[0]], "@speed: 70".toList) ∧
    getTextEvents embeddedRoll = [0] ∧
    getMetadataEvents embeddedRoll = [] := by
  refine ⟨by decide, by decide, by decide, by decide, by decide, by decide, by decide⟩

/-! ## Metadata codec: event lists -/

theorem isText_eq (e : MidiEvent) :
    e.isText = (e.isMetaMessage && e.getMetaType == 0x01) := by
  obtain ⟨t, m, l⟩ := e
  cases m with
  | metaMessage mtype content =>
    simp only [MidiEvent.isText, MidiEvent.isMetaMessage, MidiEvent.getMetaType, Bool.true_and]
    by_cases h : mtype = 1
    · subst h; rfl
    · have h1 : (mtype == 1) = false := by simpa using h
      have h2 : ((mtype : Int) == 1) = false := by
        simp only [beq_eq_false_iff_ne, ne_eq]
        exact_mod_cast h
      rw [h1, h2]
  | noteOn c k => rfl
  | noteOff c k => rfl
  | other => rfl

theorem contains_drop_iff (content : List Char) (n : Nat) :
    (content.drop n).contains ':' = true ↔
      ∃ i, n ≤ i ∧ content[i]? = some ':' := by
  have hc : (content.drop n).contains ':' = true ↔ ':' ∈ content.drop n := by simp
  rw [hc, List.mem_iff_getElem?]
  constructor
  · rintro ⟨k, hk⟩
    rw [List.getElem?_drop] at hk
    exact ⟨n + k, Nat.le_add_right n k, hk⟩
  · rintro ⟨i, hi, hget⟩
    refine ⟨i - n, ?_⟩
    rw [List.getElem?_drop]
    have : n + (i - n) = i := by omega
    rw [this]
    exact hget

/-- The two tests of `getMetadataEvents` on the content decide the shape the
specification describes. -/
theorem metadataShape_eq (marker content : List Char) :
    (decide (content.take marker.length = marker) &&
      (content.drop marker.length).contains ':') = metadataShape marker content := by
  unfold metadataShape
  rw [Bool.eq_iff_iff]
  simp only [Bool.and_eq_true, decide_eq_true_eq, List.any_eq_true, List.mem_range,
    beq_iff_eq]
  rw [contains_drop_iff, List.isPrefixOf_iff_prefix, List.prefix_iff_eq_take]
  constructor
  · rintro ⟨h1, i, hi, hget⟩
    refine ⟨h1.symm, i, ?_, hi, hget⟩
    exact (List.getElem?_eq_some_iff.mp hget).1
  · rintro ⟨h1, i, _, hi, hget⟩
    exact ⟨h1.symm, i, hi, hget⟩

/-- C16: `getMetadataEvents` is the order-preserving sublist of
`getTextEvents` made of exactly the events whose payload begins with the
marker and holds a `:` at an index not below the length of the marker;
`getTextEvents` lists the text events of all tracks, track by track in
stored order; and no event is returned twice when no event sits in two
places of the track list. -/
theorem getMetadataEvents_eq_filter (mr : Roll) :
    getMetadataEvents mr = (getTextEvents mr).filter
      (fun p => metadataShape (getMetadataMarker mr) (mr.heap p).getMetaContent) ∧
    (getMetadataEvents mr).Sublist (getTextEvents mr) ∧
    getTextEvents mr = mr.tracks.flatten.filter (fun p => (mr.heap p).isText) ∧
    (WellFormed mr → (getMetadataEvents mr).Nodup ∧ (getTextEvents mr).Nodup) := by
  have h1 : getMetadataEvents mr = (getTextEvents mr).filter
      (fun p => metadataShape (getMetadataMarker mr) (mr.heap p).getMetaContent) := by
    unfold getMetadataEvents getTextEvents
    rw [List.filter_filter]
    apply List.filter_congr
    intro p _
    rw [← metadataShape_eq]
    cases (mr.heap p).isMetaMessage <;> cases ((mr.heap p).getMetaType == 0x01) <;> simp
  have h3 : getTextEvents mr = mr.tracks.flatten.filter (fun p => (mr.heap p).isText) := by
    unfold getTextEvents
    apply List.filter_congr
    intro p _
    rw [isText_eq]
  refine ⟨h1, ?_, h3, ?_⟩
  · rw [h1]
    exact List.filter_sublist _
  · intro hwf
    have hn : (getTextEvents mr).Nodup := by
      rw [h3]
      exact List.Nodup.filter _ hwf
    exact ⟨by rw [h1]; exact List.Nodup.filter _ hn, hn⟩

/-- On `metadataRoll` both lists are `[0, 1]`; on `embeddedRoll` the text
event is listed by `getTextEvents` only. -/
theorem getMetadataEvents_eq_filter_witness :
    WellFormed metadataRoll ∧
    getTextEvents metadataRoll = [0, 1] ∧ getMetadataEvents metadataRoll = [0, 1] ∧
    (getMetadataEvents metadataRoll).Nodup ∧
    getTextEvents embeddedRoll = [0] ∧ getMetadataEvents embeddedRoll = [] :=
  ⟨by decide, by decide, by decide,
    ((getMetadataEvents_eq_filter metadataRoll).2.2.2 (by decide)).1, by decide, by decide⟩

/-! ## Binary64 arithmetic: lemmas -/

theorem roundEven_error (y : ℚ) : |(Binary64.roundEven y : ℚ) - y| ≤ 1 / 2 := by
  have h0 : 0 ≤ Int.fract y := Int.fract_nonneg y
  have h1 : Int.fract y < 1 := Int.fract_lt_one y
  have hy : y = (⌊y⌋ : ℚ) + Int.fract y := (Int.floor_add_fract y).symm
  unfold Binary64.roundEven
  rw [abs_le]
  split
  · constructor <;> linarith
  · split
    · push_cast
      constructor <;> linarith
    · split
      · constructor <;> linarith
      · push_cast
        constructor <;> linarith

theorem roundEven_eq_of_abs_lt {y : ℚ} {m : Int} (h : |(m : ℚ) - y| < 1 / 2) :
    Binary64.roundEven y = m := by
  have h0 : 0 ≤ Int.fract y := Int.fract_nonneg y
  have h1 : Int.fract y < 1 := Int.fract_lt_one y
  have hy : y = (⌊y⌋ : ℚ) + Int.fract y := (Int.floor_add_fract y).symm
  rw [abs_lt] at h
  unfold Binary64.roundEven
  by_cases c1 : 2 * Int.fract y < 1
  · rw [if_pos c1]
    have a1 : ((⌊y⌋ - m : Int) : ℚ) < 1 := by push_cast; linarith
    have a2 : (-1 : ℚ) < ((⌊y⌋ - m : Int) : ℚ) := by push_cast; linarith
    have b1 : ⌊y⌋ - m < 1 := by exact_mod_cast a1
    have b2 : -1 < ⌊y⌋ - m := by exact_mod_cast a2
    omega
  · rw [if_neg c1]
    by_cases c2 : 1 < 2 * Int.fract y
    · rw [if_pos c2]
      have a1 : ((⌊y⌋ + 1 - m : Int) : ℚ) < 1 := by push_cast; linarith
      have a2 : (-1 : ℚ) < ((⌊y⌋ + 1 - m : Int) : ℚ) := by push_cast; linarith
      have b1 : ⌊y⌋ + 1 - m < 1 := by exact_mod_cast a1
      have b2 : -1 < ⌊y⌋ + 1 - m := by exact_mod_cast a2
      omega
    · exfalso
      have e : 2 * Int.fract y = 1 := le_antisymm (not_lt.mp c2) (not_lt.mp c1)
      have a1 : ((2 * (m - ⌊y⌋) : Int) : ℚ) < 2 := by push_cast; linarith
      have a2 : (0 : ℚ) < ((2 * (m - ⌊y⌋) : Int) : ℚ) := by push_cast; linarith
      have b1 : 2 * (m - ⌊y⌋) < 2 := by exact_mod_cast a1
      have b2 : 0 < 2 * (m - ⌊y⌋) := by exact_mod_cast a2
      omega

theorem binade_eq {q : ℚ} {e : Int} (h1 : (2 : ℚ) ^ e ≤ |q|) (h2 : |q| < (2 : ℚ) ^ (e + 1))
    (hmin : -1022 ≤ e) : Binary64.binade q = e := by
  have hpos : 0 < |q| := lt_of_lt_of_le (zpow_pos (by norm_num) e) h1
  have a : e ≤ Int.log 2 |q| :=
    (Int.zpow_le_iff_le_log (by norm_num) hpos).mp (by exact_mod_cast h1)
  have b : Int.log 2 |q| < e + 1 :=
    (Int.lt_zpow_iff_log_lt (by norm_num) hpos).mp (by exact_mod_cast h2)
  unfold Binary64.binade
  have : Int.log 2 |q| = e := by omega
  rw [this]
  exact max_eq_left hmin

/-- Evaluation of `Binary64.fl64` from a bracketing of the argument. -/
theorem fl64_eq {q r : ℚ} (e m : Int) (h1 : (2 : ℚ) ^ e ≤ |q|) (h2 : |q| < (2 : ℚ) ^ (e + 1))
    (hmin : -1022 ≤ e) (hm : |(m : ℚ) - q * (2 : ℚ) ^ (52 - e)| < 1 / 2)
    (hr : r = (m : ℚ) * (2 : ℚ) ^ (e - 52)) (hfin : |r| < 2 ^ 1024) :
    Binary64.fl64 q = some r := by
  have hq : q ≠ 0 := by
    intro h
    rw [h, abs_zero] at h1
    exact absurd h1 (not_le.mpr (zpow_pos (by norm_num) e))
  unfold Binary64.fl64
  rw [if_neg hq]
  simp only [binade_eq h1 h2 hmin, roundEven_eq_of_abs_lt hm, ← hr]
  rw [if_pos hfin]

/-- Evaluation of `Binary64.fl64` at a positive argument. -/
theorem fl64_eq_pos {q r : ℚ} (e m : Int) (h1 : (2 : ℚ) ^ e ≤ q) (h2 : q < (2 : ℚ) ^ (e + 1))
    (hmin : -1022 ≤ e) (hm1 : q * (2 : ℚ) ^ (52 - e) - 1 / 2 < (m : ℚ))
    (hm2 : (m : ℚ) < q * (2 : ℚ) ^ (52 - e) + 1 / 2)
    (hr : r = (m : ℚ) * (2 : ℚ) ^ (e - 52)) (hr0 : 0 ≤ r) (hfin : r < 2 ^ 64) :
    Binary64.fl64 q = some r := by
  have hbig : (2 : ℚ) ^ 64 ≤ 2 ^ 1024 := pow_le_pow_right₀ (by norm_num) (by norm_num)
  have hq : 0 < q := lt_of_lt_of_le (zpow_pos (by norm_num) e) h1
  apply fl64_eq e m
  · rw [abs_of_pos hq]; exact h1
  · rw [abs_of_pos hq]; exact h2
  · exact hmin
  · rw [abs_lt]; constructor <;> linarith
  · exact hr
  · rw [abs_of_nonneg hr0]; exact lt_of_lt_of_le hfin hbig

/-- Evaluation of `Binary64.fl64` at a negative argument. -/
theorem fl64_eq_neg {q r : ℚ} (e m : Int) (h1 : (2 : ℚ) ^ e ≤ -q) (h2 : -q < (2 : ℚ) ^ (e + 1))
    (hmin : -1022 ≤ e) (hm1 : q * (2 : ℚ) ^ (52 - e) - 1 / 2 < (m : ℚ))
    (hm2 : (m : ℚ) < q * (2 : ℚ) ^ (52 - e) + 1 / 2)
    (hr : r = (m : ℚ) * (2 : ℚ) ^ (e - 52)) (hr0 : r ≤ 0) (hfin : -2 ^ 64 < r) :
    Binary64.fl64 q = some r := by
  have hbig : (2 : ℚ) ^ 64 ≤ 2 ^ 1024 := pow_le_pow_right₀ (by norm_num) (by norm_num)
  have hq : q < 0 := by
    have := lt_of_lt_of_le (zpow_pos (by norm_num : (0 : ℚ) < 2) e) h1
    linarith
  apply fl64_eq e m
  · rw [abs_of_neg hq]; exact h1
  · rw [abs_of_neg hq]; exact h2
  · exact hmin
  · rw [abs_lt]; constructor <;> linarith
  · exact hr
  · rw [abs_of_nonpos hr0]; linarith


theorem zpow_binade_le (q : ℚ) (hq : q ≠ 0) :
    (2 : ℚ) ^ (Binary64.binade q - 53) ≤ 1 / 2 ^ 53 * |q| + 1 / 2 ^ 1075 := by
  have hpos : 0 < |q| := abs_pos.mpr hq
  have h2 : (2 : ℚ) ≠ 0 := by norm_num
  unfold Binary64.binade
  rcases le_total (Int.log 2 |q|) (-1022) with h | h
  · rw [max_eq_right h]
    have e : (2 : ℚ) ^ ((-1022 : ℤ) - 53) = 1 / 2 ^ 1075 := by
      rw [show ((-1022 : ℤ) - 53) = -(1075 : ℕ) by norm_num, zpow_neg, zpow_natCast]
      simp
    rw [e]
    have : 0 ≤ 1 / 2 ^ 53 * |q| := by positivity
    linarith
  · rw [max_eq_left h]
    have hle : (2 : ℚ) ^ Int.log 2 |q| ≤ |q| := by
      exact_mod_cast Int.zpow_log_le_self (b := 2) (r := |q|) (by norm_num) hpos
    have e : (2 : ℚ) ^ (Int.log 2 |q| - 53) = (2 : ℚ) ^ Int.log 2 |q| * (1 / 2 ^ 53) := by
      rw [zpow_sub₀ h2]
      have : (2 : ℚ) ^ (53 : ℤ) = 2 ^ 53 := by norm_cast
      rw [this]
      ring
    rw [e]
    have : 0 ≤ (1 : ℚ) / 2 ^ 1075 := by positivity
    nlinarith

/-- The rounding error of the nearest representable value. -/
theorem fl64_raw_error (q : ℚ) (hq : q ≠ 0) :
    |(Binary64.roundEven (q * (2 : ℚ) ^ (52 - Binary64.binade q)) : ℚ)
        * (2 : ℚ) ^ (Binary64.binade q - 52) - q|
      ≤ 1 / 2 ^ 53 * |q| + 1 / 2 ^ 1075 := by
  have h2 : (2 : ℚ) ≠ 0 := by norm_num
  have hscale : q = q * (2 : ℚ) ^ (52 - Binary64.binade q)
      * (2 : ℚ) ^ (Binary64.binade q - 52) := by
    rw [mul_assoc, ← zpow_add₀ h2]
    simp
  have hpos : (0 : ℚ) < (2 : ℚ) ^ (Binary64.binade q - 52) := zpow_pos (by norm_num) _
  have herr := roundEven_error (q * (2 : ℚ) ^ (52 - Binary64.binade q))
  have e1 : (Binary64.roundEven (q * (2 : ℚ) ^ (52 - Binary64.binade q)) : ℚ)
        * (2 : ℚ) ^ (Binary64.binade q - 52) - q
      = ((Binary64.roundEven (q * (2 : ℚ) ^ (52 - Binary64.binade q)) : ℚ)
          - q * (2 : ℚ) ^ (52 - Binary64.binade q)) * (2 : ℚ) ^ (Binary64.binade q - 52) := by
    rw [sub_mul, ← hscale]
  rw [e1, abs_mul, abs_of_pos hpos]
  have e2 : (2 : ℚ) ^ (Binary64.binade q - 53)
      = 1 / 2 * (2 : ℚ) ^ (Binary64.binade q - 52) := by
    rw [show Binary64.binade q - 53 = (Binary64.binade q - 52) - 1 by ring, zpow_sub₀ h2]
    simp
    ring
  calc |(Binary64.roundEven (q * (2 : ℚ) ^ (52 - Binary64.binade q)) : ℚ)
          - q * (2 : ℚ) ^ (52 - Binary64.binade q)| * (2 : ℚ) ^ (Binary64.binade q - 52)
      ≤ 1 / 2 * (2 : ℚ) ^ (Binary64.binade q - 52) := by
        apply mul_le_mul_of_nonneg_right herr (le_of_lt hpos)
    _ = (2 : ℚ) ^ (Binary64.binade q - 53) := e2.symm
    _ ≤ _ := zpow_binade_le q hq

/-- The rounding error of one binary64 operation. -/
theorem fl64_error {q r : ℚ} (h : Binary64.fl64 q = some r) :
    |r - q| ≤ 1 / 2 ^ 53 * |q| + 1 / 2 ^ 1075 := by
  unfold Binary64.fl64 at h
  by_cases hq : q = 0
  · rw [if_pos hq] at h
    simp only [Option.some.injEq] at h
    rw [← h, hq]
    norm_num
  · rw [if_neg hq] at h
    simp only [] at h
    split at h
    · simp only [Option.some.injEq] at h
      rw [← h]
      exact fl64_raw_error q hq
    · cases h

/-- An operation whose exact result is at most `2^1023` in magnitude has a
finite binary64 result. -/
theorem fl64_isSome {q : ℚ} (h : |q| ≤ 2 ^ 1023) : ∃ r, Binary64.fl64 q = some r := by
  unfold Binary64.fl64
  by_cases hq : q = 0
  · rw [if_pos hq]
    exact ⟨0, rfl⟩
  · rw [if_neg hq]
    simp only []
    have herr := fl64_raw_error q hq
    have hlt : |(Binary64.roundEven (q * (2 : ℚ) ^ (52 - Binary64.binade q)) : ℚ)
        * (2 : ℚ) ^ (Binary64.binade q - 52)| < 2 ^ 1024 := by
      have t := abs_sub_abs_le_abs_sub
        ((Binary64.roundEven (q * (2 : ℚ) ^ (52 - Binary64.binade q)) : ℚ)
          * (2 : ℚ) ^ (Binary64.binade q - 52)) q
      have hP : (1 : ℚ) ≤ 2 ^ 1023 := one_le_pow₀ (by norm_num)
      have hS : (2 : ℚ) ^ 1024 = 2 * 2 ^ 1023 := by rw [pow_succ]; ring
      have hu : (1 : ℚ) / 2 ^ 53 ≤ 1 / 4 := by norm_num
      have hc : (1 : ℚ) / 2 ^ 1075 ≤ 1 / 4 := by norm_num
      have h0 : 0 ≤ |q| := abs_nonneg q
      rw [hS]
      nlinarith
    rw [if_pos hlt]
    exact ⟨_, rfl⟩

theorem fl64_finite {q r : ℚ} (h : Binary64.fl64 q = some r) : |r| < 2 ^ 1024 := by
  unfold Binary64.fl64 at h
  by_cases hq : q = 0
  · rw [if_pos hq] at h
    simp only [Option.some.injEq] at h
    rw [← h, abs_zero]
    positivity
  · rw [if_neg hq] at h
    simp only [] at h
    split at h
    · rename_i hlt
      simp only [Option.some.injEq] at h
      rw [← h]
      exact hlt
    · cases h

/-- From a relative error bound to an absolute one, when the result is bounded. -/
theorem abs_err_of_bound {r y B c : ℚ} (h : |r - y| ≤ 1 / 2 ^ 53 * |y| + c) (hB : |r| ≤ B) :
    |r - y| ≤ 1 / 2 ^ 53 * (2 * B + 2 * c) + c := by
  have h1 : |y| ≤ |r| + |r - y| := by
    have := abs_sub_abs_le_abs_sub y r
    rw [abs_sub_comm y r] at this
    linarith
  have h0 : 0 ≤ |y| := abs_nonneg y
  have h2 : |y| ≤ 2 * B + 2 * c := by
    have : (1 : ℚ) / 2 ^ 53 ≤ 1 / 2 := by norm_num
    nlinarith
  have : (0 : ℚ) ≤ 1 / 2 ^ 53 := by positivity
  nlinarith

theorem abs_le_of_err {r y e : ℚ} (h : |r - y| ≤ e) : |y| ≤ |r| + e := by
  have := abs_sub_abs_le_abs_sub y r
  rw [abs_sub_comm y r] at this
  linarith

/-- Error of the forward chain of `setRollTempo` when the sum lies in `[0, 32768]`. -/
theorem forward_error {tempo dpi a1 a2 a3 a4 s : ℚ}
    (h1 : Binary64.fl64 (tempo / 10) = some a1) (h2 : Binary64.fl64 (a1 * dpi) = some a2)
    (h3 : Binary64.fl64 (a2 * 12) = some a3) (h4 : Binary64.fl64 (a3 / 60) = some a4)
    (h5 : Binary64.fl64 (a4 + 1 / 2) = some s)
    (hd : |dpi| < 2 ^ 1024) (hs : |s| ≤ 32768) :
    |s - 1 / 2 - tempo / 10 * dpi * 12 / 60| ≤ 1 / 2 ^ 34 := by
  have hη : (0 : ℚ) ≤ 1 / 2 ^ 1075 := by positivity
  -- step 5
  have e5 : |s - (a4 + 1 / 2)| ≤ 73 / 10 ^ 13 :=
    le_trans (abs_err_of_bound (fl64_error h5) hs) (by norm_num)
  have b4 : |a4| ≤ 32769 := by
    have := abs_le_of_err e5
    have t := abs_sub_abs_le_abs_sub (a4 + 1 / 2) (1 / 2 : ℚ)
    have t2 : |(1 / 2 : ℚ)| = 1 / 2 := by norm_num
    have t3 : a4 + 1 / 2 - 1 / 2 = a4 := by ring
    have t4 := abs_add (a4 + 1 / 2) (-(1 / 2 : ℚ))
    rw [show a4 + 1 / 2 + -(1 / 2 : ℚ) = a4 by ring, abs_neg, t2] at t4
    linarith
  -- step 4
  have e4 : |a4 - a3 / 60| ≤ 73 / 10 ^ 13 :=
    le_trans (abs_err_of_bound (fl64_error h4) b4) (by norm_num)
  have b3 : |a3| ≤ 60 * 32770 := by
    have := abs_le_of_err e4
    rw [abs_div] at this
    have t : |(60 : ℚ)| = 60 := by norm_num
    rw [t] at this
    have : |a3| / 60 ≤ 32770 := by linarith
    have h60 : (0 : ℚ) < 60 := by norm_num
    rw [div_le_iff₀ h60] at this
    linarith
  -- step 3
  have e3 : |a3 - a2 * 12| ≤ 60 * (73 / 10 ^ 13) :=
    le_trans (abs_err_of_bound (fl64_error h3) b3) (by norm_num)
  have b2 : |a2| ≤ 5 * 32771 := by
    have := abs_le_of_err e3
    rw [abs_mul] at this
    have t : |(12 : ℚ)| = 12 := by norm_num
    rw [t] at this
    linarith
  -- step 2
  have e2 : |a2 - a1 * dpi| ≤ 5 * (73 / 10 ^ 13) :=
    le_trans (abs_err_of_bound (fl64_error h2) b2) (by norm_num)
  have b1 : |a1 * dpi| ≤ 5 * 32772 := by
    have := abs_le_of_err e2
    linarith
  -- step 1
  have r1 := fl64_error h1
  have hdpi0 : 0 ≤ |dpi| := abs_nonneg dpi
  have hd2 : |dpi| ≤ 2 ^ 1024 := le_of_lt hd
  have r1' : |a1 * dpi - tempo / 10 * dpi| ≤ 1 / 2 ^ 53 * |tempo / 10 * dpi| + 1 / 2 ^ 51 := by
    have e : a1 * dpi - tempo / 10 * dpi = (a1 - tempo / 10) * dpi := by ring
    rw [e, abs_mul, abs_mul]
    have m1 : |a1 - tempo / 10| * |dpi|
        ≤ (1 / 2 ^ 53 * |tempo / 10| + 1 / 2 ^ 1075) * |dpi| :=
      mul_le_mul_of_nonneg_right r1 hdpi0
    have m2 : (1 : ℚ) / 2 ^ 1075 * |dpi| ≤ 1 / 2 ^ 51 := by
      have : (1 : ℚ) / 2 ^ 1075 * |dpi| ≤ 1 / 2 ^ 1075 * 2 ^ 1024 :=
        mul_le_mul_of_nonneg_left hd2 hη
      have c : (1 : ℚ) / 2 ^ 1075 * 2 ^ 1024 = 1 / 2 ^ 51 := by
        have p : (2 : ℚ) ^ 1075 = 2 ^ 1024 * 2 ^ 51 := by rw [← pow_add]
        rw [p]
        field_simp
      linarith
    linarith
  have e1 : |a1 * dpi - tempo / 10 * dpi| ≤ 5 * (73 / 10 ^ 13) :=
    le_trans (abs_err_of_bound r1' b1) (by norm_num)
  -- sum up
  have key : s - 1 / 2 - tempo / 10 * dpi * 12 / 60
      = (s - (a4 + 1 / 2)) + (a4 - a3 / 60) + (a3 - a2 * 12) / 60 + (a2 - a1 * dpi) / 5
        + (a1 * dpi - tempo / 10 * dpi) / 5 := by ring
  rw [key]
  have q3 : |(a3 - a2 * 12) / 60| ≤ 73 / 10 ^ 13 := by
    rw [abs_div, show |(60 : ℚ)| = 60 by norm_num, div_le_iff₀ (by norm_num)]
    linarith
  have q2 : |(a2 - a1 * dpi) / 5| ≤ 73 / 10 ^ 13 := by
    rw [abs_div, show |(5 : ℚ)| = 5 by norm_num, div_le_iff₀ (by norm_num)]
    linarith
  have q1 : |(a1 * dpi - tempo / 10 * dpi) / 5| ≤ 73 / 10 ^ 13 := by
    rw [abs_div, show |(5 : ℚ)| = 5 by norm_num, div_le_iff₀ (by norm_num)]
    linarith
  have t1 := abs_add ((s - (a4 + 1 / 2)) + (a4 - a3 / 60) + (a3 - a2 * 12) / 60
    + (a2 - a1 * dpi) / 5) ((a1 * dpi - tempo / 10 * dpi) / 5)
  have t2 := abs_add ((s - (a4 + 1 / 2)) + (a4 - a3 / 60) + (a3 - a2 * 12) / 60)
    ((a2 - a1 * dpi) / 5)
  have t3 := abs_add ((s - (a4 + 1 / 2)) + (a4 - a3 / 60)) ((a3 - a2 * 12) / 60)
  have t4 := abs_add (s - (a4 + 1 / 2)) (a4 - a3 / 60)
  have fin : (5 : ℚ) * (73 / 10 ^ 13) ≤ 1 / 2 ^ 34 := by norm_num
  linarith

/-! ## Tempo mapper in binary64: lemmas -/

theorem fdiv_of_ne (a : ℚ) {b : ℚ} (hb : b ≠ 0) : Binary64.fdiv a b = Binary64.fl64 (a / b) := by
  unfold Binary64.fdiv
  rw [if_neg hb]

theorem ten_ne_zero_rat : (10 : ℚ) ≠ 0 := by norm_num

theorem sixty_ne_zero_rat : (60 : ℚ) ≠ 0 := by norm_num

theorem twelve_ne_zero_rat : (12 : ℚ) ≠ 0 := by norm_num

/-- The value of `Binary64.rollTpq` from the results of its steps. -/
theorem rollTpq_of_steps {tempo dpi a1 a2 a3 a4 s : ℚ} {t : Int}
    (h1 : Binary64.fl64 (tempo / 10) = some a1) (h2 : Binary64.fl64 (a1 * dpi) = some a2)
    (h3 : Binary64.fl64 (a2 * 12) = some a3) (h4 : Binary64.fl64 (a3 / 60) = some a4)
    (h5 : Binary64.fl64 (a4 + 1 / 2) = some s) (h6 : Binary64.toInt32 s = some t) :
    Binary64.rollTpq tempo dpi = some t := by
  simp only [Binary64.rollTpq, fdiv_of_ne _ ten_ne_zero_rat, fdiv_of_ne _ sixty_ne_zero_rat,
    Binary64.fmul, Binary64.fadd, h1, h2, h3, h4, h5, h6, Option.some_bind]

/-- The steps behind a value of `Binary64.rollTpq`. -/
theorem rollTpq_steps {tempo dpi : ℚ} {t : Int} (h : Binary64.rollTpq tempo dpi = some t) :
    ∃ a1 a2 a3 a4 s : ℚ, Binary64.fl64 (tempo / 10) = some a1 ∧
      Binary64.fl64 (a1 * dpi) = some a2 ∧ Binary64.fl64 (a2 * 12) = some a3 ∧
      Binary64.fl64 (a3 / 60) = some a4 ∧ Binary64.fl64 (a4 + 1 / 2) = some s ∧
      Binary64.toInt32 s = some t := by
  simp only [Binary64.rollTpq, fdiv_of_ne _ ten_ne_zero_rat, fdiv_of_ne _ sixty_ne_zero_rat,
    Binary64.fmul, Binary64.fadd, Option.bind_eq_some] at h
  obtain ⟨a1, h1, a2, h2, a3, h3, a4, h4, s, h5, h6⟩ := h
  exact ⟨a1, a2, a3, a4, s, h1, h2, h3, h4, h5, h6⟩

/-- The value of `Binary64.getRollTempo` from the results of its steps. -/
theorem getRollTempo_of_steps {mr : Roll} {dpi b0 b1 b2 b3 g : ℚ} {t : Int}
    (ht : getTicksPerQuarterNote mr = t) (hd : dpi ≠ 0)
    (h0 : Binary64.fl64 (t : ℚ) = some b0) (h1 : Binary64.fl64 (b0 * 10) = some b1)
    (h2 : Binary64.fl64 (b1 / dpi) = some b2) (h3 : Binary64.fl64 (b2 / 12) = some b3)
    (h4 : Binary64.fl64 (b3 * 60) = some g) :
    Binary64.getRollTempo mr dpi = some g := by
  simp only [Binary64.getRollTempo, fdiv_of_ne _ hd, fdiv_of_ne _ twelve_ne_zero_rat,
    Binary64.fmul, ht, h0, h1, h2, h3, h4, Option.some_bind]

/-- The steps behind a value of `Binary64.getRollTempo`. -/
theorem getRollTempo_steps {mr : Roll} {dpi g : ℚ} (hd : dpi ≠ 0)
    (h : Binary64.getRollTempo mr dpi = some g) :
    ∃ b0 b1 b2 b3 : ℚ, Binary64.fl64 (getTicksPerQuarterNote mr : ℚ) = some b0 ∧
      Binary64.fl64 (b0 * 10) = some b1 ∧ Binary64.fl64 (b1 / dpi) = some b2 ∧
      Binary64.fl64 (b2 / 12) = some b3 ∧ Binary64.fl64 (b3 * 60) = some g := by
  simp only [Binary64.getRollTempo, fdiv_of_ne _ hd, fdiv_of_ne _ twelve_ne_zero_rat,
    Binary64.fmul, Option.bind_eq_some] at h
  obtain ⟨b0, h0, b1, h1, b2, h2, b3, h3, h4⟩ := h
  exact ⟨b0, b1, b2, b3, h0, h1, h2, h3, h4⟩

/-- A stored value of `Binary64.setRollTempo`. -/
theorem setRollTempo_of_rollTpq (mr : Roll) {tempo dpi : ℚ} {t : Int}
    (ht : Binary64.rollTpq tempo dpi = some t) (hlo : 1 ≤ t) (hhi : t ≤ 32767) :
    Binary64.setRollTempo mr tempo dpi = some (setTicksPerQuarterNote mr t) := by
  unfold Binary64.setRollTempo
  rw [ht]
  simp only [Option.map_some']
  rw [if_neg (by omega), if_neg (by omega)]

theorem toInt32_eq {s : ℚ} {t : Int} (h : Binary64.toInt32 s = some t) : toInt s = t := by
  unfold Binary64.toInt32 at h
  split at h
  · simpa using h
  · cases h

/-- Truncation moves a value by less than one, toward zero. -/
theorem toInt_bounds (s : ℚ) :
    (0 ≤ s → (toInt s : ℚ) ≤ s ∧ s < toInt s + 1) ∧
    (s < 0 → (toInt s : ℚ) - 1 < s ∧ s ≤ toInt s) := by
  unfold toInt
  constructor
  · intro h
    rw [if_pos h]
    exact ⟨Int.floor_le s, Int.lt_floor_add_one s⟩
  · intro h
    rw [if_neg (not_le.mpr h)]
    have := Int.ceil_lt_add_one s
    exact ⟨by linarith, Int.le_ceil s⟩

theorem rollTpq_binary64_575 : Binary64.rollTpq (23 / 4) 100 = some 11 := by
  have h1 : Binary64.fl64 (((23 / 4) : ℚ) / 10) = some (2589569785738035 / 4503599627370496) := by
    apply fl64_eq_pos (-1) 5179139571476070 <;> norm_num
  have h2 : Binary64.fl64 (((2589569785738035 / 4503599627370496) : ℚ) * 100)
      = some (8092405580431359 / 140737488355328) := by
    apply fl64_eq_pos 5 8092405580431359 <;> norm_num
  have h3 : Binary64.fl64 (((8092405580431359 / 140737488355328) : ℚ) * 12)
      = some (6069304185323519 / 8796093022208) := by
    apply fl64_eq_pos 9 6069304185323519 <;> norm_num
  have h4 : Binary64.fl64 (((6069304185323519 / 8796093022208) : ℚ) / 60)
      = some (6473924464345087 / 562949953421312) := by
    apply fl64_eq_pos 3 6473924464345087 <;> norm_num
  have h5 : Binary64.fl64 (((6473924464345087 / 562949953421312) : ℚ) + 1 / 2)
      = some (6755399441055743 / 562949953421312) := by
    apply fl64_eq_pos 3 6755399441055743 <;> norm_num
  have h6 : Binary64.toInt32 (6755399441055743 / 562949953421312) = some 11 := by
    unfold Binary64.toInt32 toInt
    norm_num
  exact rollTpq_of_steps h1 h2 h3 h4 h5 h6

theorem isDouble_abs_lt {q : ℚ} (h : Binary64.IsDouble q) : |q| < 2 ^ 1024 :=
  fl64_finite h

/-- One binary64 operation on an exact result bounded by `B`: the result is
finite and off by at most `B / 2^53 + 2^(-1075)`. -/
theorem fl64_step {q B : ℚ} (hB : |q| ≤ B) (hB2 : B ≤ 2 ^ 1023) :
    ∃ r, Binary64.fl64 q = some r ∧ |r - q| ≤ 1 / 2 ^ 53 * B + 1 / 2 ^ 1075 := by
  obtain ⟨r, hr⟩ := fl64_isSome (le_trans hB hB2)
  refine ⟨r, hr, le_trans (fl64_error hr) ?_⟩
  have : (0 : ℚ) ≤ 1 / 2 ^ 53 := by positivity
  nlinarith

/-- The error of a known binary64 result whose exact value is bounded by `B`. -/
theorem fl64_error_le {q r B : ℚ} (h : Binary64.fl64 q = some r) (hB : |q| ≤ B) :
    |r - q| ≤ 1 / 2 ^ 53 * B + 1 / 2 ^ 1075 := by
  refine le_trans (fl64_error h) ?_
  have : (0 : ℚ) ≤ 1 / 2 ^ 53 := by positivity
  nlinarith

theorem abs_le_add_of_err {r q e B : ℚ} (h : |r - q| ≤ e) (hB : |q| ≤ B) : |r| ≤ B + e := by
  have := abs_add (r - q) q
  rw [sub_add_cancel] at this
  linarith

theorem subnormal_mul_le {d : ℚ} (hd : |d| ≤ 2 ^ 1024) :
    (1 : ℚ) / 2 ^ 1075 * |d| ≤ 1 / 2 ^ 51 := by
  have hη : (0 : ℚ) ≤ 1 / 2 ^ 1075 := by positivity
  have h1 : (1 : ℚ) / 2 ^ 1075 * |d| ≤ 1 / 2 ^ 1075 * 2 ^ 1024 :=
    mul_le_mul_of_nonneg_left hd hη
  have c : (1 : ℚ) / 2 ^ 1075 * 2 ^ 1024 = 1 / 2 ^ 51 := by
    have p : (2 : ℚ) ^ 1075 = 2 ^ 1024 * 2 ^ 51 := by rw [← pow_add]
    rw [p]
    field_simp
  linarith

/-- The forward chain of `setRollTempo` on finite arguments whose exact
product is at most `32768` in magnitude: every step is finite, and the sum
before the conversion is within `2^(-34)` of the exact one. -/
theorem rollTpq_exists {tempo dpi : ℚ} (hT : Binary64.IsDouble tempo)
    (hD : Binary64.IsDouble dpi) (hx : |tempo / 10 * dpi * 12 / 60| ≤ 32768) :
    ∃ a1 a2 a3 a4 s : ℚ, Binary64.fl64 (tempo / 10) = some a1 ∧
      Binary64.fl64 (a1 * dpi) = some a2 ∧ Binary64.fl64 (a2 * 12) = some a3 ∧
      Binary64.fl64 (a3 / 60) = some a4 ∧ Binary64.fl64 (a4 + 1 / 2) = some s ∧
      |s - 1 / 2 - tempo / 10 * dpi * 12 / 60| ≤ 1 / 2 ^ 34 := by
  have hTb := isDouble_abs_lt hT
  have hDb := le_of_lt (isDouble_abs_lt hD)
  have hS : (2 : ℚ) ^ 1024 = 2 * 2 ^ 1023 := by rw [pow_succ]; ring
  have hP : (2 : ℚ) ^ 20 ≤ 2 ^ 1023 := pow_le_pow_right₀ (by norm_num) (by norm_num)
  have hP2 : (2 : ℚ) ^ 20 = 1048576 := by norm_num
  -- step 1
  have q1 : |tempo / 10| ≤ 2 ^ 1023 := by
    rw [abs_div, show |(10 : ℚ)| = 10 by norm_num, div_le_iff₀ (by norm_num)]
    have : (0 : ℚ) < 2 ^ 1023 := by positivity
    linarith
  obtain ⟨a1, h1, _⟩ := fl64_step (le_refl _) q1
  have r1 := fl64_error h1
  -- step 2
  have x5 : |tempo / 10 * dpi| ≤ 163840 := by
    have e : tempo / 10 * dpi = 5 * (tempo / 10 * dpi * 12 / 60) := by ring
    rw [e, abs_mul, show |(5 : ℚ)| = 5 by norm_num]
    linarith
  have d1 : |a1 * dpi - tempo / 10 * dpi| ≤ 5 * (73 / 10 ^ 13) := by
    have e : a1 * dpi - tempo / 10 * dpi = (a1 - tempo / 10) * dpi := by ring
    rw [e, abs_mul]
    have m1 : |a1 - tempo / 10| * |dpi|
        ≤ (1 / 2 ^ 53 * |tempo / 10| + 1 / 2 ^ 1075) * |dpi| :=
      mul_le_mul_of_nonneg_right r1 (abs_nonneg dpi)
    have m2 := subnormal_mul_le hDb
    have m3 : |tempo / 10| * |dpi| ≤ 163840 := by rw [← abs_mul]; exact x5
    have m4 : (1 : ℚ) / 2 ^ 53 * 163840 + 1 / 2 ^ 51 ≤ 5 * (73 / 10 ^ 13) := by norm_num
    have m5 : (0 : ℚ) ≤ 1 / 2 ^ 53 := by positivity
    nlinarith
  have b2 : |a1 * dpi| ≤ 163841 := by
    have := abs_le_add_of_err d1 x5
    have : (5 : ℚ) * (73 / 10 ^ 13) ≤ 1 := by norm_num
    linarith
  obtain ⟨a2, h2, e2⟩ := fl64_step b2 (by linarith)
  have d2 : |a2 - a1 * dpi| ≤ 5 * (73 / 10 ^ 13) := le_trans e2 (by norm_num)
  -- step 3
  have b3 : |a2 * 12| ≤ 12 * 163842 := by
    have := abs_le_add_of_err d2 b2
    rw [abs_mul, show |(12 : ℚ)| = 12 by norm_num]
    have : (5 : ℚ) * (73 / 10 ^ 13) ≤ 1 := by norm_num
    linarith
  obtain ⟨a3, h3, e3⟩ := fl64_step b3 (by linarith)
  have d3 : |a3 - a2 * 12| ≤ 60 * (73 / 10 ^ 13) := le_trans e3 (by norm_num)
  -- step 4
  have b4 : |a3 / 60| ≤ 32769 := by
    have := abs_le_add_of_err d3 b3
    rw [abs_div, show |(60 : ℚ)| = 60 by norm_num, div_le_iff₀ (by norm_num)]
    have : (60 : ℚ) * (73 / 10 ^ 13) ≤ 1 := by norm_num
    linarith
  obtain ⟨a4, h4, e4⟩ := fl64_step b4 (by linarith)
  have d4 : |a4 - a3 / 60| ≤ 73 / 10 ^ 13 := le_trans e4 (by norm_num)
  -- step 5
  have b5 : |a4 + 1 / 2| ≤ 32771 := by
    have := abs_le_add_of_err d4 b4
    have t := abs_add a4 (1 / 2 : ℚ)
    rw [show |(1 / 2 : ℚ)| = 1 / 2 by norm_num] at t
    have : (73 : ℚ) / 10 ^ 13 ≤ 1 := by norm_num
    linarith
  obtain ⟨s, h5, e5⟩ := fl64_step b5 (by linarith)
  have d5 : |s - (a4 + 1 / 2)| ≤ 73 / 10 ^ 13 := le_trans e5 (by norm_num)
  refine ⟨a1, a2, a3, a4, s, h1, h2, h3, h4, h5, ?_⟩
  have key : s - 1 / 2 - tempo / 10 * dpi * 12 / 60
      = (s - (a4 + 1 / 2)) + (a4 - a3 / 60) + (a3 - a2 * 12) / 60 + (a2 - a1 * dpi) / 5
        + (a1 * dpi - tempo / 10 * dpi) / 5 := by ring
  rw [key]
  have q3 : |(a3 - a2 * 12) / 60| ≤ 73 / 10 ^ 13 := by
    rw [abs_div, show |(60 : ℚ)| = 60 by norm_num, div_le_iff₀ (by norm_num)]
    linarith
  have q2 : |(a2 - a1 * dpi) / 5| ≤ 73 / 10 ^ 13 := by
    rw [abs_div, show |(5 : ℚ)| = 5 by norm_num, div_le_iff₀ (by norm_num)]
    linarith
  have q1 : |(a1 * dpi - tempo / 10 * dpi) / 5| ≤ 73 / 10 ^ 13 := by
    rw [abs_div, show |(5 : ℚ)| = 5 by norm_num, div_le_iff₀ (by norm_num)]
    linarith
  have t1 := abs_add ((s - (a4 + 1 / 2)) + (a4 - a3 / 60) + (a3 - a2 * 12) / 60
    + (a2 - a1 * dpi) / 5) ((a1 * dpi - tempo / 10 * dpi) / 5)
  have t2 := abs_add ((s - (a4 + 1 / 2)) + (a4 - a3 / 60) + (a3 - a2 * 12) / 60)
    ((a2 - a1 * dpi) / 5)
  have t3 := abs_add ((s - (a4 + 1 / 2)) + (a4 - a3 / 60)) ((a3 - a2 * 12) / 60)
  have t4 := abs_add (s - (a4 + 1 / 2)) (a4 - a3 / 60)
  have fin : (5 : ℚ) * (73 / 10 ^ 13) ≤ 1 / 2 ^ 34 := by norm_num
  linarith

/-- The sum before the conversion, for a computed `tpq` of magnitude at most
`32767`: it truncates to `tpq` and is within `2^(-34)` of the exact sum. -/
theorem rollTpq_error {tempo dpi : ℚ} {t : Int} (hD : Binary64.IsDouble dpi)
    (ht : Binary64.rollTpq tempo dpi = some t) (hlo : -32767 ≤ t) (hhi : t ≤ 32767) :
    ∃ s : ℚ, toInt s = t ∧ |s - 1 / 2 - tempo / 10 * dpi * 12 / 60| ≤ 1 / 2 ^ 34 := by
  obtain ⟨a1, a2, a3, a4, s, h1, h2, h3, h4, h5, h6⟩ := rollTpq_steps ht
  have hs := toInt32_eq h6
  refine ⟨s, hs, forward_error h1 h2 h3 h4 h5 (isDouble_abs_lt hD) ?_⟩
  have hb := toInt_bounds s
  rw [hs] at hb
  have c1 : (t : ℚ) ≤ 32767 := by exact_mod_cast hhi
  have c2 : (-32767 : ℚ) ≤ t := by exact_mod_cast hlo
  rw [abs_le]
  rcases le_or_lt 0 s with h | h
  · obtain ⟨_, u2⟩ := hb.1 h
    constructor <;> linarith
  · obtain ⟨u1, _⟩ := hb.2 h
    constructor <;> linarith

/-! ## Tempo mapper in binary64: evaluations -/

theorem isDouble_100 : Binary64.IsDouble 100 := by
  unfold Binary64.IsDouble
  apply fl64_eq_pos 6 7036874417766400 <;> norm_num

theorem isDouble_300 : Binary64.IsDouble 300 := by
  unfold Binary64.IsDouble
  apply fl64_eq_pos 8 5277655813324800 <;> norm_num

theorem isDouble_23_4 : Binary64.IsDouble (23 / 4) := by
  unfold Binary64.IsDouble
  apply fl64_eq_pos 2 6473924464345088 <;> norm_num

theorem isDouble_61_4 : Binary64.IsDouble (61 / 4) := by
  unfold Binary64.IsDouble
  apply fl64_eq_pos 3 8584986789675008 <;> norm_num

theorem isDouble_neg_3 : Binary64.IsDouble (-3) := by
  unfold Binary64.IsDouble
  apply fl64_eq_neg 1 (-6755399441055744) <;> norm_num

theorem rollTpq_binary64_neg : Binary64.rollTpq (-3) 300 = some (-17) := by
  have h1 : Binary64.fl64 (((-3) : ℚ) / 10) = some (-5404319552844595 / 18014398509481984) := by
    apply fl64_eq_neg (-2) (-5404319552844595) <;> norm_num
  have h2 : Binary64.fl64 (((-5404319552844595 / 18014398509481984) : ℚ) * 300) = some (-90) := by
    apply fl64_eq_neg 6 (-6333186975989760) <;> norm_num
  have h3 : Binary64.fl64 (((-90) : ℚ) * 12) = some (-1080) := by
    apply fl64_eq_neg 10 (-4749890231992320) <;> norm_num
  have h4 : Binary64.fl64 (((-1080) : ℚ) / 60) = some (-18) := by
    apply fl64_eq_neg 4 (-5066549580791808) <;> norm_num
  have h5 : Binary64.fl64 (((-18) : ℚ) + 1 / 2) = some (-35 / 2) := by
    apply fl64_eq_neg 4 (-4925812092436480) <;> norm_num
  have h6 : Binary64.toInt32 (-35 / 2) = some (-17) := by
    have hc : toInt ((-35 / 2) : ℚ) = (-17) := by
      unfold toInt
      rw [if_neg (by norm_num), Int.ceil_eq_iff]
      norm_num
    unfold Binary64.toInt32
    rw [hc]
    rfl
  exact rollTpq_of_steps h1 h2 h3 h4 h5 h6

theorem rollTpq_binary64_1525 : Binary64.rollTpq (61 / 4) 100 = some 31 := by
  have h1 : Binary64.fl64 (((61 / 4) : ℚ) / 10) = some (3433994715870003 / 2251799813685248) := by
    apply fl64_eq_pos 0 6867989431740006 <;> norm_num
  have h2 : Binary64.fl64 (((3433994715870003 / 2251799813685248) : ℚ) * 100) = some (305 / 2) := by
    apply fl64_eq_pos 7 5365616743546880 <;> norm_num
  have h3 : Binary64.fl64 (((305 / 2) : ℚ) * 12) = some 1830 := by
    apply fl64_eq_pos 10 8048425115320320 <;> norm_num
  have h4 : Binary64.fl64 ((1830 : ℚ) / 60) = some (61 / 2) := by
    apply fl64_eq_pos 4 8584986789675008 <;> norm_num
  have h5 : Binary64.fl64 (((61 / 2) : ℚ) + 1 / 2) = some 31 := by
    apply fl64_eq_pos 4 8725724278030336 <;> norm_num
  have h6 : Binary64.toInt32 31 = some 31 := by
    have hc : toInt (31 : ℚ) = 31 := by
      unfold toInt
      rw [if_pos (by norm_num), Int.floor_eq_iff]
      norm_num
    unfold Binary64.toInt32
    rw [hc]
    rfl
  exact rollTpq_of_steps h1 h2 h3 h4 h5 h6

theorem rollTpq_binary64_100 : Binary64.rollTpq 100 300 = some 600 := by
  have h1 : Binary64.fl64 ((100 : ℚ) / 10) = some 10 := by
    apply fl64_eq_pos 3 5629499534213120 <;> norm_num
  have h2 : Binary64.fl64 ((10 : ℚ) * 300) = some 3000 := by
    apply fl64_eq_pos 11 6597069766656000 <;> norm_num
  have h3 : Binary64.fl64 ((3000 : ℚ) * 12) = some 36000 := by
    apply fl64_eq_pos 15 4947802324992000 <;> norm_num
  have h4 : Binary64.fl64 ((36000 : ℚ) / 60) = some 600 := by
    apply fl64_eq_pos 9 5277655813324800 <;> norm_num
  have h5 : Binary64.fl64 ((600 : ℚ) + 1 / 2) = some (1201 / 2) := by
    apply fl64_eq_pos 9 5282053859835904 <;> norm_num
  have h6 : Binary64.toInt32 (1201 / 2) = some 600 := by
    have hc : toInt ((1201 / 2) : ℚ) = 600 := by
      unfold toInt
      rw [if_pos (by norm_num), Int.floor_eq_iff]
      norm_num
    unfold Binary64.toInt32
    rw [hc]
    rfl
  exact rollTpq_of_steps h1 h2 h3 h4 h5 h6

theorem getRollTempo_binary64_31 (mr : Roll) :
    Binary64.getRollTempo (setTicksPerQuarterNote mr 31) 100
      = some (8725724278030337 / 562949953421312) := by
  have h0 : Binary64.fl64 (((31 : Int) : ℚ)) = some 31 := by
    apply fl64_eq_pos 4 8725724278030336 <;> norm_num
  have h1 : Binary64.fl64 ((31 : ℚ) * 10) = some 310 := by
    apply fl64_eq_pos 8 5453577673768960 <;> norm_num
  have h2 : Binary64.fl64 ((310 : ℚ) / 100) = some (6980579422424269 / 2251799813685248) := by
    apply fl64_eq_pos 1 6980579422424269 <;> norm_num
  have h3 : Binary64.fl64 (((6980579422424269 / 2251799813685248) : ℚ) / 12)
      = some (4653719614949513 / 18014398509481984) := by
    apply fl64_eq_pos (-2) 4653719614949513 <;> norm_num
  have h4 : Binary64.fl64 (((4653719614949513 / 18014398509481984) : ℚ) * 60)
      = some (8725724278030337 / 562949953421312) := by
    apply fl64_eq_pos 3 8725724278030337 <;> norm_num
  exact getRollTempo_of_steps rfl (by norm_num) h0 h1 h2 h3 h4

theorem getRollTempo_binary64_600 (mr : Roll) :
    Binary64.getRollTempo (setTicksPerQuarterNote mr 600) 300 = some 100 := by
  have h0 : Binary64.fl64 (((600 : Int) : ℚ)) = some 600 := by
    apply fl64_eq_pos 9 5277655813324800 <;> norm_num
  have h1 : Binary64.fl64 ((600 : ℚ) * 10) = some 6000 := by
    apply fl64_eq_pos 12 6597069766656000 <;> norm_num
  have h2 : Binary64.fl64 ((6000 : ℚ) / 300) = some 20 := by
    apply fl64_eq_pos 4 5629499534213120 <;> norm_num
  have h3 : Binary64.fl64 ((20 : ℚ) / 12) = some (7505999378950827 / 4503599627370496) := by
    apply fl64_eq_pos 0 7505999378950827 <;> norm_num
  have h4 : Binary64.fl64 (((7505999378950827 / 4503599627370496) : ℚ) * 60) = some 100 := by
    apply fl64_eq_pos 6 7036874417766400 <;> norm_num
  exact getRollTempo_of_steps rfl (by norm_num) h0 h1 h2 h3 h4

/-! ## Tempo mapper in binary64: rounding of the forward step -/

/-- An integer is farther than `2^(-34)` from every half-integer. -/
theorem int_far_from_half (n k : Int) : (1 : ℚ) / 2 ^ 34 < |(n : ℚ) - (k + 1 / 2)| := by
  have hsmall : (1 : ℚ) / 2 ^ 34 < 1 / 2 := by norm_num
  rcases le_or_lt n k with h | h
  · have h1 : (n : ℚ) ≤ k := by exact_mod_cast h
    rw [abs_of_neg (by linarith)]
    linarith
  · have h1 : (k : ℚ) + 1 ≤ n := by exact_mod_cast h
    rw [abs_of_pos (by linarith)]
    linarith

/-- Truncation after adding one half, when the sum is known to within
`2^(-34)` and the exact value is farther than that from every half-integer:
above `-1/2` the result is the rounding half away from zero. -/
theorem round_eq_of_near {x s : ℚ} {t : Int} (hs : toInt s = t)
    (herr : |s - 1 / 2 - x| ≤ 1 / 2 ^ 34) (hx : -1 / 2 < x)
    (hfar : ∀ k : Int, (1 : ℚ) / 2 ^ 34 < |x - (k + 1 / 2)|) :
    t = roundHalfAwayFromZero x := by
  rw [abs_le] at herr
  obtain ⟨e1, e2⟩ := herr
  have hpos : (1 : ℚ) / 2 ^ 34 < x + 1 / 2 := by
    have := hfar (-1)
    rw [abs_of_pos (by push_cast; linarith)] at this
    push_cast at this
    linarith
  have hs0 : 0 ≤ s := by linarith
  have hb := (toInt_bounds s).1 hs0
  rw [hs] at hb
  obtain ⟨b1, b2⟩ := hb
  have c1 : (t : ℚ) ≤ x + 1 / 2 := by
    by_contra hc
    push_neg at hc
    have := hfar (t - 1)
    rw [abs_of_neg (by push_cast; linarith)] at this
    push_cast at this
    linarith
  have c2 : x + 1 / 2 < (t : ℚ) + 1 := by
    by_contra hc
    push_neg at hc
    have := hfar t
    rw [abs_of_nonneg (by linarith)] at this
    linarith
  have hfl : ⌊x + 1 / 2⌋ = t := Int.floor_eq_iff.mpr ⟨c1, c2⟩
  unfold roundHalfAwayFromZero
  by_cases h0 : 0 ≤ x
  · rw [if_pos h0, hfl]
  · rw [if_neg h0]
    push_neg at h0
    have ht0 : t = 0 := by
      have u1 : (t : ℚ) < 1 := by linarith
      have u2 : (-1 : ℚ) < t := by linarith
      have v1 : t < 1 := by exact_mod_cast u1
      have v2 : -1 < t := by exact_mod_cast u2
      omega
    rw [ht0]
    symm
    rw [Int.ceil_eq_iff]
    push_cast
    constructor <;> linarith

/-- Truncation after adding one half below `-1/2`: the result is one more
than the rounding half away from zero, and not positive. -/
theorem round_add_one_eq_of_near {x s : ℚ} {t : Int} (hs : toInt s = t)
    (herr : |s - 1 / 2 - x| ≤ 1 / 2 ^ 34) (hx : x < -1 / 2)
    (hfar : ∀ k : Int, (1 : ℚ) / 2 ^ 34 < |x - (k + 1 / 2)|) :
    t = roundHalfAwayFromZero x + 1 ∧ t ≤ 0 := by
  rw [abs_le] at herr
  obtain ⟨e1, e2⟩ := herr
  have hneg : x + 1 / 2 < -(1 / 2 ^ 34) := by
    have := hfar (-1)
    rw [abs_of_neg (by push_cast; linarith)] at this
    push_cast at this
    linarith
  have hs0 : s < 0 := by linarith
  have hb := (toInt_bounds s).2 hs0
  rw [hs] at hb
  obtain ⟨b1, b2⟩ := hb
  have c1 : (t : ℚ) - 1 < x + 1 / 2 := by
    by_contra hc
    push_neg at hc
    have := hfar (t - 2)
    rw [abs_of_nonpos (by push_cast; linarith)] at this
    push_cast at this
    linarith
  have c2 : x + 1 / 2 ≤ (t : ℚ) := by
    by_contra hc
    push_neg at hc
    have := hfar (t - 1)
    rw [abs_of_pos (by push_cast; linarith)] at this
    push_cast at this
    linarith
  constructor
  · unfold roundHalfAwayFromZero
    rw [if_neg (by linarith)]
    have : ⌈x - 1 / 2⌉ = t - 1 := by
      rw [Int.ceil_eq_iff]
      push_cast
      constructor <;> linarith
    rw [this]
    ring
  · have u : (t : ℚ) < 1 := by linarith
    have v : t < 1 := by exact_mod_cast u
    omega

/-- C1 (as amended): for finite binary64 `tempo` and `dpi` whose exact product
`x = tempo/10 * dpi*12/60` is farther than `2^(-34)` from every half-integer
and whose rounding `t = round(x)` lies in `1..32767`, the value computed by
`setRollTempo` is exactly `t` and the header field is set to it. -/
theorem setRollTempo_sets_rounded (mr : Roll) (tempo dpi : ℚ)
    (hT : Binary64.IsDouble tempo) (hD : Binary64.IsDouble dpi)
    (hlo : 1 ≤ roundHalfAwayFromZero (tempo / 10 * dpi * 12 / 60))
    (hhi : roundHalfAwayFromZero (tempo / 10 * dpi * 12 / 60) ≤ 32767)
    (hfar : ∀ k : Int, (1 : ℚ) / 2 ^ 34 < |tempo / 10 * dpi * 12 / 60 - (k + 1 / 2)|) :
    Binary64.rollTpq tempo dpi = some (roundHalfAwayFromZero (tempo / 10 * dpi * 12 / 60)) ∧
    Binary64.setRollTempo mr tempo dpi
      = some (setTicksPerQuarterNote mr (roundHalfAwayFromZero (tempo / 10 * dpi * 12 / 60))) ∧
    (Binary64.setRollTempo mr tempo dpi).map getTicksPerQuarterNote
      = some (roundHalfAwayFromZero (tempo / 10 * dpi * 12 / 60)) := by
  set x : ℚ := tempo / 10 * dpi * 12 / 60 with hxdef
  have hx0 : 0 ≤ x := by
    by_contra hc
    push_neg at hc
    unfold roundHalfAwayFromZero at hlo
    rw [if_neg (not_le.mpr hc)] at hlo
    have h1 : ⌈x - 1 / 2⌉ ≤ 0 := by
      apply Int.ceil_le.mpr
      push_cast
      linarith
    omega
  have hR : roundHalfAwayFromZero x = ⌊x + 1 / 2⌋ := by
    unfold roundHalfAwayFromZero
    rw [if_pos hx0]
  have hf1 : ((roundHalfAwayFromZero x : Int) : ℚ) ≤ x + 1 / 2 := by
    rw [hR]; exact Int.floor_le _
  have hf2 : x + 1 / 2 < ((roundHalfAwayFromZero x : Int) : ℚ) + 1 := by
    rw [hR]; exact Int.lt_floor_add_one _
  have hhiq : ((roundHalfAwayFromZero x : Int) : ℚ) ≤ 32767 := by exact_mod_cast hhi
  have hloq : (1 : ℚ) ≤ ((roundHalfAwayFromZero x : Int) : ℚ) := by exact_mod_cast hlo
  have hxb : |x| ≤ 32768 := by
    rw [abs_of_nonneg hx0]
    linarith
  obtain ⟨a1, a2, a3, a4, s, h1, h2, h3, h4, h5, herr⟩ := rollTpq_exists hT hD hxb
  have hround : toInt s = roundHalfAwayFromZero x :=
    round_eq_of_near rfl herr (by linarith) hfar
  have h6 : Binary64.toInt32 s = some (roundHalfAwayFromZero x) := by
    unfold Binary64.toInt32
    rw [hround, if_pos (by constructor <;> omega)]
  have ht := rollTpq_of_steps h1 h2 h3 h4 h5 h6
  have hset := setRollTempo_of_rollTpq mr ht hlo hhi
  refine ⟨ht, hset, ?_⟩
  rw [hset]
  rfl

/-- Tempo 100 at 300 dpi: the exact product is the integer 600, and 600 is
what the binary64 evaluation stores in the header field. -/
theorem setRollTempo_sets_rounded_witness :
    Binary64.IsDouble 100 ∧ Binary64.IsDouble 300 ∧
    roundHalfAwayFromZero ((100 : ℚ) / 10 * 300 * 12 / 60) = 600 ∧
    (Binary64.setRollTempo (emptyRoll 480) 100 300).map getTicksPerQuarterNote
      = some (roundHalfAwayFromZero ((100 : ℚ) / 10 * 300 * 12 / 60)) :=
  ⟨isDouble_100, isDouble_300, by unfold roundHalfAwayFromZero; norm_num,
    (setRollTempo_sets_rounded (emptyRoll 480) 100 300 isDouble_100 isDouble_300
      (by unfold roundHalfAwayFromZero; norm_num) (by unfold roundHalfAwayFromZero; norm_num)
      (fun k => by
        have h := int_far_from_half 600 k
        have e : (100 : ℚ) / 10 * 300 * 12 / 60 = ((600 : Int) : ℚ) := by norm_num
        rw [e]
        exact h)).2.2⟩

/-- C1 (as stated, refuted): tempo 5.75 at 100 dpi are finite binary64
values, the exact product is 11.5 and rounds to 12, within `1..32767`, yet
the binary64 evaluation yields 11 and `setRollTempo` stores 11, not 12. -/
theorem setRollTempo_sets_rounded_counterexample :
    Binary64.IsDouble (23 / 4) ∧ Binary64.IsDouble 100 ∧
    roundHalfAwayFromZero ((23 / 4 : ℚ) / 10 * 100 * 12 / 60) = 12 ∧
    Binary64.rollTpq (23 / 4) 100 = some 11 ∧
    (Binary64.setRollTempo (emptyRoll 480) (23 / 4) 100).map getTicksPerQuarterNote
      = some 11 ∧
    (Binary64.setRollTempo (emptyRoll 480) (23 / 4) 100).map getTicksPerQuarterNote
      ≠ some (roundHalfAwayFromZero ((23 / 4 : ℚ) / 10 * 100 * 12 / 60)) := by
  have hround : roundHalfAwayFromZero ((23 / 4 : ℚ) / 10 * 100 * 12 / 60) = 12 := by
    unfold roundHalfAwayFromZero
    norm_num
  have hset : (Binary64.setRollTempo (emptyRoll 480) (23 / 4) 100).map getTicksPerQuarterNote
      = some 11 := by
    rw [setRollTempo_of_rollTpq (emptyRoll 480) rollTpq_binary64_575 (by norm_num)
      (by norm_num)]
    rfl
  refine ⟨isDouble_23_4, isDouble_100, hround, rollTpq_binary64_575, hset, ?_⟩
  rw [hset, hround]
  decide

/-- C18 (as amended): for a finite binary64 `dpi` and a computed `tpq` of
magnitude at most `32767`, when the exact product `x = tempo/10 * dpi*12/60`
is farther than `2^(-34)` from every half-integer: above `-1/2` the computed
`tpq` is `x` rounded half away from zero; below `-1/2` it is one more than
that rounding and not positive. -/
theorem rollTpq_rounding (tempo dpi : ℚ) (t : Int) (hD : Binary64.IsDouble dpi)
    (ht : Binary64.rollTpq tempo dpi = some t) (hlo : -32767 ≤ t) (hhi : t ≤ 32767)
    (hfar : ∀ k : Int, (1 : ℚ) / 2 ^ 34 < |tempo / 10 * dpi * 12 / 60 - (k + 1 / 2)|) :
    (-1 / 2 < tempo / 10 * dpi * 12 / 60 →
      t = roundHalfAwayFromZero (tempo / 10 * dpi * 12 / 60)) ∧
    (tempo / 10 * dpi * 12 / 60 < -1 / 2 →
      t = roundHalfAwayFromZero (tempo / 10 * dpi * 12 / 60) + 1 ∧ t ≤ 0) := by
  obtain ⟨s, hs, herr⟩ := rollTpq_error hD ht hlo hhi
  exact ⟨fun hx => round_eq_of_near hs herr hx hfar,
    fun hx => round_add_one_eq_of_near hs herr hx hfar⟩

/-- Tempo 100 at 300 dpi (product 600) gives 600, the rounding of 600;
tempo -3 at 300 dpi (product -18) gives -17, one more than the rounding
-18. -/
theorem rollTpq_rounding_witness :
    Binary64.IsDouble 300 ∧ Binary64.rollTpq 100 300 = some 600 ∧
    Binary64.rollTpq (-3) 300 = some (-17) ∧
    (600 : Int) = roundHalfAwayFromZero ((100 : ℚ) / 10 * 300 * 12 / 60) ∧
    ((-17 : Int) = roundHalfAwayFromZero ((-3 : ℚ) / 10 * 300 * 12 / 60) + 1 ∧ (-17 : Int) ≤ 0) :=
  ⟨isDouble_300, rollTpq_binary64_100, rollTpq_binary64_neg,
    (rollTpq_rounding 100 300 600 isDouble_300 rollTpq_binary64_100 (by norm_num) (by norm_num)
      (fun k => by
        have h := int_far_from_half 600 k
        have e : (100 : ℚ) / 10 * 300 * 12 / 60 = ((600 : Int) : ℚ) := by norm_num
        rw [e]
        exact h)).1 (by norm_num),
    (rollTpq_rounding (-3) 300 (-17) isDouble_300 rollTpq_binary64_neg (by norm_num)
      (by norm_num)
      (fun k => by
        have h := int_far_from_half (-18) k
        have e : (-3 : ℚ) / 10 * 300 * 12 / 60 = ((-18 : Int) : ℚ) := by norm_num
        rw [e]
        exact h)).2 (by norm_num)⟩

/-- C18 (as stated, refuted): tempo 5.75 at 100 dpi has the exact product
11.5, which rounds half away from zero to 12, and the computed `tpq` is 11;
tempo -3 at 300 dpi has the exact product -18, which rounds to -18, and the
computed `tpq` is -17. -/
theorem rollTpq_rounding_counterexample :
    Binary64.rollTpq (23 / 4) 100 = some 11 ∧
    roundHalfAwayFromZero ((23 / 4 : ℚ) / 10 * 100 * 12 / 60) = 12 ∧
    Binary64.rollTpq (23 / 4) 100
      ≠ some (roundHalfAwayFromZero ((23 / 4 : ℚ) / 10 * 100 * 12 / 60)) ∧
    Binary64.rollTpq (-3) 300 = some (-17) ∧
    roundHalfAwayFromZero ((-3 : ℚ) / 10 * 300 * 12 / 60) = -18 ∧
    Binary64.rollTpq (-3) 300
      ≠ some (roundHalfAwayFromZero ((-3 : ℚ) / 10 * 300 * 12 / 60)) := by
  have h1 : roundHalfAwayFromZero ((23 / 4 : ℚ) / 10 * 100 * 12 / 60) = 12 := by
    unfold roundHalfAwayFromZero
    norm_num
  have h2 : roundHalfAwayFromZero ((-3 : ℚ) / 10 * 300 * 12 / 60) = -18 := by
    unfold roundHalfAwayFromZero
    rw [if_neg (by norm_num), Int.ceil_eq_iff]
    norm_num
  refine ⟨rollTpq_binary64_575, h1, ?_, rollTpq_binary64_neg, h2, ?_⟩
  · rw [rollTpq_binary64_575, h1]
    decide
  · rw [rollTpq_binary64_neg, h2]
    decide

/-! ## Tempo mapper in binary64: the round trip from a tempo -/

/-- The rounding error of one binary64 operation, scaled by a factor `k`. -/
theorem fl64_error_scaled {q r k : ℚ} (h : Binary64.fl64 q = some r) (hk : 0 ≤ k) :
    |r * k - q * k| ≤ 1 / 2 ^ 53 * |q * k| + 1 / 2 ^ 1075 * k := by
  have e : r * k - q * k = (r - q) * k := by ring
  rw [e, abs_mul, abs_mul, abs_of_nonneg hk]
  have := mul_le_mul_of_nonneg_right (fl64_error h) hk
  linarith

/-- A computed `tpq` of at least 1 is within `1/2 + 2^(-34)` of the exact
product. -/
theorem rollTpq_near {tempo dpi : ℚ} {t : Int} (hD : Binary64.IsDouble dpi)
    (ht : Binary64.rollTpq tempo dpi = some t) (hlo : 1 ≤ t) (hhi : t ≤ 32767) :
    |(t : ℚ) - tempo / 10 * dpi * 12 / 60| ≤ 1 / 2 + 1 / 2 ^ 34 := by
  obtain ⟨s, hs, herr⟩ := rollTpq_error hD ht (by omega) hhi
  have hs0 : 0 ≤ s := by
    by_contra hc
    push_neg at hc
    have hb := (toInt_bounds s).2 hc
    rw [hs] at hb
    have u : (t : ℚ) < 1 := by linarith
    have v : t < 1 := by exact_mod_cast u
    omega
  have hb := (toInt_bounds s).1 hs0
  rw [hs] at hb
  rw [abs_le] at herr ⊢
  constructor <;> linarith

/-- The chain of `getRollTempo` for a header value in `1..32767` and a
positive finite `dpi`: the result times `dpi` is within `10^(-9)` of
`50 * tpq`. -/
theorem getRollTempo_error {dpi b0 b1 b2 b3 g : ℚ} {t : Int} (hdpi : 0 < dpi)
    (hDb : dpi ≤ 2 ^ 1024) (hlo : 1 ≤ t) (hhi : t ≤ 32767)
    (h0 : Binary64.fl64 (t : ℚ) = some b0) (h1 : Binary64.fl64 (b0 * 10) = some b1)
    (h2 : Binary64.fl64 (b1 / dpi) = some b2) (h3 : Binary64.fl64 (b2 / 12) = some b3)
    (h4 : Binary64.fl64 (b3 * 60) = some g) :
    |g * dpi - 50 * (t : ℚ)| ≤ 1 / 10 ^ 9 := by
  have hd0 : dpi ≠ 0 := ne_of_gt hdpi
  have hsub : (1 : ℚ) / 2 ^ 1075 * dpi ≤ 1 / 2 ^ 51 := by
    have hh : |dpi| ≤ 2 ^ 1024 := by rw [abs_of_pos hdpi]; exact hDb
    have := subnormal_mul_le hh
    rw [abs_of_pos hdpi] at this
    exact this
  have c1 : (t : ℚ) ≤ 32767 := by exact_mod_cast hhi
  have c2 : (1 : ℚ) ≤ t := by exact_mod_cast hlo
  have p0 : |(t : ℚ)| ≤ 32767 := by rw [abs_of_pos (by linarith)]; exact c1
  -- conversion of the header value
  have e0 : |b0 - (t : ℚ)| ≤ 4 / 10 ^ 12 := le_trans (fl64_error_le h0 p0) (by norm_num)
  have B0 : |b0| ≤ 32768 := by
    have := abs_le_add_of_err e0 p0
    have : (4 : ℚ) / 10 ^ 12 ≤ 1 := by norm_num
    linarith
  -- times 10
  have p1 : |b0 * 10| ≤ 327680 := by
    rw [abs_mul, show |(10 : ℚ)| = 10 by norm_num]
    linarith
  have e1 : |b1 - b0 * 10| ≤ 4 / 10 ^ 11 := le_trans (fl64_error_le h1 p1) (by norm_num)
  have B1 : |b1| ≤ 327681 := by
    have := abs_le_add_of_err e1 p1
    have : (4 : ℚ) / 10 ^ 11 ≤ 1 := by norm_num
    linarith
  -- divided by dpi
  have s2 := fl64_error_scaled h2 (le_of_lt hdpi)
  rw [div_mul_cancel₀ b1 hd0] at s2
  have e2 : |b2 * dpi - b1| ≤ 4 / 10 ^ 11 := by
    have : (1 : ℚ) / 2 ^ 53 * 327681 + 1 / 2 ^ 51 ≤ 4 / 10 ^ 11 := by norm_num
    have : (0 : ℚ) ≤ 1 / 2 ^ 53 := by positivity
    nlinarith
  have B2 : |b2 * dpi| ≤ 327682 := by
    have := abs_le_add_of_err e2 B1
    have : (4 : ℚ) / 10 ^ 11 ≤ 1 := by norm_num
    linarith
  -- divided by 12
  have s3 := fl64_error_scaled h3 (show (0 : ℚ) ≤ 12 * dpi by positivity)
  have q3 : b2 / 12 * (12 * dpi) = b2 * dpi := by ring
  rw [q3] at s3
  have e3 : |b3 * (12 * dpi) - b2 * dpi| ≤ 4 / 10 ^ 11 := by
    have : (1 : ℚ) / 2 ^ 53 * 327682 + 12 * (1 / 2 ^ 51) ≤ 4 / 10 ^ 11 := by norm_num
    have : (0 : ℚ) ≤ 1 / 2 ^ 53 := by positivity
    nlinarith
  have B3 : |b3 * (12 * dpi)| ≤ 327683 := by
    have := abs_le_add_of_err e3 B2
    have : (4 : ℚ) / 10 ^ 11 ≤ 1 := by norm_num
    linarith
  -- times 60
  have s4 := fl64_error_scaled h4 (show (0 : ℚ) ≤ dpi / 5 by positivity)
  have q4 : b3 * 60 * (dpi / 5) = b3 * (12 * dpi) := by ring
  rw [q4] at s4
  have e4 : |g * (dpi / 5) - b3 * (12 * dpi)| ≤ 4 / 10 ^ 11 := by
    have : (1 : ℚ) / 2 ^ 53 * 327683 + 1 / 2 ^ 51 ≤ 4 / 10 ^ 11 := by norm_num
    have : (0 : ℚ) ≤ 1 / 2 ^ 53 := by positivity
    nlinarith
  -- sum up
  have key : g * dpi - 50 * (t : ℚ)
      = 5 * ((g * (dpi / 5) - b3 * (12 * dpi)) + (b3 * (12 * dpi) - b2 * dpi)
          + (b2 * dpi - b1) + (b1 - b0 * 10) + 10 * (b0 - (t : ℚ))) := by ring
  rw [key, abs_mul, show |(5 : ℚ)| = 5 by norm_num]
  have t1 := abs_add ((g * (dpi / 5) - b3 * (12 * dpi)) + (b3 * (12 * dpi) - b2 * dpi)
          + (b2 * dpi - b1) + (b1 - b0 * 10)) (10 * (b0 - (t : ℚ)))
  have t2 := abs_add ((g * (dpi / 5) - b3 * (12 * dpi)) + (b3 * (12 * dpi) - b2 * dpi)
          + (b2 * dpi - b1)) (b1 - b0 * 10)
  have t3 := abs_add ((g * (dpi / 5) - b3 * (12 * dpi)) + (b3 * (12 * dpi) - b2 * dpi))
          (b2 * dpi - b1)
  have t4 := abs_add (g * (dpi / 5) - b3 * (12 * dpi)) (b3 * (12 * dpi) - b2 * dpi)
  have t5 : |10 * (b0 - (t : ℚ))| ≤ 4 / 10 ^ 11 := by
    rw [abs_mul, show |(10 : ℚ)| = 10 by norm_num]
    linarith
  have fin : (5 : ℚ) * (5 * (4 / 10 ^ 11)) ≤ 1 / 10 ^ 9 := by norm_num
  linarith

/-- For a header value in `1..32767` and `dpi` of at least 1, every step of
`getRollTempo` is finite. -/
theorem getRollTempo_exists {mr : Roll} {dpi : ℚ} (hdpi : 1 ≤ dpi)
    (hlo : 1 ≤ getTicksPerQuarterNote mr) (hhi : getTicksPerQuarterNote mr ≤ 32767) :
    ∃ g, Binary64.getRollTempo mr dpi = some g := by
  have hP : (2 : ℚ) ^ 30 ≤ 2 ^ 1023 := pow_le_pow_right₀ (by norm_num) (by norm_num)
  have hP2 : (2 : ℚ) ^ 30 = 1073741824 := by norm_num
  have hd0 : dpi ≠ 0 := by
    intro h
    rw [h] at hdpi
    norm_num at hdpi
  have c1 : ((getTicksPerQuarterNote mr : Int) : ℚ) ≤ 32767 := by exact_mod_cast hhi
  have c2 : (1 : ℚ) ≤ ((getTicksPerQuarterNote mr : Int) : ℚ) := by exact_mod_cast hlo
  have p0 : |((getTicksPerQuarterNote mr : Int) : ℚ)| ≤ 32767 := by
    rw [abs_of_pos (by linarith)]; exact c1
  obtain ⟨b0, h0, e0⟩ := fl64_step p0 (by linarith)
  have B0 : |b0| ≤ 32768 := by
    have := abs_le_add_of_err e0 p0
    have : (1 : ℚ) / 2 ^ 53 * 32767 + 1 / 2 ^ 1075 ≤ 1 := by norm_num
    linarith
  have p1 : |b0 * 10| ≤ 327680 := by
    rw [abs_mul, show |(10 : ℚ)| = 10 by norm_num]
    linarith
  obtain ⟨b1, h1, e1⟩ := fl64_step p1 (by linarith)
  have B1 : |b1| ≤ 327681 := by
    have := abs_le_add_of_err e1 p1
    have : (1 : ℚ) / 2 ^ 53 * 327680 + 1 / 2 ^ 1075 ≤ 1 := by norm_num
    linarith
  have p2 : |b1 / dpi| ≤ 327681 := by
    rw [abs_div, abs_of_pos (by linarith : (0 : ℚ) < dpi)]
    exact le_trans (div_le_self (abs_nonneg b1) hdpi) B1
  obtain ⟨b2, h2, e2⟩ := fl64_step p2 (by linarith)
  have B2 : |b2| ≤ 327682 := by
    have := abs_le_add_of_err e2 p2
    have : (1 : ℚ) / 2 ^ 53 * 327681 + 1 / 2 ^ 1075 ≤ 1 := by norm_num
    linarith
  have p3 : |b2 / 12| ≤ 327682 := by
    rw [abs_div, show |(12 : ℚ)| = 12 by norm_num]
    exact le_trans (div_le_self (abs_nonneg b2) (by norm_num)) B2
  obtain ⟨b3, h3, e3⟩ := fl64_step p3 (by linarith)
  have B3 : |b3| ≤ 327683 := by
    have := abs_le_add_of_err e3 p3
    have : (1 : ℚ) / 2 ^ 53 * 327682 + 1 / 2 ^ 1075 ≤ 1 := by norm_num
    linarith
  have p4 : |b3 * 60| ≤ 60 * 327683 := by
    rw [abs_mul, show |(60 : ℚ)| = 60 by norm_num]
    linarith
  obtain ⟨g, h4, _⟩ := fl64_step p4 (by linarith)
  exact ⟨g, getRollTempo_of_steps rfl hd0 h0 h1 h2 h3 h4⟩

/-- C3 (as amended): for a positive finite binary64 `dpi` and a tempo whose
computed `tpq` lies in `1..32767`, `setRollTempo` stores that `tpq`, and
every finite value that `getRollTempo(dpi)` then returns is within
`25/dpi * (1 + 2^(-32))` of the tempo set; for `dpi` of at least 1 the value
is finite. -/
theorem getRollTempo_setRollTempo (mr : Roll) (tempo dpi : ℚ) (t : Int) (hdpi : 0 < dpi)
    (hD : Binary64.IsDouble dpi) (ht : Binary64.rollTpq tempo dpi = some t)
    (hlo : 1 ≤ t) (hhi : t ≤ 32767) :
    Binary64.setRollTempo mr tempo dpi = some (setTicksPerQuarterNote mr t) ∧
    (∀ g, Binary64.getRollTempo (setTicksPerQuarterNote mr t) dpi = some g →
      |g - tempo| ≤ 25 / dpi * (1 + 1 / 2 ^ 32)) ∧
    (1 ≤ dpi → ∃ g, Binary64.getRollTempo (setTicksPerQuarterNote mr t) dpi = some g) := by
  refine ⟨setRollTempo_of_rollTpq mr ht hlo hhi, ?_, ?_⟩
  · intro g hg
    have hd0 : dpi ≠ 0 := ne_of_gt hdpi
    obtain ⟨b0, b1, b2, b3, h0, h1, h2, h3, h4⟩ := getRollTempo_steps hd0 hg
    have hDb : dpi ≤ 2 ^ 1024 := by
      have := isDouble_abs_lt hD
      rw [abs_of_pos hdpi] at this
      exact le_of_lt this
    have hback := getRollTempo_error hdpi hDb hlo hhi h0 h1 h2 h3 h4
    have hfwd := rollTpq_near hD ht hlo hhi
    have e : 25 / dpi * (1 + 1 / 2 ^ 32) = (25 * (1 + 1 / 2 ^ 32)) / dpi := by ring
    rw [e, le_div_iff₀ hdpi]
    have e2 : |g - tempo| * dpi = |g * dpi - tempo * dpi| := by
      rw [← sub_mul, abs_mul, abs_of_pos hdpi]
    rw [e2]
    have e3 : g * dpi - tempo * dpi
        = (g * dpi - 50 * (t : ℚ)) + 50 * ((t : ℚ) - tempo / 10 * dpi * 12 / 60) := by ring
    rw [e3]
    have t1 := abs_add (g * dpi - 50 * (t : ℚ)) (50 * ((t : ℚ) - tempo / 10 * dpi * 12 / 60))
    have t2 : |50 * ((t : ℚ) - tempo / 10 * dpi * 12 / 60)| ≤ 50 * (1 / 2 + 1 / 2 ^ 34) := by
      rw [abs_mul, show |(50 : ℚ)| = 50 by norm_num]
      linarith
    have fin : (1 : ℚ) / 10 ^ 9 + 50 * (1 / 2 + 1 / 2 ^ 34) ≤ 25 * (1 + 1 / 2 ^ 32) := by
      norm_num
    linarith
  · intro h1
    exact getRollTempo_exists h1 hlo hhi

/-- Tempo 100 at 300 dpi: `tpq` is 600 and the tempo read back is 100. -/
theorem getRollTempo_setRollTempo_witness :
    (0 : ℚ) < 300 ∧ Binary64.IsDouble 300 ∧ Binary64.rollTpq 100 300 = some 600 ∧
    Binary64.setRollTempo (emptyRoll 480) 100 300
      = some (setTicksPerQuarterNote (emptyRoll 480) 600) ∧
    Binary64.getRollTempo (setTicksPerQuarterNote (emptyRoll 480) 600) 300 = some 100 ∧
    |(100 : ℚ) - 100| ≤ 25 / 300 * (1 + 1 / 2 ^ 32) :=
  ⟨by norm_num, isDouble_300, rollTpq_binary64_100,
    (getRollTempo_setRollTempo (emptyRoll 480) 100 300 600 (by norm_num) isDouble_300
      rollTpq_binary64_100 (by norm_num) (by norm_num)).1,
    getRollTempo_binary64_600 (emptyRoll 480),
    (getRollTempo_setRollTempo (emptyRoll 480) 100 300 600 (by norm_num) isDouble_300
      rollTpq_binary64_100 (by norm_num) (by norm_num)).2.1 100
      (getRollTempo_binary64_600 (emptyRoll 480))⟩

/-- C3 (as stated, refuted): tempo 15.25 at 100 dpi are finite binary64
values, the computed `tpq` is 31, within `1..32767`, and `getRollTempo(100)`
then returns `8725724278030337 / 2^49`, which is `1 / 2^49` farther from
15.25 than `25/dpi = 1/4`. -/
theorem getRollTempo_setRollTempo_counterexample :
    Binary64.IsDouble (61 / 4) ∧ Binary64.IsDouble 100 ∧ (0 : ℚ) < 100 ∧
    Binary64.rollTpq (61 / 4) 100 = some 31 ∧
    Binary64.setRollTempo (emptyRoll 480) (61 / 4) 100
      = some (setTicksPerQuarterNote (emptyRoll 480) 31) ∧
    Binary64.getRollTempo (setTicksPerQuarterNote (emptyRoll 480) 31) 100
      = some (8725724278030337 / 562949953421312) ∧
    (25 : ℚ) / 100 < |8725724278030337 / 562949953421312 - 61 / 4| := by
  refine ⟨isDouble_61_4, isDouble_100, by norm_num, rollTpq_binary64_1525,
    setRollTempo_of_rollTpq (emptyRoll 480) rollTpq_binary64_1525 (by norm_num) (by norm_num),
    getRollTempo_binary64_31 (emptyRoll 480), ?_⟩
  rw [abs_of_pos (by norm_num)]
  norm_num

/-! ## Metadata codec: insertion of a new entry -/

end MidiRoll
